import Mathlib

/-!
# simple-shell: lexer, preprocessor and pipeline executor

A shallow embedding of `src/simple_shell.cpp`.

* A `std::string` is a Lean `String`; its bytes are the `Char`s of `String.data`.
  Reading the position one past the last character yields the terminator `'\0'`;
  reading further is outside the buffer and is reported as `out_of_range`.
* `enum class` values keep their integer value (`Mode.toInt`, `eSymbol.toInt`), because
  the transition table is indexed by those integers.
* `abort()` and reads outside a buffer are explicit outcomes of the result types.
* A `const char*` is the C-string view `c_str` of the buffer it points to; `nullptr` is `none`.
* `size_t` indices and counters are bounded by the size of the container they walk, so they
  are natural numbers without wrap-around.
* What the operating system decides (the side of a `fork()`, the result of `chdir`, the
  content of uninitialised memory) is a parameter, `Env`.
* The loops are iterated with an iteration budget that is never exhausted
  (`Parse_cmd_fuel`, `Preprocess_step_in_range`, `Execute_entire_cmd_live`).
-/

namespace SimpleShell

/-! ## Enumerations (lines 16-52) -/

/-- The lexer states, `enum class Mode`. -/
inductive Mode
  | empty
  | number
  | operators
  | identifier
  | seperator
  | string
  | done
  | _Mode_size
  | _check_needed
  | _unreachable
  deriving DecidableEq, Repr

/-- The integer value the enumeration assigns to each `Mode`
(`string = 6`, `done = 7`, then `_Mode_size = 8`, `_check_needed = 9`, `_unreachable = 10`). -/
def Mode.toInt : Mode → Nat
  | .empty => 0
  | .number => 1
  | .operators => 2
  | .identifier => 3
  | .seperator => 4
  | .string => 6
  | .done => 7
  | ._Mode_size => 8
  | ._check_needed => 9
  | ._unreachable => 10

/-- The symbol classes, `enum class eSymbol`. -/
inductive eSymbol
  | space
  | digit
  | operators
  | seperator
  | quote
  | others
  | _eSymbol_size
  deriving DecidableEq, Repr

/-- The integer value of each `eSymbol` (declaration order, starting at 0). -/
def eSymbol.toInt : eSymbol → Nat
  | .space => 0
  | .digit => 1
  | .operators => 2
  | .seperator => 3
  | .quote => 4
  | .others => 5
  | ._eSymbol_size => 6

/-- The operator kinds, `enum class eOperator`. -/
inductive eOperator
  | e_and
  | e_or
  | pipe
  | background
  | pipe_bg
  | in_redirect
  | out_redirect
  | out_append_redirect
  | _eOperator_size
  deriving DecidableEq, Repr

/-- A pair of an operator literal and its kind, `struct Operator_type_pair`. -/
structure Operator_type_pair where
  str : String
  type : eOperator
  deriving DecidableEq, Repr

/-! ## Static tables (lines 64-85) -/

/-- The array `gOperator_type_table`.  It is declared with
`int(eOperator::_eOperator_size) = 8` elements and seven initialisers; the eighth element is
built by the default constructor `Operator_type_pair(){}`, which gives the empty `str` and
leaves `type` as the zero bytes of static storage, that is `eOperator::e_and`. -/
def gOperator_type_table : List Operator_type_pair :=
  [ ⟨"&&", .e_and⟩,
    ⟨"||", .e_or⟩,
    ⟨"|", .pipe⟩,
    ⟨"&", .background⟩,
    ⟨"<", .in_redirect⟩,
    ⟨">", .out_redirect⟩,
    ⟨">>", .out_append_redirect⟩,
    ⟨"", .e_and⟩ ]

/-- The seven rows written in the initialiser of `gTransistion_table`, in source order.
Columns: space, digit, operator, seperator, quote, others. -/
def gTransistion_rows : List (List Mode) :=
  [ [.empty, .number, .operators, .seperator, .string, .identifier],
    [.done, .number, .done, .done, .done, ._unreachable],
    [.done, .done, .operators, .done, .done, .done],
    [.done, .identifier, .done, .done, .done, .identifier],
    [.done, ._check_needed, .done, .done, .done, ._check_needed],
    [.done, ._check_needed, .done, .done, ._check_needed, ._check_needed],
    [.empty, .number, .operators, .seperator, .string, .identifier] ]

/-- The lookup `gTransistion_table[r][c]`.  The array has `int(Mode::_Mode_size) = 8` rows of
`int(eSymbol::_eSymbol_size) = 6` entries; rows without an initialiser are zero-initialised,
which is `Mode::empty`.  An index outside the array gives `none`. -/
def gTransistion_table (r c : Nat) : Option Mode :=
  if r < Mode._Mode_size.toInt ∧ c < eSymbol._eSymbol_size.toInt then
    match gTransistion_rows[r]? with
    | some row => some (row.getD c Mode.empty)
    | none => some Mode.empty
  else none

/-! ## Character classification (lines 226-315) -/

/-- `Is_operator`: the `switch` over the operator characters. -/
def Is_operator (c : Char) : Bool :=
  c = '+' || c = '-' || c = '*' || c = '/' || c = '%' || c = '.' || c = ':' || c = '?'
    || c = '&' || c = '|' || c = '^' || c = '~' || c = '>' || c = '<'

/-- `Is_open_seperator`. -/
def Is_open_seperator (c : Char) : Bool :=
  c = '(' || c = '[' || c = '{'

/-- `Is_close_seperator`. -/
def Is_close_seperator (c : Char) : Bool :=
  c = ')' || c = ']' || c = '}'

/-- `Is_seperator`: a bracket or the string terminator. -/
def Is_seperator (c : Char) : Bool :=
  Is_open_seperator c || Is_close_seperator c || c = '\x00'

/-- `std::isdigit` in the "C" locale. -/
def isdigit (c : Char) : Bool :=
  decide ('0'.toNat ≤ c.toNat) && decide (c.toNat ≤ '9'.toNat)

/-- `isalpha` in the "C" locale. -/
def isalpha (c : Char) : Bool :=
  (decide ('A'.toNat ≤ c.toNat) && decide (c.toNat ≤ 'Z'.toNat))
    || (decide ('a'.toNat ≤ c.toNat) && decide (c.toNat ≤ 'z'.toNat))

/-- `Is_others`: a letter, `$`, `_`, `.` or `/`. -/
def Is_others (c : Char) : Bool :=
  isalpha c || c = '$' || c = '_' || c = '.' || c = '/'

/-- `Check_symbol`; `none` is the final `else` branch, which calls `abort()`. -/
def Check_symbol (c : Char) : Option eSymbol :=
  if isdigit c then some .digit
  else if Is_others c then some .others
  else if Is_operator c then some .operators
  else if Is_seperator c then some .seperator
  else if c = ' ' then some .space
  else none

/-! ## Operator resolver (lines 317-328) -/

/-- `Get_operator_type_pair`: the first table entry whose literal equals `src`
(`none` is the `return false`). -/
def Get_operator_type_pair (src : String) : Option Operator_type_pair :=
  gOperator_type_table.find? (fun item => item.str == src)

/-! ## Tokens and the lexer (lines 109-122, 331-393) -/

/-- A token, `struct Token`. -/
structure Token where
  data : String
  start : Nat
  end_ : Nat
  type : Mode
  deriving DecidableEq, Repr

/-- The outcome of `Parse_cmd`. -/
inductive ParseResult
  /-- `return true` with `*dst = token_list`. -/
  | ok (token_list : List Token)
  /-- `return false` after printing the syntax error (the `_unreachable` transition). -/
  | rejected
  /-- `Check_symbol` called `abort()`. -/
  | aborted
  /-- A read outside the string buffer or outside `gTransistion_table`. -/
  | out_of_range
  /-- The iteration budget of the embedding was exhausted (never happens, see
  `Parse_cmd_fuel`). -/
  | out_of_fuel
  deriving DecidableEq, Repr

/-- The character `*it` for an iterator at offset `i`: a character of the string, the
terminator at `i = size()`, nothing beyond. -/
def deref (str : String) (i : Nat) : Option Char :=
  if i < str.length then str.data[i]?
  else if i = str.length then some '\x00'
  else none

/-- `str.substr(pos, count)`. -/
def substr (str : String) (pos count : Nat) : String :=
  ⟨(str.data.drop pos).take count⟩

/-- The loop `while (*tail_it == ' ') tail_it++`, starting at offset `tail`
(the terminator is not a space, so the loop stops at the end of the string at the latest). -/
def skip_spaces (str : String) (tail : Nat) : Nat :=
  tail + ((str.data.drop tail).takeWhile (fun c => c = ' ')).length

/-- Lines 346-358: the table lookup followed by the `_check_needed` resolution.
`prev` is `*(head_it - 1)`, absent when `head_it` is at the beginning. -/
def next_mode (old_mode : Mode) (symbol : eSymbol) (prev : Option Char) : Option Mode :=
  match gTransistion_table old_mode.toInt symbol.toInt with
  | none => none
  | some mode =>
    if mode = Mode._check_needed then
      if old_mode = Mode.seperator then
        match prev with
        | none => none
        | some p => if Is_open_seperator p then some Mode.done else some Mode._unreachable
      else some mode
    else some mode

/-- The body of the `for (;; head_it++)` loop of `Parse_cmd`, iterated at most `fuel` times.
`tail` and `head` are the offsets of `tail_it` and `head_it`.  A token is never emitted at
`head = 0` (`Parse_loop_inv`), so the `size_t` value `head - 1` of its `end` does not wrap. -/
def Parse_loop (str : String) :
    Nat → Mode → Nat → Nat → List Token → ParseResult
  | 0, _, _, _, _ => .out_of_fuel
  | fuel + 1, mode, tail, head, token_list =>
    match deref str head with
    | none => .out_of_range
    | some c =>
      match Check_symbol c with
      | none => .aborted
      | some symbol =>
        let old_mode := mode
        match next_mode old_mode symbol (if head = 0 then none else deref str (head - 1)) with
        | none => .out_of_range
        | some mode =>
          if mode = Mode._unreachable then .rejected
          else if mode = Mode.done then
            let str_token := substr str tail (head - tail)
            let token_list := token_list ++ [⟨str_token, tail, head - 1, old_mode⟩]
            let tail := skip_spaces str head
            let head := tail
            match gTransistion_table Mode.done.toInt symbol.toInt with
            | none => .out_of_range
            | some mode =>
              if head = str.length then .ok token_list
              -- `head_it -= 1` and then the loop increment `head_it++`
              else Parse_loop str fuel mode tail head token_list
          else Parse_loop str fuel mode tail (head + 1) token_list

/-- `Parse_cmd`.  Every offset from 0 to `size()` is examined at most twice, so
`2 * size() + 3` iterations always suffice. -/
def Parse_cmd (str : String) : ParseResult :=
  Parse_loop str (2 * str.length + 3) Mode.empty 0 0 []

/-- The state the lexer is in after reading `data` from state `mode`, where `prev` is the
character read just before (the specification-side replay of lines 342-358 over a text). -/
def scan_mode : Mode → Option Char → List Char → Option Mode
  | mode, _, [] => some mode
  | mode, prev, c :: cs =>
    match Check_symbol c with
    | none => none
    | some symbol =>
      match next_mode mode symbol prev with
      | none => none
      | some mode => scan_mode mode (some c) cs

/-! ## The instruction list (lines 124-190) and the preprocessor (lines 395-454) -/

/-- Open flag of `<fcntl.h>` (Linux value). -/
def O_RDONLY : Nat := 0

/-- Open flag of `<fcntl.h>` (Linux value). -/
def O_WRONLY : Nat := 1

/-- Open flag of `<fcntl.h>` (Linux value, octal 0100). -/
def O_CREAT : Nat := 64

/-- Open flag of `<fcntl.h>` (Linux value, octal 01000). -/
def O_TRUNC : Nat := 512

/-- Open flag of `<fcntl.h>` (Linux value, octal 02000). -/
def O_APPEND : Nat := 1024

/-- The fields of `struct Shell_instruction_list` that the lexer, the preprocessor and the
control flow of the executor use, with their default member initialisers.  File descriptors
and the two `Pipe_t` objects are operating-system resources and are not part of the state;
`cmd_list` holds C strings, `none` being `nullptr`. -/
structure Shell_instruction_list where
  in_open_mode : Nat := 0
  out_open_mode : Nat := 0
  cmd_count : Nat := 1
  in_file_name : String := ""
  out_file_name : String := ""
  instruction_list : List String := []
  cmd_list : List (Option String) := []
  cur_read_pipe : Nat := 0
  is_first_cmd : Bool := true
  exit_flag : Bool := false
  deriving DecidableEq, Repr

/-- `Shell_instruction_list::size()`. -/
def Shell_instruction_list.size (src : Shell_instruction_list) : Nat :=
  src.instruction_list.length

/-- The outcome of `Preprocess_step`. -/
inductive PreprocessResult
  /-- `return true`, with the final value of `dst`. -/
  | ok (dst : Shell_instruction_list)
  /-- `return false` (the caller prints "syntax error"). -/
  | failed
  /-- An access `token_list[k]` with `k >= token_list.size()`. -/
  | out_of_range
  /-- The iteration budget of the embedding was exhausted. -/
  | out_of_fuel
  deriving DecidableEq, Repr

/-- `dst.instruction_list.push_back(s)`. -/
def Shell_instruction_list.push (dst : Shell_instruction_list) (s : String) :
    Shell_instruction_list :=
  { dst with instruction_list := dst.instruction_list ++ [s] }

/-- `dst.in_file_name = name; dst.in_open_mode = mode`. -/
def Shell_instruction_list.set_in (dst : Shell_instruction_list) (name : String) (mode : Nat) :
    Shell_instruction_list :=
  { dst with in_file_name := name, in_open_mode := mode }

/-- `dst.out_file_name = name; dst.out_open_mode = mode`. -/
def Shell_instruction_list.set_out (dst : Shell_instruction_list) (name : String) (mode : Nat) :
    Shell_instruction_list :=
  { dst with out_file_name := name, out_open_mode := mode }

/-- `if (data == "|") dst.cmd_count += 1`. -/
def Shell_instruction_list.count_pipe (dst : Shell_instruction_list) (data : String) :
    Shell_instruction_list :=
  if data = "|" then { dst with cmd_count := dst.cmd_count + 1 } else dst

/-- The `for (i = 0; i < token_list.size(); i++)` loop of `Preprocess_step`, iterated at most
`fuel` times, from index `i`.  `cmd_count` and the indices are `size_t`; they are bounded by
the number of tokens, so no wrap-around can occur. -/
def Preprocess_loop (token_list : List Token) :
    Nat → Nat → Shell_instruction_list → PreprocessResult
  | 0, _, _ => .out_of_fuel
  | fuel + 1, i, dst =>
    if i < token_list.length then
      match token_list[i]? with
      | none => .out_of_range
      | some tok =>
        if tok.type = Mode.identifier ∨ tok.type = Mode.number then
          Preprocess_loop token_list fuel (i + 1) (dst.push tok.data)
        else if tok.data = "-" then
          if i + 1 ≥ token_list.length then .failed
          else
            match token_list[i + 1]? with
            | none => .out_of_range
            | some nxt =>
              if nxt.type ≠ Mode.identifier then .failed
              else
                let tmp := tok.data ++ nxt.data
                -- the `i++` of this branch and the `i++` of the loop
                Preprocess_loop token_list fuel (i + 1 + 1) (dst.push tmp)
        else if tok.data = "<" then
          if i + 1 ≥ token_list.length then .failed
          else
            match token_list[i + 1]? with
            | none => .out_of_range
            | some nxt =>
              if nxt.type ≠ Mode.identifier then .failed
              else
                Preprocess_loop token_list fuel (i + 1)
                  ((dst.push tok.data).set_in nxt.data O_RDONLY)
        else if tok.data = ">" then
          if i + 1 ≥ token_list.length then .failed
          else
            match token_list[i + 1]? with
            | none => .out_of_range
            | some nxt =>
              if nxt.type ≠ Mode.identifier then .failed
              else
                Preprocess_loop token_list fuel (i + 1)
                  ((dst.push tok.data).set_out nxt.data (O_WRONLY ||| O_CREAT ||| O_TRUNC))
        else if tok.data = ">>" then
          if i + 1 ≥ token_list.length then .failed
          else
            match token_list[i + 1]? with
            | none => .out_of_range
            | some nxt =>
              if nxt.type ≠ Mode.identifier then .failed
              else
                Preprocess_loop token_list fuel (i + 1)
                  ((dst.push tok.data).set_out nxt.data
                    (O_WRONLY ||| O_APPEND ||| O_CREAT ||| O_APPEND))
        else
          Preprocess_loop token_list fuel (i + 1) ((dst.count_pipe tok.data).push tok.data)
    else .ok dst

/-- `Preprocess_step`: the index advances in every iteration, so `size() + 1` iterations
suffice. -/
def Preprocess_step (token_list : List Token) (dst : Shell_instruction_list) :
    PreprocessResult :=
  Preprocess_loop token_list (token_list.length + 1) 0 dst

/-! ## Builtins (lines 456-506) and the executor (lines 508-591) -/

/-- The C-string view of a `std::string` buffer (`.data()` read as `const char*`): the
characters before the first `'\0'`. -/
def c_str (s : String) : String :=
  ⟨s.data.takeWhile (fun c => c ≠ '\x00')⟩

/-- `strcmp(a, b) == 0`. -/
def strcmp_eq (a b : String) : Bool :=
  c_str a == c_str b

/-- The closures `Get_builtin_func` can return. -/
inductive Builtin
  /-- The lambda `invalid_butilin`, which returns `false`. -/
  | invalid_butilin
  /-- The lambda returning `chdir(src.cmd_list[1]) == 0`. -/
  | cd
  /-- The lambda setting `src.exit_flag = true` and returning `true`. -/
  | exit
  /-- The lambda printing the author and returning `true`. -/
  | whoisauthor
  deriving DecidableEq, Repr

/-- `Get_builtin_func`.  The outer `none` is an invalid read: `src.cmd_list[0]` does not exist
or is `nullptr` and is handed to `strcmp`.  `some none` is the empty `std::function`. -/
def Get_builtin_func (src : Shell_instruction_list) : Option (Option Builtin) :=
  match src.cmd_list[0]? with
  | none => none
  | some none => none
  | some (some arg0) =>
    if strcmp_eq arg0 "cd" then
      if src.cmd_list.length = 2 + 1 then some (some .cd) else some (some .invalid_butilin)
    else if strcmp_eq arg0 "exit" then
      if src.cmd_list.length = 1 + 1 then some (some .exit) else some (some .invalid_butilin)
    else if strcmp_eq arg0 "whoisauthor" then
      if src.cmd_list.length = 1 + 1 then some (some .whoisauthor)
      else some (some .invalid_butilin)
    else some none

/-- Which continuation of a `fork()` call is followed. -/
inductive ForkSide
  /-- `fork()` returned non-zero: the calling process. -/
  | parent
  /-- `fork()` returned 0 and `execvp` returned (it failed). -/
  | child_exec_failed
  /-- `fork()` returned 0 and the child never returns from `execute_cmd`: `execvp` replaced the
  program image, or `open_file` called `abort()`. -/
  | child_gone
  deriving DecidableEq, Repr

/-- What the executor cannot decide by itself.  The index is the loop index `i`. -/
structure Env where
  /-- Whether `chdir(path) == 0`. -/
  chdir : Option String → Bool
  /-- The value found in the uninitialised `type` member of the local `type_pair` of
  iteration `i`. -/
  junk : Nat → eOperator
  /-- The continuation followed at the `fork()` of the stage completed at iteration `i`. -/
  fork : Nat → ForkSide

/-- A completed stage: the state when `Get_builtin_func` is called at line 567. -/
structure Stage where
  /-- The vector `src.cmd_list`, with the trailing `nullptr`. -/
  argv : List (Option String)
  /-- The result of `Get_builtin_func` (`none`: an external program). -/
  builtin : Option Builtin
  /-- The value of `type_pair.type`. -/
  op : eOperator
  is_first_cmd : Bool
  cur_read_pipe : Nat
  cmd_count : Nat
  deriving DecidableEq, Repr

/-- The outcome of `Execute_entire_cmd`, with the stages completed on the way. -/
inductive ExecResult
  /-- The function returned `live` in the followed process. -/
  | returned (live : Bool) (src : Shell_instruction_list) (stages : List Stage)
  /-- The followed process is a child that left `Execute_entire_cmd` for good. -/
  | child_gone (stages : List Stage)
  /-- An invalid read (`Get_builtin_func` on an argument vector without a first argument, or
  an index outside a container). -/
  | invalid_access (stages : List Stage)
  /-- The iteration budget of the embedding was exhausted. -/
  | out_of_fuel
  deriving DecidableEq, Repr

/-- Calling a builtin closure: the returned `bool` and the state afterwards. -/
def Builtin.call (env : Env) (src : Shell_instruction_list) :
    Builtin → Bool × Shell_instruction_list
  | .invalid_butilin => (false, src)
  | .cd => (env.chdir ((src.cmd_list.getD 1 none)), src)
  | .exit => (true, { src with exit_flag := true })
  | .whoisauthor => (true, src)

/-- The lambda `execute_cmd` (lines 513-551) in the continuation `side` of its `fork()`.
`none`: the followed child never returns from it. -/
def execute_cmd (side : ForkSide) (src : Shell_instruction_list) :
    Option (Bool × Shell_instruction_list) :=
  match side with
  | .child_gone => none
  | .child_exec_failed => some (false, src)
  | .parent => some (true, if src.is_first_cmd = true then { src with is_first_cmd := false } else src)

/-- `src.cmd_list.push_back(p)`. -/
def Shell_instruction_list.push_cmd (src : Shell_instruction_list) (p : Option String) :
    Shell_instruction_list :=
  { src with cmd_list := src.cmd_list ++ [p] }

/-- Lines 581-583: `cur_read_pipe = !cur_read_pipe; cmd_count -= 1; cmd_list.clear()`
(`cmd_count` is not 0 here, by the loop condition). -/
def Shell_instruction_list.next_cmd (src : Shell_instruction_list) : Shell_instruction_list :=
  { src with
    cur_read_pipe := if src.cur_read_pipe = 0 then 1 else 0,
    cmd_count := src.cmd_count - 1,
    cmd_list := [] }

/-- Lines 571-574: the builtin is called in the current process, anything else goes through
`execute_cmd`.  `none`: the followed child never returns. -/
def run_cmd_list (env : Env) (i : Nat) (builtin_func : Option Builtin)
    (src : Shell_instruction_list) : Option (Bool × Shell_instruction_list) :=
  match builtin_func with
  | some f => some (f.call env src)
  | none => execute_cmd (env.fork i) src

/-- Lines 584-587: the extra `i++` after a redirect operator. -/
def skip_operand (type : eOperator) (i : Nat) : Nat :=
  if type = eOperator.out_append_redirect ∨ type = eOperator.out_redirect
      ∨ type = eOperator.in_redirect then i + 1
  else i

/-- The `for (i = 0; i < src.size() && src.cmd_count != 0; i++)` loop of `Execute_entire_cmd`,
iterated at most `fuel` times, from index `i`. -/
def Execute_loop (env : Env) :
    Nat → Nat → Shell_instruction_list → List Stage → ExecResult
  | 0, _, _, _ => .out_of_fuel
  | fuel + 1, i, src, stages =>
    if i < src.size ∧ src.cmd_count ≠ 0 then
      match src.instruction_list[i]? with
      | none => .invalid_access stages
      | some instruction =>
        let found := Get_operator_type_pair (c_str instruction)
        let type_pair : Operator_type_pair := found.getD ⟨"", env.junk i⟩
        let is_operator := found.isSome
        let src := if is_operator = false then src.push_cmd (some (c_str instruction)) else src
        if is_operator = true ∨ i + 1 = src.size then
          let src := src.push_cmd none
          match Get_builtin_func src with
          | none => .invalid_access stages
          | some builtin_func =>
            let stages := stages ++
              [⟨src.cmd_list, builtin_func, type_pair.type, src.is_first_cmd, src.cur_read_pipe,
                src.cmd_count⟩]
            match run_cmd_list env i builtin_func src with
            | none => .child_gone stages
            | some (_, src) =>
              if src.exit_flag = true then .returned false src stages
              else Execute_loop env fuel (skip_operand type_pair.type i + 1) src.next_cmd stages
        else Execute_loop env fuel (i + 1) src stages
    else .returned true src stages

/-- `Execute_entire_cmd`: the index advances in every iteration, so `size() + 1` iterations
suffice. -/
def Execute_entire_cmd (env : Env) (src : Shell_instruction_list) : ExecResult :=
  Execute_loop env (src.size + 1) 0 src []

/-- The environment in which every `fork()` is followed in the parent process. -/
def Env.in_parent (chdir : Option String → Bool) (junk : Nat → eOperator) : Env :=
  ⟨chdir, junk, fun _ => ForkSide.parent⟩

/-- One iteration of the loop of `main` (lines 198-219) after the line was read: the value of
`live`, or the reason why the loop is left at a `break`. -/
def run_line (env : Env) (str : String) : Option ExecResult :=
  match Parse_cmd str with
  | .ok token_list =>
    match Preprocess_step token_list {} with
    | .ok shell_instruction_list => some (Execute_entire_cmd env shell_instruction_list)
    | _ => none
  | _ => none

/-! ## Specification-side predicates -/

/-- What C1 says of one token `t` of the line `str`: its text is the slice of the line from
`start` to `end_` inclusive, its type is the state the lexer reaches on that text from
`Mode::empty`, and the character after it makes the transition to `Mode::done`. -/
def Token.wf (str : String) (t : Token) : Prop :=
  t.start ≤ t.end_ ∧ t.end_ < str.length
    ∧ t.data = substr str t.start (t.end_ + 1 - t.start)
    ∧ t.end_ + 1 = t.start + t.data.length
    ∧ scan_mode Mode.empty none t.data.data = some t.type
    ∧ ∃ c symbol, deref str (t.end_ + 1) = some c ∧ Check_symbol c = some symbol
        ∧ next_mode t.type symbol (deref str t.end_) = some Mode.done

/-- Consecutive tokens do not overlap and follow the input order. -/
def Token.before (p n : Token) : Prop :=
  p.end_ < n.start

/-- The loop of `Preprocess_step` as a recursion over the tokens from index `i` on
(`none`: `return false`); `Preprocess_loop_eq` shows that it is the loop. -/
def Preprocess_list : List Token → Shell_instruction_list → Option Shell_instruction_list
  | [], dst => some dst
  | [tok], dst =>
    if tok.type = Mode.identifier ∨ tok.type = Mode.number then some (dst.push tok.data)
    else if tok.data = "-" then none
    else if tok.data = "<" then none
    else if tok.data = ">" then none
    else if tok.data = ">>" then none
    else
      some ((dst.count_pipe tok.data).push tok.data)
  | tok :: nxt :: rest, dst =>
    if tok.type = Mode.identifier ∨ tok.type = Mode.number then
      Preprocess_list (nxt :: rest) (dst.push tok.data)
    else if tok.data = "-" then
      if nxt.type ≠ Mode.identifier then none
      else Preprocess_list rest (dst.push (tok.data ++ nxt.data))
    else if tok.data = "<" then
      if nxt.type ≠ Mode.identifier then none
      else Preprocess_list (nxt :: rest) ((dst.push tok.data).set_in nxt.data O_RDONLY)
    else if tok.data = ">" then
      if nxt.type ≠ Mode.identifier then none
      else Preprocess_list (nxt :: rest)
        ((dst.push tok.data).set_out nxt.data (O_WRONLY ||| O_CREAT ||| O_TRUNC))
    else if tok.data = ">>" then
      if nxt.type ≠ Mode.identifier then none
      else Preprocess_list (nxt :: rest)
        ((dst.push tok.data).set_out nxt.data (O_WRONLY ||| O_APPEND ||| O_CREAT ||| O_APPEND))
    else
      Preprocess_list (nxt :: rest) ((dst.count_pipe tok.data).push tok.data)

/-- The result of `Preprocess_step` that corresponds to a result of `Preprocess_list`. -/
def PreprocessResult.ofOption : Option Shell_instruction_list → PreprocessResult
  | some dst => .ok dst
  | none => .failed

/-- The token sequences in which only operator tokens carry the text of an operator literal
that `Preprocess_step` looks for; the token sequences of the lexer are of this kind
(`Parse_cmd_typed`). -/
def typed_like_lexer (token_list : List Token) : Prop :=
  ∀ t ∈ token_list,
    (t.data = "-" ∨ t.data = "<" ∨ t.data = ">" ∨ t.data = ">>" ∨ t.data = "|") →
      t.type = Mode.operators

/-- The number of tokens whose text is exactly `|`. -/
def pipes (token_list : List Token) : Nat :=
  (token_list.map Token.data).count "|"

/-- Sequencing of two runs of the preprocessor: `f` continues from the state a successful
first run ended in; any other outcome of the first run is the outcome of the whole. -/
def PreprocessResult.andThen (r : PreprocessResult)
    (f : Shell_instruction_list → PreprocessResult) : PreprocessResult :=
  match r with
  | .ok dst => f dst
  | .failed => .failed
  | .out_of_range => .out_of_range
  | .out_of_fuel => .out_of_fuel

/-- The whitespace-split of a line, in the words of the specification: the maximal runs of
non-space characters, in order. -/
def whitespace_split (line : String) : List String :=
  ((line.data.splitOn ' ').filter (fun w => w ≠ [])).map String.mk

/-- The runs of non-space characters of `rest`, the first one prefixed by the run `cur` that
is being read (`split_runs_eq` relates it to `whitespace_split`). -/
def split_runs : List Char → List Char → List (List Char)
  | cur, [] => if cur = [] then [] else [cur]
  | cur, c :: cs =>
    if c = ' ' then (if cur = [] then split_runs [] cs else cur :: split_runs [] cs)
    else split_runs (cur ++ [c]) cs

/-- The characters of a simple command line: the space, the digits and the characters that
`Is_others` accepts. -/
def simple_char (c : Char) : Prop :=
  c = ' ' ∨ isdigit c = true ∨ Is_others c = true

/-- A run of characters on which the lexer stays in one state: digits only (a number), or
anything that begins with a non-digit (an identifier). -/
def simple_word (w : String) : Prop :=
  (∀ c ∈ w.data, isdigit c = true) ∨ (∃ c r, w.data = c :: r ∧ isdigit c = false)

/-- The state of the lexer that goes with the run `cur` read so far, on a simple line. -/
def run_state (mode : Mode) (cur : List Char) : Prop :=
  (mode = Mode.empty ∧ cur = [])
    ∨ (mode = Mode.number ∧ cur ≠ [] ∧ ∀ c ∈ cur, isdigit c = true)
    ∨ (mode = Mode.identifier ∧ ∃ c r, cur = c :: r ∧ isdigit c = false)

/-- The argument vector built from the instructions `w`: their C strings, then `nullptr`. -/
def argv_of (w : List String) : List (Option String) :=
  w.map (fun x => some (c_str x)) ++ [none]

/-- The states the lexer can be in at the start of an iteration: `Mode::string` needs the
class `quote`, which `Check_symbol` never returns, and the other values are never stored. -/
def lexer_state (mode : Mode) : Prop :=
  mode = Mode.empty ∨ mode = Mode.number ∨ mode = Mode.operators ∨ mode = Mode.identifier
    ∨ mode = Mode.seperator

/-- The printable characters, by code, that no branch of `Check_symbol` accepts other than the
two quotes: `!`, `#`, `,`, `;`, `=`, `@`, the backslash and the backquote. -/
def unrecognised_codes : List Nat := [33, 35, 44, 59, 61, 64, 92, 96]

/-- The codes of the two quote characters. -/
def quote_codes : List Nat := [34, 39]

/-- The check of the amended C11 at the character with code `n`. -/
def Check_symbol_ok (n : Nat) : Bool :=
  if n ∈ quote_codes then true
  else if n ∈ unrecognised_codes then Check_symbol (Char.ofNat n) == none
  else
    Check_symbol (Char.ofNat n) == some eSymbol.space
      || Check_symbol (Char.ofNat n) == some eSymbol.digit
      || Check_symbol (Char.ofNat n) == some eSymbol.operators
      || Check_symbol (Char.ofNat n) == some eSymbol.seperator
      || Check_symbol (Char.ofNat n) == some eSymbol.others

/-- The state of the lexer after reading `data` from state `mode` without ending a token:
as `scan_mode`, but `none` as soon as a transition is `Mode::done` or `Mode::_unreachable`,
the two transitions on which the loop of `Parse_cmd` does not just advance. -/
def scan_live : Mode → Option Char → List Char → Option Mode
  | mode, _, [] => some mode
  | mode, prev, c :: cs =>
    match Check_symbol c with
    | none => none
    | some symbol =>
      match next_mode mode symbol prev with
      | none => none
      | some m =>
        if m = Mode._unreachable ∨ m = Mode.done then none else scan_live m (some c) cs

/-- What C13 needs of a token: the lexer reads its text from `Mode::empty` to the type of the
token without ending a token on the way, and the type is not `Mode::empty`. -/
def Token.live (t : Token) : Prop :=
  scan_live Mode.empty none t.data.data = some t.type ∧ t.type ≠ Mode.empty

/-- The environment in which every `fork()` is followed in the child process and every
`execvp` of that child fails. -/
def Env.in_failed_child (chdir : Option String → Bool) (junk : Nat → eOperator) : Env :=
  ⟨chdir, junk, fun _ => ForkSide.child_exec_failed⟩

/-- The stages completed on the way to an outcome. -/
def ExecResult.stages : ExecResult → List Stage
  | .returned _ _ stages => stages
  | .child_gone stages => stages
  | .invalid_access stages => stages
  | .out_of_fuel => []

/-- Lines 519-526, in the child of a stage: the pipe slot whose read end is duplicated onto
standard input; `none` for the first command, which opens the input file instead. -/
def Stage.stdin_slot (st : Stage) : Option Nat :=
  if st.is_first_cmd = true then none else some st.cur_read_pipe

/-- Lines 533-536, in the child of a stage: the pipe slot `!src.cur_read_pipe` whose write end
is duplicated onto standard output; `none` when the stage is the last one (`cmd_count == 1`),
which opens the output file instead, or when its operator is not `|`. -/
def Stage.stdout_slot (st : Stage) : Option Nat :=
  if st.cmd_count = 1 then none
  else if st.op = eOperator.pipe then some (if st.cur_read_pipe = 0 then 1 else 0)
  else none

/-- Lines 579-580: the pipe slot that is closed and re-created after the stage. -/
def Stage.recreated_slot (st : Stage) : Nat :=
  st.cur_read_pipe

/-- What C18 says of a stage `a` and the stage `b` completed next: `a` writes into a pipe
slot, `b` reads from that slot, and the slot re-created after `a` is not that one. -/
def Stage.feeds (a b : Stage) : Prop :=
  a.stdout_slot ≠ none ∧ b.stdin_slot = a.stdout_slot ∧ some a.recreated_slot ≠ a.stdout_slot

/-! ## Lemmas on the lexer -/

theorem deref_some_le {str : String} {i : Nat} {c : Char} (h : deref str i = some c) :
    i ≤ str.length := by
  unfold deref at h
  split at h
  · omega
  · split at h
    · omega
    · simp at h

theorem deref_lt {str : String} {i : Nat} (h : i < str.length) :
    deref str i = some (str.data.get ⟨i, by simpa using h⟩) := by
  unfold deref
  rw [if_pos h]
  exact List.getElem?_eq_getElem _

theorem deref_gt {str : String} {i : Nat} (h : str.length < i) : deref str i = none := by
  unfold deref
  have h1 : ¬ i < str.length := by omega
  have h2 : ¬ i = str.length := by omega
  simp only [h1, h2, if_false]

theorem Parse_loop_gt (str : String) (fuel : Nat) (mode : Mode) (tail head : Nat)
    (toks res : List Token) (h : str.length < head) :
    Parse_loop str fuel mode tail head toks ≠ .ok res := by
  cases fuel with
  | zero => simp [Parse_loop]
  | succ n => simp [Parse_loop, deref_gt h]

theorem next_mode_empty (symbol : eSymbol) (p q : Option Char) :
    next_mode Mode.empty symbol p = next_mode Mode.empty symbol q := by
  cases symbol <;> rfl

theorem next_mode_empty_ne_done (symbol : eSymbol) (p : Option Char) :
    next_mode Mode.empty symbol p ≠ some Mode.done := by
  cases symbol <;> simp [next_mode, gTransistion_table, gTransistion_rows, Mode.toInt, eSymbol.toInt]

theorem table_done_row (symbol : eSymbol) (m : Mode)
    (h : gTransistion_table Mode.done.toInt symbol.toInt = some m) : m = Mode.empty := by
  cases symbol <;> simp [gTransistion_table, gTransistion_rows, Mode.toInt, eSymbol.toInt] at h <;>
    exact h.symm

theorem scan_mode_snoc (l : List Char) (c : Char) :
    ∀ (mode : Mode) (prev : Option Char),
      scan_mode mode prev (l ++ [c]) =
        match scan_mode mode prev l with
        | none => none
        | some m1 =>
          match Check_symbol c with
          | none => none
          | some symbol =>
            next_mode m1 symbol (match l.getLast? with | some x => some x | none => prev) := by
  induction l with
  | nil =>
    intro mode prev
    simp only [List.nil_append, scan_mode, List.getLast?_nil]
    cases Check_symbol c with
    | none => rfl
    | some symbol =>
      simp only
      cases next_mode mode symbol prev <;> rfl
  | cons a l ih =>
    intro mode prev
    simp only [List.cons_append, scan_mode]
    cases Check_symbol a with
    | none => rfl
    | some sa =>
      simp only
      cases next_mode mode sa prev with
      | none => rfl
      | some m2 =>
        simp only
        have e := ih m2 (some a)
        simp only [List.append_eq] at e ⊢
        rw [e]
        cases l with
        | nil => simp
        | cons b l2 =>
          simp only [List.getLast?_cons_cons]
          rw [List.getLast?_eq_getLast _ (List.cons_ne_nil b l2)]

theorem take_succ_drop (l : List Char) (t h : Nat) (ht : t ≤ h) (hh : h < l.length) :
    (l.drop t).take (h + 1 - t) = (l.drop t).take (h - t) ++ [l.get ⟨h, hh⟩] := by
  have e : h + 1 - t = (h - t) + 1 := by omega
  rw [e, List.take_succ, List.getElem?_drop]
  have e2 : t + (h - t) = h := by omega
  rw [e2, List.getElem?_eq_getElem hh]
  rfl

theorem getLast?_take_drop (l : List Char) (t h : Nat) (ht : t < h) (hh : h ≤ l.length) :
    ((l.drop t).take (h - t)).getLast? = some (l.get ⟨h - 1, by omega⟩) := by
  have hh1 : h - 1 < l.length := by omega
  have e := take_succ_drop l t (h - 1) (by omega) hh1
  have e2 : h - 1 + 1 = h := by omega
  rw [e2] at e
  rw [e, List.getLast?_append]
  simp

theorem substr_length (str : String) (t h : Nat) (ht : t ≤ h) (hh : h ≤ str.length) :
    (substr str t (h - t)).length = h - t := by
  unfold substr
  show ((str.data.drop t).take (h - t)).length = h - t
  rw [List.length_take, List.length_drop, String.length_data]
  omega

theorem skip_spaces_ge (str : String) (t : Nat) : t ≤ skip_spaces str t := by
  unfold skip_spaces
  omega

theorem Parse_loop_inv (str : String) :
    ∀ (fuel : Nat) (mode : Mode) (tail head : Nat) (toks res : List Token),
      tail ≤ head →
      scan_mode Mode.empty none ((str.data.drop tail).take (head - tail)) = some mode →
      (∀ t ∈ toks, Token.wf str t ∧ t.end_ < tail) →
      List.Chain' Token.before toks →
      Parse_loop str fuel mode tail head toks = .ok res →
      (∀ t ∈ res, Token.wf str t) ∧ List.Chain' Token.before res := by
  intro fuel
  induction fuel with
  | zero =>
    intro mode tail head toks res _ _ _ _ hres
    simp [Parse_loop] at hres
  | succ n ih =>
    intro mode tail head toks res hth hscan htoks hchain hres
    unfold Parse_loop at hres
    cases hd : deref str head with
    | none => simp [hd] at hres
    | some c =>
      cases hs : Check_symbol c with
      | none => simp [hd, hs] at hres
      | some symbol =>
        cases hn : next_mode mode symbol (if head = 0 then none else deref str (head - 1)) with
        | none => simp [hd, hs, hn] at hres
        | some m' =>
          simp only [hd, hs, hn] at hres
          have hlen : head ≤ str.length := deref_some_le hd
          by_cases hu : m' = Mode._unreachable
          · simp [hu] at hres
          · rw [if_neg hu] at hres
            by_cases hdone : m' = Mode.done
            · rw [if_pos hdone] at hres
              subst hdone
              -- the token is not empty
              have hlt : tail < head := by
                by_contra hcon
                have e : head - tail = 0 := by omega
                rw [e] at hscan
                simp only [List.take_zero, scan_mode, Option.some.injEq] at hscan
                subst hscan
                exact next_mode_empty_ne_done _ _ hn
              have hh0 : ¬ head = 0 := by omega
              rw [if_neg hh0] at hn
              cases ht : gTransistion_table Mode.done.toInt symbol.toInt with
              | none => simp [ht] at hres
              | some m2 =>
                simp only [ht] at hres
                have hm2 := table_done_row symbol m2 ht
                subst hm2
                have hwf : Token.wf str ⟨substr str tail (head - tail), tail, head - 1, mode⟩ := by
                  refine ⟨by show tail ≤ head - 1; omega, by show head - 1 < str.length; omega,
                    ?_, ?_, ?_, ?_⟩
                  · show substr str tail (head - tail) = substr str tail (head - 1 + 1 - tail)
                    have e : head - 1 + 1 = head := by omega
                    rw [e]
                  · show head - 1 + 1 = tail + (substr str tail (head - tail)).length
                    rw [substr_length str tail head (by omega) hlen]
                    omega
                  · exact hscan
                  · refine ⟨c, symbol, ?_, hs, hn⟩
                    show deref str (head - 1 + 1) = some c
                    have e : head - 1 + 1 = head := by omega
                    rw [e]
                    exact hd
                have hge := skip_spaces_ge str head
                have htoks2 : ∀ t ∈ toks ++ [⟨substr str tail (head - tail), tail, head - 1, mode⟩],
                    Token.wf str t ∧ t.end_ < skip_spaces str head := by
                  intro t ht
                  rcases List.mem_append.mp ht with h1 | h1
                  · have := htoks t h1
                    exact ⟨this.1, by omega⟩
                  · rw [List.mem_singleton] at h1
                    subst h1
                    exact ⟨hwf, by show head - 1 < skip_spaces str head; omega⟩
                have hchain2 : List.Chain' Token.before
                    (toks ++ [⟨substr str tail (head - tail), tail, head - 1, mode⟩]) := by
                  apply List.Chain'.append hchain (List.chain'_singleton _)
                  intro x hx y hy
                  simp only [List.head?_cons, Option.mem_def, Option.some.injEq] at hy
                  subst hy
                  exact (htoks x (List.mem_of_mem_getLast? hx)).2
                by_cases hend : skip_spaces str head = str.length
                · rw [if_pos hend] at hres
                  injection hres with hres
                  subst hres
                  exact ⟨fun t ht => (htoks2 t ht).1, hchain2⟩
                · rw [if_neg hend] at hres
                  refine ih Mode.empty (skip_spaces str head) (skip_spaces str head) _ res
                    (Nat.le_refl _) ?_ htoks2 hchain2 hres
                  simp [scan_mode]
            · rw [if_neg hdone] at hres
              by_cases hend : head = str.length
              · exact absurd hres (Parse_loop_gt str n m' tail (head + 1) toks res (by omega))
              · have hlt : head < str.length := by omega
                have hlt2 : head < str.data.length := by simpa using hlt
                rw [deref_lt hlt] at hd
                injection hd with hd
                refine ih m' tail (head + 1) toks res (by omega) ?_ htoks hchain hres
                rw [take_succ_drop str.data tail head hth hlt2, scan_mode_snoc, hscan]
                simp only
                have hc : str.data.get ⟨head, hlt2⟩ = c := hd
                rw [hc, hs]
                simp only
                by_cases hz : tail = head
                · subst hz
                  have e : tail - tail = 0 := by omega
                  rw [e] at hscan ⊢
                  simp only [List.take_zero, scan_mode, Option.some.injEq] at hscan
                  subst hscan
                  simp only [List.take_zero, List.getLast?_nil]
                  rw [← hn]
                  exact next_mode_empty _ _ _
                · have hlt3 : tail < head := by omega
                  rw [getLast?_take_drop str.data tail head hlt3 (by omega)]
                  simp only
                  have hh0 : ¬ head = 0 := by omega
                  rw [if_neg hh0, deref_lt (by omega : head - 1 < str.length)] at hn
                  exact hn

theorem next_mode_done_ne_empty {mode : Mode} {symbol : eSymbol} {p : Option Char}
    (h : next_mode mode symbol p = some Mode.done) : mode ≠ Mode.empty := by
  intro e
  subst e
  exact next_mode_empty_ne_done _ _ h

/-- The iteration budget is never the reason why the loop stops: `2 * (size() + 1 - head)`
iterations, and one more inside a token, are enough from any state. -/
theorem Parse_loop_fuel (str : String) :
    ∀ (fuel : Nat) (mode : Mode) (tail head : Nat) (toks : List Token),
      2 * (str.length + 1 - head) + (if mode = Mode.empty then 0 else 1) < fuel →
      Parse_loop str fuel mode tail head toks ≠ .out_of_fuel := by
  intro fuel
  induction fuel with
  | zero => intro mode tail head toks h; omega
  | succ n ih =>
    intro mode tail head toks h
    unfold Parse_loop
    cases hd : deref str head with
    | none => simp
    | some c =>
      simp only
      have hlen : head ≤ str.length := deref_some_le hd
      cases hs : Check_symbol c with
      | none => simp [hs]
      | some symbol =>
        simp only [hs]
        cases hn : next_mode mode symbol (if head = 0 then none else deref str (head - 1)) with
        | none => simp [hn]
        | some m' =>
          simp only [hn]
          by_cases hu : m' = Mode._unreachable
          · simp [hu]
          · rw [if_neg hu]
            by_cases hdone : m' = Mode.done
            · rw [if_pos hdone]
              subst hdone
              have hne := next_mode_done_ne_empty hn
              rw [if_neg hne] at h
              cases ht : gTransistion_table Mode.done.toInt symbol.toInt with
              | none => simp [ht]
              | some m2 =>
                simp only [ht]
                have hm2 := table_done_row symbol m2 ht
                subst hm2
                by_cases hend : skip_spaces str head = str.length
                · simp [hend]
                · rw [if_neg hend]
                  apply ih
                  have := skip_spaces_ge str head
                  simp only [if_true]
                  omega
            · rw [if_neg hdone]
              apply ih
              split <;> split at h <;> omega

theorem Parse_cmd_fuel (str : String) : Parse_cmd str ≠ .out_of_fuel := by
  unfold Parse_cmd
  apply Parse_loop_fuel
  simp only [if_true]
  omega

theorem Parse_cmd_inv {str : String} {token_list : List Token}
    (h : Parse_cmd str = .ok token_list) :
    (∀ t ∈ token_list, Token.wf str t) ∧ List.Chain' Token.before token_list := by
  unfold Parse_cmd at h
  refine Parse_loop_inv str _ Mode.empty 0 0 [] token_list (Nat.le_refl 0) ?_ ?_ ?_ h
  · simp [scan_mode]
  · intro t ht
    simp at ht
  · exact List.chain'_nil

/-! ## C1 -/

/-- C1: on every line on which `Parse_cmd` succeeds, each emitted token carries the slice of
the line from `start` to `end_` inclusive (so `end_ + 1 = start + length`), its `type` is the
state the lexer was in just before the transition to `Mode::done` (the state reached on the
token text, the next character leading to `done`), and consecutive tokens satisfy
`prev.end_ < next.start`. -/
theorem Parse_cmd_tokens (str : String) (token_list : List Token)
    (h : Parse_cmd str = .ok token_list) :
    (∀ t ∈ token_list, Token.wf str t) ∧ List.Chain' Token.before token_list :=
  Parse_cmd_inv h

theorem Parse_cmd_tokens_witness :
    Parse_cmd "ls -l"
        = .ok [⟨"ls", 0, 1, .identifier⟩, ⟨"-", 3, 3, .operators⟩, ⟨"l", 4, 4, .identifier⟩]
      ∧ ((∀ t ∈ [(⟨"ls", 0, 1, .identifier⟩ : Token), ⟨"-", 3, 3, .operators⟩,
            ⟨"l", 4, 4, .identifier⟩], Token.wf "ls -l" t)
        ∧ List.Chain' Token.before [(⟨"ls", 0, 1, .identifier⟩ : Token),
            ⟨"-", 3, 3, .operators⟩, ⟨"l", 4, 4, .identifier⟩]) :=
  ⟨by decide, Parse_cmd_tokens "ls -l" _ (by decide)⟩

/-! ## Lemmas on the preprocessor -/

theorem drop_eq_cons_get (l : List Token) (i : Nat) (h : i < l.length) :
    l.drop i = l.get ⟨i, h⟩ :: l.drop (i + 1) :=
  List.drop_eq_getElem_cons h

theorem Preprocess_loop_eq (token_list : List Token) :
    ∀ (fuel i : Nat) (dst : Shell_instruction_list),
      token_list.length - i < fuel →
      Preprocess_loop token_list fuel i dst
        = PreprocessResult.ofOption (Preprocess_list (token_list.drop i) dst) := by
  intro fuel
  induction fuel with
  | zero =>
    intro i dst h
    omega
  | succ n ih =>
    intro i dst h
    unfold Preprocess_loop
    by_cases hi : i < token_list.length
    · rw [if_pos hi, List.getElem?_eq_getElem hi]
      simp only
      rw [drop_eq_cons_get token_list i hi]
      by_cases hi2 : i + 1 < token_list.length
      · have hge : ¬ i + 1 ≥ token_list.length := by omega
        rw [drop_eq_cons_get token_list (i + 1) hi2, List.getElem?_eq_getElem hi2]
        simp only [if_neg hge]
        rw [Preprocess_list]
        have e1 := ih (i + 1)
        have e2 := ih (i + 1 + 1)
        rw [drop_eq_cons_get token_list (i + 1) hi2] at e1
        simp only [List.get_eq_getElem] at e1 ⊢
        generalize token_list[i] = tok at *
        generalize token_list[i + 1] = nxt at *
        by_cases h1 : tok.type = Mode.identifier ∨ tok.type = Mode.number
        · simp only [if_pos h1]
          exact e1 _ (by omega)
        · simp only [if_neg h1]
          by_cases hx : nxt.type ≠ Mode.identifier
          · simp only [if_pos hx]
            by_cases h2 : tok.data = "-"
            · simp only [if_pos h2]; rfl
            · simp only [if_neg h2]
              by_cases h3 : tok.data = "<"
              · simp only [if_pos h3]; rfl
              · simp only [if_neg h3]
                by_cases h4 : tok.data = ">"
                · simp only [if_pos h4]; rfl
                · simp only [if_neg h4]
                  by_cases h5 : tok.data = ">>"
                  · simp only [if_pos h5]; rfl
                  · simp only [if_neg h5]
                    exact e1 _ (by omega)
          · simp only [if_neg hx]
            by_cases h2 : tok.data = "-"
            · simp only [if_pos h2]
              exact e2 _ (by omega)
            · simp only [if_neg h2]
              by_cases h3 : tok.data = "<"
              · simp only [if_pos h3]
                exact e1 _ (by omega)
              · simp only [if_neg h3]
                by_cases h4 : tok.data = ">"
                · simp only [if_pos h4]
                  exact e1 _ (by omega)
                · simp only [if_neg h4]
                  by_cases h5 : tok.data = ">>"
                  · simp only [if_pos h5]
                    exact e1 _ (by omega)
                  · simp only [if_neg h5]
                    exact e1 _ (by omega)
      · have hge : i + 1 ≥ token_list.length := by omega
        have e : token_list.drop (i + 1) = [] := List.drop_eq_nil_of_le hge
        rw [e, Preprocess_list]
        simp only [if_pos hge]
        have e1 := ih (i + 1)
        simp only [e, Preprocess_list] at e1
        simp only [List.get_eq_getElem] at e1 ⊢
        generalize token_list[i] = tok at *
        by_cases h1 : tok.type = Mode.identifier ∨ tok.type = Mode.number
        · simp only [if_pos h1]
          exact e1 _ (by omega)
        · simp only [if_neg h1]
          by_cases h2 : tok.data = "-"
          · simp only [if_pos h2]; rfl
          · simp only [if_neg h2]
            by_cases h3 : tok.data = "<"
            · simp only [if_pos h3]; rfl
            · simp only [if_neg h3]
              by_cases h4 : tok.data = ">"
              · simp only [if_pos h4]; rfl
              · simp only [if_neg h4]
                by_cases h5 : tok.data = ">>"
                · simp only [if_pos h5]; rfl
                · simp only [if_neg h5]
                  exact e1 _ (by omega)
    · rw [if_neg hi]
      have e : token_list.drop i = [] := List.drop_eq_nil_of_le (by omega)
      rw [e, Preprocess_list]
      rfl

theorem Preprocess_step_eq (token_list : List Token) (dst : Shell_instruction_list) :
    Preprocess_step token_list dst
      = PreprocessResult.ofOption (Preprocess_list token_list dst) := by
  unfold Preprocess_step
  rw [Preprocess_loop_eq token_list _ 0 dst (by omega)]
  rfl

theorem Preprocess_step_ok {token_list : List Token} {dst0 dst : Shell_instruction_list}
    (h : Preprocess_step token_list dst0 = .ok dst) :
    Preprocess_list token_list dst0 = some dst := by
  rw [Preprocess_step_eq] at h
  cases hp : Preprocess_list token_list dst0 with
  | none => rw [hp] at h; simp [PreprocessResult.ofOption] at h
  | some d =>
    rw [hp] at h
    simp only [PreprocessResult.ofOption, PreprocessResult.ok.injEq] at h
    rw [h]

/-- A token of the lexer whose text is one of the operator literals that `Preprocess_step`
looks for has the type `Mode::operators`. -/
theorem Token.wf_operator {str : String} {t : Token} (h : Token.wf str t)
    (hd : t.data = "-" ∨ t.data = "<" ∨ t.data = ">" ∨ t.data = ">>" ∨ t.data = "|") :
    t.type = Mode.operators := by
  obtain ⟨_, _, _, _, hscan, _⟩ := h
  have key : ∀ s : String, t.data = s → scan_mode Mode.empty none s.data = some Mode.operators →
      t.type = Mode.operators := by
    intro s hs e
    rw [hs, e] at hscan
    injection hscan with hscan
    exact hscan.symm
  rcases hd with hd | hd | hd | hd | hd
  · exact key _ hd (by decide)
  · exact key _ hd (by decide)
  · exact key _ hd (by decide)
  · exact key _ hd (by decide)
  · exact key _ hd (by decide)

theorem Parse_cmd_typed {str : String} {token_list : List Token}
    (h : Parse_cmd str = .ok token_list) : typed_like_lexer token_list :=
  fun t ht hd => Token.wf_operator ((Parse_cmd_inv h).1 t ht) hd

theorem pipes_cons (tok : Token) (l : List Token) :
    pipes (tok :: l) = pipes l + (if tok.data = "|" then 1 else 0) := by
  unfold pipes
  rw [List.map_cons, List.count_cons]
  simp only [beq_iff_eq]

theorem typed_like_lexer_tail {tok : Token} {l : List Token}
    (h : typed_like_lexer (tok :: l)) : typed_like_lexer l :=
  fun t ht hd => h t (List.mem_cons_of_mem _ ht) hd

theorem typed_not_pipe {tok : Token} {l : List Token} (h : typed_like_lexer (tok :: l))
    (ht : tok.type ≠ Mode.operators) : ¬ tok.data = "|" :=
  fun hd => ht (h tok (List.mem_cons_self _ _) (Or.inr (Or.inr (Or.inr (Or.inr hd)))))

theorem push_cmd_count (dst : Shell_instruction_list) (x : String) :
    (dst.push x).cmd_count = dst.cmd_count := rfl

theorem set_in_cmd_count (dst : Shell_instruction_list) (x : String) (m : Nat) :
    (dst.set_in x m).cmd_count = dst.cmd_count := rfl

theorem set_out_cmd_count (dst : Shell_instruction_list) (x : String) (m : Nat) :
    (dst.set_out x m).cmd_count = dst.cmd_count := rfl

theorem count_pipe_cmd_count (dst : Shell_instruction_list) (x : String) :
    (dst.count_pipe x).cmd_count = dst.cmd_count + (if x = "|" then 1 else 0) := by
  unfold Shell_instruction_list.count_pipe
  split <;> rfl

theorem Preprocess_list_cmd_count :
    ∀ (n : Nat) (toks : List Token), toks.length ≤ n → typed_like_lexer toks →
      ∀ (dst0 dst : Shell_instruction_list), Preprocess_list toks dst0 = some dst →
        dst.cmd_count = dst0.cmd_count + pipes toks := by
  intro n
  induction n with
  | zero =>
    intro toks hl _ dst0 dst h
    have e : toks = [] := List.length_eq_zero.mp (by omega)
    subst e
    rw [Preprocess_list] at h
    injection h with h
    subst h
    rfl
  | succ n ih =>
    intro toks hl hty dst0 dst h
    cases toks with
    | nil =>
      rw [Preprocess_list] at h
      injection h with h
      subst h
      rfl
    | cons tok l =>
      have hid : tok.type = Mode.identifier ∨ tok.type = Mode.number → ¬ tok.data = "|" := by
        intro h1
        rcases h1 with h1 | h1 <;> exact typed_not_pipe hty (by rw [h1]; decide)
      have hl1 : l.length ≤ n := by simpa using hl
      have hty1 := typed_like_lexer_tail hty
      rw [pipes_cons]
      cases l with
      | nil =>
        rw [Preprocess_list] at h
        split_ifs at h with h1 h2 h3 h4 h5
        · injection h with h
          subst h
          rw [push_cmd_count, if_neg (hid h1)]
          rfl
        · injection h with h
          subst h
          rw [push_cmd_count, count_pipe_cmd_count]
          simp [pipes]
      | cons nxt rest =>
        have hl2 : rest.length ≤ n := by simp at hl1; omega
        have hty2 := typed_like_lexer_tail hty1
        have hnx : nxt.type = Mode.identifier → ¬ nxt.data = "|" := by
          intro h1
          exact typed_not_pipe hty1 (by rw [h1]; decide)
        rw [Preprocess_list] at h
        split_ifs at h with h1 h2 h3 h4 h5 h6 h7 h8 h9
        · rw [ih _ hl1 hty1 _ _ h, push_cmd_count, if_neg (hid h1)]
          omega
        · rw [ih _ hl2 hty2 _ _ h, push_cmd_count, pipes_cons, if_neg (hnx (not_not.mp h3)),
            if_neg (by rw [h2]; decide)]
          omega
        · rw [ih _ hl1 hty1 _ _ h, set_in_cmd_count, push_cmd_count, if_neg (by rw [h4]; decide)]
          omega
        · rw [ih _ hl1 hty1 _ _ h, set_out_cmd_count, push_cmd_count, if_neg (by rw [h6]; decide)]
          omega
        · rw [ih _ hl1 hty1 _ _ h, set_out_cmd_count, push_cmd_count, if_neg (by rw [h8]; decide)]
          omega
        · rw [ih _ hl1 hty1 _ _ h, push_cmd_count, count_pipe_cmd_count]
          omega

theorem count_intercalate_pipe :
    ∀ (ws : List (List String)), ws ≠ [] → (∀ w ∈ ws, "|" ∉ w) →
      (List.intercalate ["|"] ws).count "|" + 1 = ws.length := by
  intro ws
  induction ws with
  | nil => intro h; exact absurd rfl h
  | cons w l ih =>
    intro _ hw
    have hw0 : List.count "|" w = 0 := List.count_eq_zero.mpr (hw w (List.mem_cons_self _ _))
    cases l with
    | nil =>
      simp [List.intercalate, hw0]
    | cons w2 l2 =>
      have e := ih (List.cons_ne_nil _ _) (fun x hx => hw x (List.mem_cons_of_mem _ hx))
      simp only [List.intercalate, List.intersperse_cons_cons, List.flatten_cons, List.count_append,
        List.length_cons] at e ⊢
      rw [hw0]
      simp only [List.count_cons_self, List.count_nil]
      omega

/-! ## C3 -/

/-- C3: for the tokens of any line, when `Preprocess_step` succeeds on a freshly constructed
`Shell_instruction_list`, `cmd_count` is one plus the number of tokens whose text is exactly
`|`; in particular, when the token texts are `cmd1 | cmd2 | ... | cmdN` (`ws` lists the
commands, none containing a `|`), `cmd_count = N`. -/
theorem Preprocess_step_cmd_count (str : String) (token_list : List Token)
    (dst : Shell_instruction_list) (h1 : Parse_cmd str = .ok token_list)
    (h2 : Preprocess_step token_list {} = .ok dst) :
    dst.cmd_count = 1 + pipes token_list
      ∧ ∀ ws : List (List String), ws ≠ [] → (∀ w ∈ ws, "|" ∉ w) →
          token_list.map Token.data = List.intercalate ["|"] ws → dst.cmd_count = ws.length := by
  have e := Preprocess_list_cmd_count _ token_list (Nat.le_refl _) (Parse_cmd_typed h1) _ _
    (Preprocess_step_ok h2)
  have e1 : dst.cmd_count = 1 + pipes token_list := e
  refine ⟨e1, ?_⟩
  intro ws hne hw hmap
  have e2 := count_intercalate_pipe ws hne hw
  rw [e1]
  unfold pipes
  rw [hmap]
  omega

theorem Preprocess_step_cmd_count_witness :
    Parse_cmd "ls | wc"
        = .ok [⟨"ls", 0, 1, .identifier⟩, ⟨"|", 3, 3, .operators⟩, ⟨"wc", 5, 6, .identifier⟩]
      ∧ Preprocess_step
          [⟨"ls", 0, 1, .identifier⟩, ⟨"|", 3, 3, .operators⟩, ⟨"wc", 5, 6, .identifier⟩] {}
          = .ok { cmd_count := 2, instruction_list := ["ls", "|", "wc"] }
      ∧ 2 = 1 + pipes
          [⟨"ls", 0, 1, .identifier⟩, ⟨"|", 3, 3, .operators⟩, ⟨"wc", 5, 6, .identifier⟩]
      ∧ 2 = [["ls"], ["wc"]].length :=
  ⟨by decide, by decide,
    (Preprocess_step_cmd_count "ls | wc"
      [⟨"ls", 0, 1, .identifier⟩, ⟨"|", 3, 3, .operators⟩, ⟨"wc", 5, 6, .identifier⟩]
      { cmd_count := 2, instruction_list := ["ls", "|", "wc"] } (by decide) (by decide)).1,
    (Preprocess_step_cmd_count "ls | wc"
      [⟨"ls", 0, 1, .identifier⟩, ⟨"|", 3, 3, .operators⟩, ⟨"wc", 5, 6, .identifier⟩]
      { cmd_count := 2, instruction_list := ["ls", "|", "wc"] } (by decide) (by decide)).2
      [["ls"], ["wc"]] (by decide) (by decide) (by decide)⟩

theorem typed_like_lexer_append_right {l1 l2 : List Token}
    (h : typed_like_lexer (l1 ++ l2)) : typed_like_lexer l2 :=
  fun t ht hd => h t (List.mem_append_right _ ht) hd

theorem typed_operand {op : Token} {l : List Token} (h : typed_like_lexer (op :: l))
    (hop : op.data = "-" ∨ op.data = "<" ∨ op.data = ">" ∨ op.data = ">>") :
    op.type = Mode.operators := by
  apply h op (List.mem_cons_self _ _)
  rcases hop with h1 | h1 | h1 | h1
  · exact Or.inl h1
  · exact Or.inr (Or.inl h1)
  · exact Or.inr (Or.inr (Or.inl h1))
  · exact Or.inr (Or.inr (Or.inr (Or.inl h1)))

/-- An operand-taking operator token that is last, or followed by a token that is not an
identifier, makes the walk fail when it is reached. -/
theorem Preprocess_list_operand_head (op : Token) (post : List Token)
    (dst : Shell_instruction_list) (hty : op.type = Mode.operators)
    (hop : op.data = "-" ∨ op.data = "<" ∨ op.data = ">" ∨ op.data = ">>")
    (hnext : ∀ nxt ∈ post.head?, nxt.type ≠ Mode.identifier) :
    Preprocess_list (op :: post) dst = none := by
  have h1 : ¬ (op.type = Mode.identifier ∨ op.type = Mode.number) := by
    rw [hty]; decide
  cases post with
  | nil =>
    rw [Preprocess_list, if_neg h1]
    rcases hop with h | h | h | h <;> simp [h]
  | cons nxt rest =>
    have hn : nxt.type ≠ Mode.identifier := hnext nxt (by simp)
    rw [Preprocess_list, if_neg h1]
    rcases hop with h | h | h | h <;> simp [h, hn]

theorem Preprocess_list_operand :
    ∀ (n : Nat) (pre : List Token), pre.length ≤ n →
      ∀ (op : Token) (post : List Token) (dst : Shell_instruction_list),
        typed_like_lexer (pre ++ op :: post) →
        (op.data = "-" ∨ op.data = "<" ∨ op.data = ">" ∨ op.data = ">>") →
        (∀ nxt ∈ post.head?, nxt.type ≠ Mode.identifier) →
        Preprocess_list (pre ++ op :: post) dst = none := by
  intro n
  induction n with
  | zero =>
    intro pre hl op post dst hty hop hnext
    have e : pre = [] := List.length_eq_zero.mp (by omega)
    subst e
    exact Preprocess_list_operand_head op post dst (typed_operand hty hop) hop hnext
  | succ n ih =>
    intro pre hl op post dst hty hop hnext
    cases pre with
    | nil => exact Preprocess_list_operand_head op post dst (typed_operand hty hop) hop hnext
    | cons tok pre1 =>
      have hl1 : pre1.length ≤ n := by simpa using hl
      have hty1 : typed_like_lexer (pre1 ++ op :: post) := typed_like_lexer_tail hty
      have hopty : op.type = Mode.operators :=
        typed_operand (typed_like_lexer_append_right hty1) hop
      have hrec : ∀ d, Preprocess_list (pre1 ++ op :: post) d = none :=
        fun d => ih pre1 hl1 op post d hty1 hop hnext
      cases pre1 with
      | nil =>
        simp only [List.nil_append, List.cons_append] at hrec ⊢
        rw [Preprocess_list]
        have hx : op.type ≠ Mode.identifier := by rw [hopty]; decide
        split_ifs <;> first | rfl | exact hrec _
      | cons nxt pre2 =>
        have hl2 : pre2.length ≤ n := by simp at hl1; omega
        have hrec2 : ∀ d, Preprocess_list (pre2 ++ op :: post) d = none :=
          fun d => ih pre2 hl2 op post d (typed_like_lexer_tail hty1) hop hnext
        simp only [List.cons_append] at hrec ⊢
        rw [Preprocess_list]
        split_ifs <;> first | rfl | exact hrec _ | exact hrec2 _

theorem Preprocess_step_in_range (token_list : List Token) (dst : Shell_instruction_list) :
    Preprocess_step token_list dst ≠ .out_of_range
      ∧ Preprocess_step token_list dst ≠ .out_of_fuel := by
  rw [Preprocess_step_eq]
  cases Preprocess_list token_list dst <;> simp [PreprocessResult.ofOption]

/-! ## C4 -/

/-- C4: in the tokens of any line, a token with text `-`, `<`, `>` or `>>` that is the last
token, or is followed by a token whose kind is not Identifier, makes `Preprocess_step` return
failure; the outcome is the `return false`, not a read past the end of the token sequence. -/
theorem Preprocess_step_operand (str : String) (token_list pre post : List Token) (op : Token)
    (dst : Shell_instruction_list) (h : Parse_cmd str = .ok token_list)
    (hsplit : token_list = pre ++ op :: post)
    (hop : op.data = "-" ∨ op.data = "<" ∨ op.data = ">" ∨ op.data = ">>")
    (hnext : ∀ nxt ∈ post.head?, nxt.type ≠ Mode.identifier) :
    Preprocess_step token_list dst = .failed := by
  have hty := Parse_cmd_typed h
  rw [Preprocess_step_eq]
  subst hsplit
  rw [Preprocess_list_operand _ pre (Nat.le_refl _) op post dst hty hop hnext]
  rfl

theorem Preprocess_step_operand_witness :
    Parse_cmd "cat <" = .ok [⟨"cat", 0, 2, .identifier⟩, ⟨"<", 4, 4, .operators⟩]
      ∧ Preprocess_step [⟨"cat", 0, 2, .identifier⟩, ⟨"<", 4, 4, .operators⟩] {} = .failed :=
  ⟨by decide,
    Preprocess_step_operand "cat <" [⟨"cat", 0, 2, .identifier⟩, ⟨"<", 4, 4, .operators⟩]
      [⟨"cat", 0, 2, .identifier⟩] [] ⟨"<", 4, 4, .operators⟩ {} (by decide) (by decide)
      (by decide) (by decide)⟩

/-! ## Splitting the walk of the preprocessor at a token -/

/-- The walk over `pre ++ m :: rest` is the walk over `pre` followed by the walk from `m`,
when `m` is not an identifier (so that no operator before it can take it as its operand). -/
theorem Preprocess_list_append :
    ∀ (n : Nat) (pre : List Token), pre.length ≤ n →
      ∀ (m : Token) (rest : List Token) (dst : Shell_instruction_list),
        m.type ≠ Mode.identifier →
        Preprocess_list (pre ++ m :: rest) dst
          = (Preprocess_list pre dst).bind (fun d => Preprocess_list (m :: rest) d) := by
  intro n
  induction n with
  | zero =>
    intro pre hl m rest dst _
    have e : pre = [] := List.length_eq_zero.mp (by omega)
    subst e
    rw [List.nil_append, Preprocess_list]
    rfl
  | succ n ih =>
    intro pre hl m rest dst hm
    cases pre with
    | nil =>
      rw [List.nil_append, Preprocess_list]
      rfl
    | cons tok pre1 =>
      have hl1 : pre1.length ≤ n := by simpa using hl
      have hrec := fun d => ih pre1 hl1 m rest d hm
      cases pre1 with
      | nil =>
        simp only [List.nil_append, List.cons_append] at hrec ⊢
        rw [Preprocess_list, Preprocess_list]
        split_ifs <;> rfl
      | cons nxt pre2 =>
        have hl2 : pre2.length ≤ n := by simp at hl1; omega
        have hrec2 := fun d => ih pre2 hl2 m rest d hm
        simp only [List.cons_append] at hrec ⊢
        rw [Preprocess_list]
        conv_rhs => rw [Preprocess_list]
        split_ifs <;> first | rfl | exact hrec _ | exact hrec2 _

theorem Preprocess_list_identifier (x : Token) (post : List Token)
    (dst : Shell_instruction_list) (hx : x.type = Mode.identifier) :
    Preprocess_list (x :: post) dst = Preprocess_list post (dst.push x.data) := by
  cases post with
  | nil => rw [Preprocess_list, Preprocess_list, if_pos (Or.inl hx)]
  | cons nxt rest => rw [Preprocess_list, if_pos (Or.inl hx)]

theorem ofOption_bind (o : Option Shell_instruction_list)
    (g : Shell_instruction_list → Option Shell_instruction_list) :
    PreprocessResult.ofOption (o.bind g)
      = (PreprocessResult.ofOption o).andThen (fun d => PreprocessResult.ofOption (g d)) := by
  cases o <;> rfl

/-- The walk over `pre ++ op :: x :: post` for an operator token `op` followed by an
identifier `x`, in terms of `Preprocess_step`. -/
theorem Preprocess_step_split (pre post : List Token) (op x : Token)
    (dst : Shell_instruction_list) (hop : op.type = Mode.operators) :
    Preprocess_step (pre ++ op :: x :: post) dst
      = (Preprocess_step pre dst).andThen
          (fun d => PreprocessResult.ofOption (Preprocess_list (op :: x :: post) d)) := by
  rw [Preprocess_step_eq, Preprocess_step_eq,
    Preprocess_list_append _ pre (Nat.le_refl _) op (x :: post) dst (by rw [hop]; decide),
    ofOption_bind]

/-! ## C5 -/

/-- C5, as stated, fails on its own witness line: the identifier after `<` and after `>` is
pushed to `instruction_list` as well, so the list of `cat < in.txt > out.txt` has five entries,
not the three of the claim. -/
theorem Preprocess_step_redirect_counterexample :
    Parse_cmd "cat < in.txt > out.txt"
        = .ok [⟨"cat", 0, 2, .identifier⟩, ⟨"<", 4, 4, .operators⟩,
            ⟨"in.txt", 6, 11, .identifier⟩, ⟨">", 13, 13, .operators⟩,
            ⟨"out.txt", 15, 21, .identifier⟩]
      ∧ Preprocess_step [⟨"cat", 0, 2, .identifier⟩, ⟨"<", 4, 4, .operators⟩,
            ⟨"in.txt", 6, 11, .identifier⟩, ⟨">", 13, 13, .operators⟩,
            ⟨"out.txt", 15, 21, .identifier⟩] {}
          = .ok { instruction_list := ["cat", "<", "in.txt", ">", "out.txt"],
                  in_file_name := "in.txt", in_open_mode := 0,
                  out_file_name := "out.txt", out_open_mode := 577,
                  cmd_count := 1 }
      ∧ ["cat", "<", "in.txt", ">", "out.txt"] ≠ ["cat", "<", ">"] :=
  ⟨by decide, by decide, by decide⟩

/-- C5, amended: in the tokens of any line, when a token `<`, `>` or `>>` is followed by an
identifier `x`, the preprocessor pushes the operator literal, records `x` as the redirect path
with the open mode of the operator, and then pushes `x` itself too, right after the operator;
the walk continues after `x`. -/
theorem Preprocess_step_redirect (str : String) (token_list pre post : List Token)
    (op x : Token) (dst : Shell_instruction_list) (h : Parse_cmd str = .ok token_list)
    (hsplit : token_list = pre ++ op :: x :: post) (hx : x.type = Mode.identifier) :
    (op.data = "<" →
        Preprocess_step token_list dst
          = (Preprocess_step pre dst).andThen (fun d =>
              Preprocess_step post (((d.push "<").set_in x.data O_RDONLY).push x.data)))
      ∧ (op.data = ">" →
        Preprocess_step token_list dst
          = (Preprocess_step pre dst).andThen (fun d =>
              Preprocess_step post
                (((d.push ">").set_out x.data (O_WRONLY ||| O_CREAT ||| O_TRUNC)).push x.data)))
      ∧ (op.data = ">>" →
        Preprocess_step token_list dst
          = (Preprocess_step pre dst).andThen (fun d =>
              Preprocess_step post
                (((d.push ">>").set_out x.data
                  (O_WRONLY ||| O_APPEND ||| O_CREAT ||| O_APPEND)).push x.data))) := by
  have hty := typed_like_lexer_append_right (hsplit ▸ Parse_cmd_typed h)
  have hxx : ¬ x.type ≠ Mode.identifier := not_not.mpr hx
  subst hsplit
  refine ⟨?_, ?_, ?_⟩
  · intro hd
    have hop : op.type = Mode.operators := typed_operand hty (Or.inr (Or.inl hd))
    have hno : ¬ (op.type = Mode.identifier ∨ op.type = Mode.number) := by rw [hop]; decide
    rw [Preprocess_step_split pre post op x dst hop]
    congr 1
    funext d
    rw [Preprocess_list, if_neg hno, if_neg (by rw [hd]; decide), if_pos hd, if_neg hxx,
      Preprocess_list_identifier x post _ hx, Preprocess_step_eq, hd]
  · intro hd
    have hop : op.type = Mode.operators := typed_operand hty (Or.inr (Or.inr (Or.inl hd)))
    have hno : ¬ (op.type = Mode.identifier ∨ op.type = Mode.number) := by rw [hop]; decide
    rw [Preprocess_step_split pre post op x dst hop]
    congr 1
    funext d
    rw [Preprocess_list, if_neg hno, if_neg (by rw [hd]; decide), if_neg (by rw [hd]; decide),
      if_pos hd, if_neg hxx, Preprocess_list_identifier x post _ hx, Preprocess_step_eq, hd]
  · intro hd
    have hop : op.type = Mode.operators := typed_operand hty (Or.inr (Or.inr (Or.inr hd)))
    have hno : ¬ (op.type = Mode.identifier ∨ op.type = Mode.number) := by rw [hop]; decide
    rw [Preprocess_step_split pre post op x dst hop]
    congr 1
    funext d
    rw [Preprocess_list, if_neg hno, if_neg (by rw [hd]; decide), if_neg (by rw [hd]; decide),
      if_neg (by rw [hd]; decide), if_pos hd, if_neg hxx,
      Preprocess_list_identifier x post _ hx, Preprocess_step_eq, hd]

theorem Preprocess_step_redirect_witness :
    Parse_cmd "cat < in.txt > out.txt"
        = .ok [⟨"cat", 0, 2, .identifier⟩, ⟨"<", 4, 4, .operators⟩,
            ⟨"in.txt", 6, 11, .identifier⟩, ⟨">", 13, 13, .operators⟩,
            ⟨"out.txt", 15, 21, .identifier⟩]
      ∧ Preprocess_step [⟨"cat", 0, 2, .identifier⟩, ⟨"<", 4, 4, .operators⟩,
            ⟨"in.txt", 6, 11, .identifier⟩, ⟨">", 13, 13, .operators⟩,
            ⟨"out.txt", 15, 21, .identifier⟩] {}
          = (Preprocess_step [⟨"cat", 0, 2, .identifier⟩] {}).andThen (fun d =>
              Preprocess_step [⟨">", 13, 13, .operators⟩, ⟨"out.txt", 15, 21, .identifier⟩]
                (((d.push "<").set_in "in.txt" O_RDONLY).push "in.txt")) :=
  ⟨by decide,
    (Preprocess_step_redirect "cat < in.txt > out.txt" _ [⟨"cat", 0, 2, .identifier⟩]
      [⟨">", 13, 13, .operators⟩, ⟨"out.txt", 15, 21, .identifier⟩] ⟨"<", 4, 4, .operators⟩
      ⟨"in.txt", 6, 11, .identifier⟩ {} (by decide) rfl rfl).1 rfl⟩

/-! ## C6 -/

/-- C6: in the tokens of any line, a token with text `-` followed by an identifier `x` makes
the preprocessor push the single instruction `"-" ++ x.data` and continue after `x`: both
tokens are consumed and `x` is not pushed on its own. -/
theorem Preprocess_step_minus (str : String) (token_list pre post : List Token)
    (m x : Token) (dst : Shell_instruction_list) (h : Parse_cmd str = .ok token_list)
    (hsplit : token_list = pre ++ m :: x :: post) (hm : m.data = "-")
    (hx : x.type = Mode.identifier) :
    Preprocess_step token_list dst
      = (Preprocess_step pre dst).andThen (fun d =>
          Preprocess_step post (d.push ("-" ++ x.data))) := by
  have hty := typed_like_lexer_append_right (hsplit ▸ Parse_cmd_typed h)
  have hxx : ¬ x.type ≠ Mode.identifier := not_not.mpr hx
  subst hsplit
  have hop : m.type = Mode.operators := typed_operand hty (Or.inl hm)
  have hno : ¬ (m.type = Mode.identifier ∨ m.type = Mode.number) := by rw [hop]; decide
  rw [Preprocess_step_split pre post m x dst hop]
  congr 1
  funext d
  rw [Preprocess_list, if_neg hno, if_pos hm, if_neg hxx, Preprocess_step_eq, hm]

theorem Preprocess_step_minus_witness :
    Parse_cmd "ls -l"
        = .ok [⟨"ls", 0, 1, .identifier⟩, ⟨"-", 3, 3, .operators⟩, ⟨"l", 4, 4, .identifier⟩]
      ∧ Preprocess_step
          [⟨"ls", 0, 1, .identifier⟩, ⟨"-", 3, 3, .operators⟩, ⟨"l", 4, 4, .identifier⟩] {}
          = .ok { instruction_list := ["ls", "-l"] } :=
  ⟨by decide,
    (Preprocess_step_minus "ls -l" _ [⟨"ls", 0, 1, .identifier⟩] []
      ⟨"-", 3, 3, .operators⟩ ⟨"l", 4, 4, .identifier⟩ {} (by decide) rfl rfl rfl).trans
      (by decide)⟩

/-! ## Simple command lines: the whitespace split -/

theorem splitOnP_go_filter (l : List Char) :
    ∀ acc : List Char,
      (List.splitOnP.go (fun x => x == ' ') l acc).filter (fun w => w ≠ [])
        = split_runs acc.reverse l := by
  induction l with
  | nil =>
    intro acc
    simp only [List.splitOnP.go, split_runs]
    by_cases h : acc = []
    · subst h; simp
    · have h2 : acc.reverse ≠ [] := by simpa using h
      simp [h, h2]
  | cons a l ih =>
    intro acc
    simp only [List.splitOnP.go, split_runs]
    by_cases ha : a = ' '
    · subst ha
      have e := ih []
      simp only [List.reverse_nil] at e
      by_cases h : acc = []
      · subst h; simpa using e
      · have h2 : acc.reverse ≠ [] := by simpa using h
        simpa [h, h2] using e
    · have e := ih (a :: acc)
      simp only [List.reverse_cons] at e
      simpa [ha] using e

theorem split_runs_eq (line : String) :
    whitespace_split line = (split_runs [] line.data).map String.mk := by
  unfold whitespace_split List.splitOn List.splitOnP
  rw [splitOnP_go_filter]
  rfl

theorem split_runs_dropWhile (l : List Char) :
    split_runs [] (l.dropWhile (fun c => c = ' ')) = split_runs [] l := by
  induction l with
  | nil => rfl
  | cons a l ih =>
    by_cases ha : a = ' '
    · subst ha
      simp only [List.dropWhile_cons, decide_True, if_true, ih, split_runs]
    · simp [List.dropWhile_cons, ha]

theorem drop_takeWhile_length (l : List Char) (p : Char → Bool) :
    l.drop (l.takeWhile p).length = l.dropWhile p := by
  induction l with
  | nil => rfl
  | cons a l ih =>
    by_cases ha : p a = true
    · simp [List.takeWhile_cons, List.dropWhile_cons, ha, ih]
    · simp [List.takeWhile_cons, List.dropWhile_cons, ha]

theorem drop_skip_spaces (str : String) (h : Nat) :
    str.data.drop (skip_spaces str h) = (str.data.drop h).dropWhile (fun c => c = ' ') := by
  unfold skip_spaces
  rw [← List.drop_drop, drop_takeWhile_length]

theorem skip_spaces_le (str : String) (h : Nat) (hh : h ≤ str.length) :
    skip_spaces str h ≤ str.length := by
  unfold skip_spaces
  have e := (List.takeWhile_sublist (l := str.data.drop h) (fun c => decide (c = ' '))).length_le
  have e2 : str.data.length = str.length := rfl
  rw [List.length_drop] at e
  omega

theorem split_runs_extends (rest : List Char) :
    ∀ cur : List Char, cur ≠ [] → ∃ w ∈ split_runs cur rest, ∃ r, w = cur ++ r := by
  induction rest with
  | nil =>
    intro cur h
    exact ⟨cur, by simp [split_runs, h], [], by simp⟩
  | cons a l ih =>
    intro cur h
    by_cases ha : a = ' '
    · exact ⟨cur, by simp [split_runs, ha, h], [], by simp⟩
    · obtain ⟨w, hw, r, hr⟩ := ih (cur ++ [a]) (by simp)
      exact ⟨w, by simp [split_runs, ha, hw], a :: r, by simp [hr]⟩

/-! ## Simple command lines: the lexer -/

theorem Check_symbol_digit {c : Char} (h : isdigit c = true) : Check_symbol c = some .digit := by
  simp [Check_symbol, h]

theorem Check_symbol_others {c : Char} (h1 : isdigit c = false) (h2 : Is_others c = true) :
    Check_symbol c = some .others := by
  simp [Check_symbol, h1, h2]

theorem Check_symbol_space : Check_symbol ' ' = some .space := by decide

theorem Check_symbol_nul : Check_symbol '\x00' = some .seperator := by decide

theorem next_mode_indep (mode : Mode) (symbol : eSymbol) (p : Option Char)
    (h : mode ≠ Mode.seperator) : next_mode mode symbol p = next_mode mode symbol none := by
  unfold next_mode
  cases gTransistion_table mode.toInt symbol.toInt with
  | none => rfl
  | some m => simp [h]

theorem table_done_some {mode m : Mode} {symbol : eSymbol} {p : Option Char}
    (h : next_mode mode symbol p = some m) :
    gTransistion_table Mode.done.toInt symbol.toInt = some Mode.empty := by
  cases symbol <;> first | rfl | (exfalso; cases mode <;> simp [next_mode, gTransistion_table, Mode.toInt, eSymbol.toInt] at h)

/-- One iteration that ends a token. -/
theorem Parse_loop_done (str : String) (n : Nat) (mode : Mode) (tail head : Nat)
    (toks : List Token) (c : Char) (symbol : eSymbol) (hd : deref str head = some c)
    (hs : Check_symbol c = some symbol)
    (hn : next_mode mode symbol (if head = 0 then none else deref str (head - 1))
      = some Mode.done) :
    Parse_loop str (n + 1) mode tail head toks
      = if skip_spaces str head = str.length then
          .ok (toks ++ [⟨substr str tail (head - tail), tail, head - 1, mode⟩])
        else
          Parse_loop str n Mode.empty (skip_spaces str head) (skip_spaces str head)
            (toks ++ [⟨substr str tail (head - tail), tail, head - 1, mode⟩]) := by
  conv_lhs => unfold Parse_loop
  simp only [hd, hs, hn, table_done_some hn]
  rw [if_neg (by decide)]
  simp only [if_true]

/-- One iteration inside a token or over a leading space. -/
theorem Parse_loop_continue (str : String) (n : Nat) (mode m : Mode) (tail head : Nat)
    (toks : List Token) (c : Char) (symbol : eSymbol) (hd : deref str head = some c)
    (hs : Check_symbol c = some symbol)
    (hn : next_mode mode symbol (if head = 0 then none else deref str (head - 1)) = some m)
    (h1 : m ≠ Mode._unreachable) (h2 : m ≠ Mode.done) :
    Parse_loop str (n + 1) mode tail head toks = Parse_loop str n m tail (head + 1) toks := by
  conv_lhs => unfold Parse_loop
  simp only [hd, hs, hn]
  rw [if_neg h1, if_neg h2]

theorem run_state_not_sep {mode : Mode} {cur : List Char} (h : run_state mode cur) :
    mode ≠ Mode.seperator := by
  rcases h with ⟨h, _⟩ | ⟨h, _⟩ | ⟨h, _⟩ <;> rw [h] <;> decide

theorem simple_not_space_digit {c : Char} (h : isdigit c = true) : c ≠ ' ' := by
  intro e; subst e; exact absurd h (by decide)

theorem simple_not_space_others {c : Char} (h : Is_others c = true) : c ≠ ' ' := by
  intro e; subst e; exact absurd h (by decide)

theorem deref_end (str : String) : deref str str.length = some '\x00' := by
  unfold deref
  simp

theorem drop_cons_of_lt (l : List Char) (h : Nat) (hh : h < l.length) :
    l.drop h = l.get ⟨h, hh⟩ :: l.drop (h + 1) :=
  List.drop_eq_getElem_cons hh

/-- On a simple command line the lexer succeeds and its tokens are the whitespace-separated
runs, each typed as a number or an identifier. -/
theorem Parse_loop_simple (str : String) :
    ∀ (fuel : Nat) (mode : Mode) (tail head : Nat) (toks : List Token),
      tail ≤ head → head ≤ str.length → 2 * (str.length - head) + 1 ≤ fuel →
      (∀ c ∈ str.data.drop head, simple_char c) →
      run_state mode ((str.data.drop tail).take (head - tail)) →
      (mode = Mode.empty → ∃ c cs, str.data.drop head = c :: cs ∧ c ≠ ' ') →
      (∀ w ∈ split_runs ((str.data.drop tail).take (head - tail)) (str.data.drop head),
        simple_word ⟨w⟩) →
      (∀ x ∈ toks, x.type = Mode.number ∨ x.type = Mode.identifier) →
      ∃ res, Parse_loop str fuel mode tail head toks = .ok res
        ∧ res.map Token.data = toks.map Token.data
            ++ (split_runs ((str.data.drop tail).take (head - tail))
                (str.data.drop head)).map String.mk
        ∧ ∀ x ∈ res, x.type = Mode.number ∨ x.type = Mode.identifier := by
  intro fuel
  induction fuel with
  | zero => intro mode tail head toks _ _ hf; omega
  | succ n ih =>
    intro mode tail head toks hth hhl hfuel halpha hJ hne hw htoks
    have hsep := run_state_not_sep hJ
    -- the token that is emitted when the run ends here
    have hemit : ∀ (c : Char) (symbol : eSymbol), deref str head = some c →
        Check_symbol c = some symbol → next_mode mode symbol none = some Mode.done →
        mode ≠ Mode.empty → (head < skip_spaces str head ∨ head = str.length) →
        split_runs ((str.data.drop tail).take (head - tail)) (str.data.drop head)
          = ((str.data.drop tail).take (head - tail))
              :: split_runs [] ((str.data.drop head).dropWhile (fun c => c = ' ')) →
        ∃ res, Parse_loop str (n + 1) mode tail head toks = .ok res
          ∧ res.map Token.data = toks.map Token.data
              ++ (split_runs ((str.data.drop tail).take (head - tail))
                  (str.data.drop head)).map String.mk
          ∧ ∀ x ∈ res, x.type = Mode.number ∨ x.type = Mode.identifier := by
      intro c symbol hd hs hn hm hskip hsplit
      have hmty : mode = Mode.number ∨ mode = Mode.identifier := by
        rcases hJ with ⟨h, _⟩ | ⟨h, _⟩ | ⟨h, _⟩
        · exact absurd h hm
        · exact Or.inl h
        · exact Or.inr h
      rw [Parse_loop_done str n mode tail head toks c symbol hd hs
        (by rw [next_mode_indep _ _ _ hsep]; exact hn)]
      have htoks2 : ∀ x ∈ toks ++ [⟨substr str tail (head - tail), tail, head - 1, mode⟩],
          x.type = Mode.number ∨ x.type = Mode.identifier := by
        intro x hx
        rcases List.mem_append.mp hx with h1 | h1
        · exact htoks x h1
        · rw [List.mem_singleton] at h1
          subst h1
          exact hmty
      by_cases hend : skip_spaces str head = str.length
      · rw [if_pos hend]
        refine ⟨_, rfl, ?_, htoks2⟩
        have e := drop_skip_spaces str head
        have e0 : str.data.drop str.length = [] := List.drop_eq_nil_of_le (Nat.le_refl _)
        rw [hend, e0] at e
        rw [hsplit, ← e]
        simp [split_runs, substr]
      · rw [if_neg hend]
        have hle := skip_spaces_le str head hhl
        have hge := skip_spaces_ge str head
        have hlt : skip_spaces str head < str.data.length := by
          have : str.data.length = str.length := rfl
          omega
        have hdw := drop_skip_spaces str head
        obtain ⟨res, h1, h2, h3⟩ := ih Mode.empty (skip_spaces str head) (skip_spaces str head)
          (toks ++ [⟨substr str tail (head - tail), tail, head - 1, mode⟩]) (Nat.le_refl _) hle
          (by omega)
          (by
            intro c hc
            rw [hdw] at hc
            exact halpha c ((List.dropWhile_sublist _).subset hc))
          (by
            rw [Nat.sub_self, List.take_zero]
            exact Or.inl ⟨rfl, rfl⟩)
          (by
            intro _
            rw [hdw]
            have hne2 : (str.data.drop head).dropWhile (fun c => c = ' ') ≠ [] := by
              rw [← hdw]
              intro e
              have := List.drop_eq_nil_iff.mp e
              omega
            obtain ⟨a, l, hal⟩ := List.exists_cons_of_ne_nil hne2
            refine ⟨a, l, hal, ?_⟩
            have := List.head_dropWhile_not (fun c => decide (c = ' ')) (str.data.drop head) hne2
            simp only [hal, List.head_cons] at this
            simpa using this)
          (by
            intro w hw2
            rw [Nat.sub_self, List.take_zero, hdw] at hw2
            apply hw
            rw [hsplit]
            exact List.mem_cons_of_mem _ hw2)
          htoks2
        refine ⟨res, h1, ?_, h3⟩
        rw [h2, hsplit, ← hdw]
        simp [substr]
    by_cases hend : head = str.length
    · -- the terminator ends the last run
      have hd : deref str head = some '\x00' := by rw [hend]; exact deref_end str
      have hdrop : str.data.drop head = [] := List.drop_eq_nil_of_le (by rw [hend]; exact Nat.le_refl _)
      have hm : mode ≠ Mode.empty := by
        intro e
        obtain ⟨c, cs, h1, _⟩ := hne e
        rw [hdrop] at h1
        exact absurd h1 (by simp)
      have hcur : (str.data.drop tail).take (head - tail) ≠ [] := by
        rcases hJ with ⟨h, _⟩ | ⟨_, h, _⟩ | ⟨_, c, r, h, _⟩
        · exact absurd h hm
        · exact h
        · rw [h]; simp
      refine hemit _ _ hd Check_symbol_nul ?_ hm (Or.inr hend) ?_
      · rcases hJ with ⟨h, _⟩ | ⟨h, _⟩ | ⟨h, _⟩
        · exact absurd h hm
        · rw [h]; rfl
        · rw [h]; rfl
      · rw [hdrop]
        simp [split_runs, hcur]
    · have hlt : head < str.data.length := by
        have : str.data.length = str.length := rfl
        omega
      have hdrop := drop_cons_of_lt str.data head hlt
      have hd : deref str head = some (str.data.get ⟨head, hlt⟩) := deref_lt (by omega)
      generalize str.data.get ⟨head, hlt⟩ = c at hdrop hd
      have hc : simple_char c := halpha c (by rw [hdrop]; exact List.mem_cons_self _ _)
      have hcur2 : (str.data.drop tail).take (head + 1 - tail)
          = (str.data.drop tail).take (head - tail) ++ [c] := by
        rw [take_succ_drop str.data tail head hth hlt]
        have : str.data.drop head = str.data.get ⟨head, hlt⟩ :: str.data.drop (head + 1) :=
          drop_cons_of_lt str.data head hlt
        rw [hdrop] at this
        injection this with h1 _
        rw [h1]
      by_cases hsp : c = ' '
      · -- a space ends the run
        subst hsp
        have hm : mode ≠ Mode.empty := by
          intro e
          obtain ⟨c, cs, h1, h2⟩ := hne e
          rw [hdrop] at h1
          injection h1 with h1 _
          exact h2 h1.symm
        have hcur : (str.data.drop tail).take (head - tail) ≠ [] := by
          rcases hJ with ⟨h, _⟩ | ⟨_, h, _⟩ | ⟨_, c, r, h, _⟩
          · exact absurd h hm
          · exact h
          · rw [h]; simp
        refine hemit _ _ hd Check_symbol_space ?_ hm (Or.inl ?_) ?_
        · rcases hJ with ⟨h, _⟩ | ⟨h, _⟩ | ⟨h, _⟩
          · exact absurd h hm
          · rw [h]; rfl
          · rw [h]; rfl
        · unfold skip_spaces
          rw [hdrop]
          simp [List.takeWhile_cons]
        · rw [split_runs_dropWhile, hdrop]
          simp [split_runs, hcur]
      · -- a digit or an identifier character continues the run
        have hstep : ∀ (symbol : eSymbol) (m : Mode), Check_symbol c = some symbol →
            next_mode mode symbol none = some m → m ≠ Mode._unreachable → m ≠ Mode.done →
            m ≠ Mode.empty →
            run_state m ((str.data.drop tail).take (head - tail) ++ [c]) →
            ∃ res, Parse_loop str (n + 1) mode tail head toks = .ok res
              ∧ res.map Token.data = toks.map Token.data
                  ++ (split_runs ((str.data.drop tail).take (head - tail))
                      (str.data.drop head)).map String.mk
              ∧ ∀ x ∈ res, x.type = Mode.number ∨ x.type = Mode.identifier := by
          intro symbol m hs hn h1 h2 h3 hJ2
          rw [Parse_loop_continue str n mode m tail head toks c symbol hd hs
            (by rw [next_mode_indep _ _ _ hsep]; exact hn) h1 h2]
          have hsplit : split_runs ((str.data.drop tail).take (head - tail)) (str.data.drop head)
              = split_runs ((str.data.drop tail).take (head + 1 - tail))
                  (str.data.drop (head + 1)) := by
            rw [hdrop, hcur2]
            simp [split_runs, hsp]
          have hlen2 : str.data.length = str.length := rfl
          rw [hsplit]
          refine ih m tail (head + 1) toks (by omega) (by omega) (by omega) ?_ ?_ ?_ ?_ htoks
          · intro x hx
            exact halpha x (by rw [hdrop]; exact List.mem_cons_of_mem _ hx)
          · rw [hcur2]; exact hJ2
          · intro e; exact absurd e h3
          · rw [← hsplit]; exact hw
        by_cases hdg : isdigit c = true
        · have hs := Check_symbol_digit hdg
          rcases hJ with ⟨hm, hcur⟩ | ⟨hm, hcur, hall⟩ | ⟨hm, c0, r, hcur, hc0⟩
          · subst hm
            refine hstep _ Mode.number hs rfl (by decide) (by decide) (by decide) ?_
            rw [hcur]
            exact Or.inr (Or.inl ⟨rfl, by simp, by simpa using hdg⟩)
          · subst hm
            refine hstep _ Mode.number hs rfl (by decide) (by decide) (by decide) ?_
            refine Or.inr (Or.inl ⟨rfl, by simp, ?_⟩)
            intro x hx
            rcases List.mem_append.mp hx with h1 | h1
            · exact hall x h1
            · rw [List.mem_singleton] at h1
              rw [h1]; exact hdg
          · subst hm
            refine hstep _ Mode.identifier hs rfl (by decide) (by decide) (by decide) ?_
            exact Or.inr (Or.inr ⟨rfl, c0, r ++ [c], by rw [hcur]; rfl, hc0⟩)
        · have hdg2 : isdigit c = false := by simpa using hdg
          have hot : Is_others c = true := by
            rcases hc with h | h | h
            · exact absurd h hsp
            · exact absurd h hdg
            · exact h
          have hs := Check_symbol_others hdg2 hot
          rcases hJ with ⟨hm, hcur⟩ | ⟨hm, hcur, hall⟩ | ⟨hm, c0, r, hcur, hc0⟩
          · subst hm
            refine hstep _ Mode.identifier hs rfl (by decide) (by decide) (by decide) ?_
            rw [hcur]
            exact Or.inr (Or.inr ⟨rfl, c, [], rfl, hdg2⟩)
          · -- a digit run continued by a non-digit is not a simple word
            exfalso
            obtain ⟨w, hw1, r, hr⟩ := split_runs_extends (str.data.drop (head + 1))
              ((str.data.drop tail).take (head - tail) ++ [c]) (by simp)
            have hw2 : w ∈ split_runs ((str.data.drop tail).take (head - tail))
                (str.data.drop head) := by
              rw [hdrop]
              simp only [split_runs, if_neg hsp]
              exact hw1
            rcases hw w hw2 with h1 | ⟨c1, r1, h1, h2⟩
            · have : isdigit c = true := h1 c (by show c ∈ w; rw [hr]; simp)
              exact hdg this
            · obtain ⟨d, l, hdl⟩ := List.exists_cons_of_ne_nil hcur
              have e : c1 :: r1 = d :: (l ++ [c] ++ r) := by
                rw [← h1]
                show w = _
                rw [hr, hdl]
                simp
              injection e with e1 _
              have : isdigit d = true := hall d (by rw [hdl]; exact List.mem_cons_self _ _)
              rw [← e1, h2] at this
              exact absurd this (by decide)
          · subst hm
            refine hstep _ Mode.identifier hs rfl (by decide) (by decide) (by decide) ?_
            exact Or.inr (Or.inr ⟨rfl, c0, r ++ [c], by rw [hcur]; rfl, hc0⟩)

theorem Preprocess_list_push (x : Token) (post : List Token) (dst : Shell_instruction_list)
    (hx : x.type = Mode.number ∨ x.type = Mode.identifier) :
    Preprocess_list (x :: post) dst = Preprocess_list post (dst.push x.data) := by
  cases post with
  | nil => rw [Preprocess_list, Preprocess_list, if_pos hx.symm]
  | cons nxt rest => rw [Preprocess_list, if_pos hx.symm]

theorem Preprocess_list_plain (toks : List Token) :
    ∀ dst : Shell_instruction_list,
      (∀ x ∈ toks, x.type = Mode.number ∨ x.type = Mode.identifier) →
      Preprocess_list toks dst
        = some { dst with instruction_list := dst.instruction_list ++ toks.map Token.data } := by
  induction toks with
  | nil =>
    intro dst _
    rw [Preprocess_list]
    simp
  | cons x l ih =>
    intro dst h
    rw [Preprocess_list_push x l dst (h x (List.mem_cons_self _ _)),
      ih _ (fun y hy => h y (List.mem_cons_of_mem _ hy))]
    simp [Shell_instruction_list.push]

/-! ## C2 -/

/-- C2, as stated, fails: the line `1a` has no operator character, but the lexer rejects it
(a digit run continued by a letter is the `_unreachable` transition), while its
whitespace-split is the one word `1a`. -/
theorem whitespace_split_counterexample :
    (∀ c ∈ "1a".data, Is_operator c = false) ∧ Parse_cmd "1a" = .rejected
      ∧ whitespace_split "1a" = ["1a"] :=
  ⟨by decide, by decide, by decide⟩

/-- C2, amended: for every line made of spaces, digits and identifier characters that begins
with a non-space character and in which every whitespace-separated word is all digits or
begins with a non-digit, `Parse_cmd` and then `Preprocess_step` succeed and
`instruction_list` is the whitespace-split of the line. -/
theorem Parse_Preprocess_simple (line : String) (halpha : ∀ c ∈ line.data, simple_char c)
    (hfirst : ∃ c cs, line.data = c :: cs ∧ c ≠ ' ')
    (hwords : ∀ w ∈ whitespace_split line, simple_word w) :
    ∃ token_list dst, Parse_cmd line = .ok token_list
      ∧ Preprocess_step token_list {} = .ok dst
      ∧ dst.instruction_list = whitespace_split line := by
  have hw : ∀ w ∈ split_runs [] line.data, simple_word ⟨w⟩ := by
    intro w hw
    apply hwords
    rw [split_runs_eq]
    exact List.mem_map_of_mem _ hw
  obtain ⟨res, h1, h2, h3⟩ := Parse_loop_simple line (2 * line.length + 3) Mode.empty 0 0 []
    (Nat.le_refl _) (Nat.zero_le _) (by omega) (by simpa using halpha)
    (Or.inl ⟨rfl, rfl⟩) (fun _ => by simpa using hfirst) (by simpa using hw)
    (by intro x hx; simp at hx)
  refine ⟨res, { instruction_list := [] ++ res.map Token.data }, h1, ?_, ?_⟩
  · rw [Preprocess_step_eq, Preprocess_list_plain res {} h3]
    rfl
  · show [] ++ res.map Token.data = _
    rw [h2, split_runs_eq]
    simp

theorem Parse_Preprocess_simple_witness :
    (∀ c ∈ "echo hello".data, simple_char c)
      ∧ (∃ c cs, "echo hello".data = c :: cs ∧ c ≠ ' ')
      ∧ (∀ w ∈ whitespace_split "echo hello", simple_word w)
      ∧ ∃ token_list dst, Parse_cmd "echo hello" = .ok token_list
          ∧ Preprocess_step token_list {} = .ok dst
          ∧ dst.instruction_list = whitespace_split "echo hello" :=
  have h1 : ∀ c ∈ "echo hello".data, simple_char c := by
    intro c hc
    simp only [List.mem_cons, List.mem_singleton, List.not_mem_nil, or_false] at hc
    rcases hc with h | h | h | h | h | h | h | h | h | h <;> subst h <;>
      first
      | exact Or.inl rfl
      | exact Or.inr (Or.inr (by decide))
  have h2 : ∃ c cs, "echo hello".data = c :: cs ∧ c ≠ ' ' := ⟨'e', _, rfl, by decide⟩
  have h3 : ∀ w ∈ whitespace_split "echo hello", simple_word w := by
    intro w hw
    have e : whitespace_split "echo hello" = ["echo", "hello"] := by decide
    rw [e] at hw
    simp only [List.mem_cons, List.mem_singleton, List.not_mem_nil, or_false] at hw
    rcases hw with h | h <;> subst h
    · exact Or.inr ⟨'e', _, rfl, by decide⟩
    · exact Or.inr ⟨'h', _, rfl, by decide⟩
  ⟨h1, h2, h3, Parse_Preprocess_simple "echo hello" h1 h2 h3⟩

/-! ## The operator resolver -/

/-- The table lookup, case by case. -/
theorem Get_operator_type_pair_eq (src : String) :
    Get_operator_type_pair src =
      if src = "&&" then some ⟨"&&", .e_and⟩
      else if src = "||" then some ⟨"||", .e_or⟩
      else if src = "|" then some ⟨"|", .pipe⟩
      else if src = "&" then some ⟨"&", .background⟩
      else if src = "<" then some ⟨"<", .in_redirect⟩
      else if src = ">" then some ⟨">", .out_redirect⟩
      else if src = ">>" then some ⟨">>", .out_append_redirect⟩
      else if src = "" then some ⟨"", .e_and⟩
      else none := by
  by_cases h1 : src = "&&"
  · subst h1; rfl
  by_cases h2 : src = "||"
  · subst h2; rfl
  by_cases h3 : src = "|"
  · subst h3; rfl
  by_cases h4 : src = "&"
  · subst h4; rfl
  by_cases h5 : src = "<"
  · subst h5; rfl
  by_cases h6 : src = ">"
  · subst h6; rfl
  by_cases h7 : src = ">>"
  · subst h7; rfl
  by_cases h8 : src = ""
  · subst h8; rfl
  rw [if_neg h1, if_neg h2, if_neg h3, if_neg h4, if_neg h5, if_neg h6, if_neg h7, if_neg h8]
  unfold Get_operator_type_pair
  rw [List.find?_eq_none]
  intro x hx
  simp only [gOperator_type_table, List.mem_cons, List.mem_singleton, List.not_mem_nil,
    or_false] at hx
  rcases hx with e | e | e | e | e | e | e | e <;> subst e <;>
  · simp only [beq_iff_eq]
    intro e2
    first
      | exact h1 e2.symm
      | exact h2 e2.symm
      | exact h3 e2.symm
      | exact h4 e2.symm
      | exact h5 e2.symm
      | exact h6 e2.symm
      | exact h7 e2.symm
      | exact h8 e2.symm

/-! ## C10 -/

/-- C10 fails on the code at the empty string: `gOperator_type_table` has eight elements,
seven of them initialised, and the default-constructed eighth has the empty literal, so
`Get_operator_type_pair("")` succeeds (with the kind `e_and`). -/
theorem Get_operator_type_pair_empty :
    Get_operator_type_pair "" = some ⟨"", eOperator.e_and⟩
      ∧ "" ∉ ["&&", "||", "|", "&", "<", ">", ">>"] :=
  ⟨by decide, by decide⟩

/-- Apart from the empty string, the resolver is the exact match that C10 describes. -/
theorem Get_operator_type_pair_nonempty (src : String) (h : src ≠ "") :
    ((Get_operator_type_pair src).isSome = true
        ↔ src ∈ ["&&", "||", "|", "&", "<", ">", ">>"])
      ∧ (src = "&&" → Get_operator_type_pair src = some ⟨"&&", .e_and⟩)
      ∧ (src = "||" → Get_operator_type_pair src = some ⟨"||", .e_or⟩)
      ∧ (src = "|" → Get_operator_type_pair src = some ⟨"|", .pipe⟩)
      ∧ (src = "&" → Get_operator_type_pair src = some ⟨"&", .background⟩)
      ∧ (src = "<" → Get_operator_type_pair src = some ⟨"<", .in_redirect⟩)
      ∧ (src = ">" → Get_operator_type_pair src = some ⟨">", .out_redirect⟩)
      ∧ (src = ">>" → Get_operator_type_pair src = some ⟨">>", .out_append_redirect⟩) := by
  refine ⟨?_, ?_, ?_, ?_, ?_, ?_, ?_, ?_⟩
  · rw [Get_operator_type_pair_eq]
    simp only [List.mem_cons, List.mem_singleton, List.not_mem_nil, or_false]
    split_ifs <;> simp_all
  all_goals
    intro e
    subst e
    decide


/-! ## Builtins -/

theorem strcmp_eq_iff (a : String) (lit : String) (h : c_str lit = lit) :
    strcmp_eq a lit = true ↔ c_str a = lit := by
  unfold strcmp_eq
  rw [h, beq_iff_eq]

theorem Get_builtin_func_eq (src : Shell_instruction_list) (arg0 : String)
    (extra : List String) (h : src.cmd_list = (arg0 :: extra).map some ++ [none]) :
    Get_builtin_func src =
      if c_str arg0 = "cd" then
        some (some (if extra.length = 1 then Builtin.cd else Builtin.invalid_butilin))
      else if c_str arg0 = "exit" then
        some (some (if extra.length = 0 then Builtin.exit else Builtin.invalid_butilin))
      else if c_str arg0 = "whoisauthor" then
        some (some (if extra.length = 0 then Builtin.whoisauthor else Builtin.invalid_butilin))
      else some none := by
  unfold Get_builtin_func
  have e0 : src.cmd_list[0]? = some (some arg0) := by rw [h]; simp
  have el : src.cmd_list.length = extra.length + 2 := by rw [h]; simp
  rw [e0]
  simp only [el]
  have i1 := strcmp_eq_iff arg0 "cd" (by decide)
  have i2 := strcmp_eq_iff arg0 "exit" (by decide)
  have i3 := strcmp_eq_iff arg0 "whoisauthor" (by decide)
  by_cases h1 : c_str arg0 = "cd"
  · rw [if_pos (i1.mpr h1), if_pos h1]
    by_cases hl : extra.length = 1
    · rw [if_pos (by omega), if_pos hl]
    · rw [if_neg (by omega), if_neg hl]
  · rw [if_neg (fun e => h1 (i1.mp e)), if_neg h1]
    by_cases h2 : c_str arg0 = "exit"
    · rw [if_pos (i2.mpr h2), if_pos h2]
      by_cases hl : extra.length = 0
      · rw [if_pos (by omega), if_pos hl]
      · rw [if_neg (by omega), if_neg hl]
    · rw [if_neg (fun e => h2 (i2.mp e)), if_neg h2]
      by_cases h3 : c_str arg0 = "whoisauthor"
      · rw [if_pos (i3.mpr h3), if_pos h3]
        by_cases hl : extra.length = 0
        · rw [if_pos (by omega), if_pos hl]
        · rw [if_neg (by omega), if_neg hl]
      · rw [if_neg (fun e => h3 (i3.mp e)), if_neg h3]


/-! ## Lemmas on the executor -/

theorem c_str_idem (s : String) : c_str (c_str s) = c_str s := by
  unfold c_str
  show String.mk _ = String.mk _
  rw [List.takeWhile_idem]

/-- An iteration on an instruction that is not an operator and not the last one: it is
appended to the argument vector. -/
theorem Execute_loop_arg (env : Env) (f i : Nat) (src : Shell_instruction_list)
    (stages : List Stage) (x : String) (hx : src.instruction_list[i]? = some x)
    (hc : src.cmd_count ≠ 0) (hop : Get_operator_type_pair (c_str x) = none)
    (hlast : i + 1 ≠ src.size) :
    Execute_loop env (f + 1) i src stages
      = Execute_loop env f (i + 1) (src.push_cmd (some (c_str x))) stages := by
  have hi : i < src.size := by
    unfold Shell_instruction_list.size
    by_contra hcon
    rw [List.getElem?_eq_none (by omega)] at hx
    exact absurd hx (by simp)
  conv_lhs => unfold Execute_loop
  rw [if_pos ⟨hi, hc⟩]
  simp only [hx, hop, Option.isSome_none, if_true]
  have hs : (src.push_cmd (some (c_str x))).size = src.size := rfl
  rw [if_neg (by rw [hs]; simp [hlast])]

/-- An iteration that completes a stage which does not set `exit_flag`. -/
theorem Execute_loop_stage (env : Env) (f i : Nat) (src src1 src2 : Shell_instruction_list)
    (stages : List Stage) (x : String) (bf : Option Builtin) (b : Bool)
    (hx : src.instruction_list[i]? = some x) (hc : src.cmd_count ≠ 0)
    (hdone : (Get_operator_type_pair (c_str x)).isSome = true ∨ i + 1 = src.size)
    (h1 : src1 = (if (Get_operator_type_pair (c_str x)).isSome = false
        then src.push_cmd (some (c_str x)) else src).push_cmd none)
    (hbf : Get_builtin_func src1 = some bf)
    (hrun : run_cmd_list env i bf src1 = some (b, src2))
    (hexit : src2.exit_flag = false) :
    Execute_loop env (f + 1) i src stages
      = Execute_loop env f
          (skip_operand ((Get_operator_type_pair (c_str x)).getD ⟨"", env.junk i⟩).type i + 1)
          src2.next_cmd
          (stages ++ [⟨src1.cmd_list, bf,
            ((Get_operator_type_pair (c_str x)).getD ⟨"", env.junk i⟩).type,
            src1.is_first_cmd, src1.cur_read_pipe, src1.cmd_count⟩]) := by
  have hi : i < src.size := by
    unfold Shell_instruction_list.size
    by_contra hcon
    rw [List.getElem?_eq_none (by omega)] at hx
    exact absurd hx (by simp)
  conv_lhs => unfold Execute_loop
  rw [if_pos ⟨hi, hc⟩]
  simp only [hx]
  have hs : (if (Get_operator_type_pair (c_str x)).isSome = false
      then src.push_cmd (some (c_str x)) else src).size = src.size := by
    split <;> rfl
  rw [if_pos (by rw [hs]; exact hdone), ← h1]
  simp only [hbf, hrun]
  rw [if_neg (by rw [hexit]; decide)]

theorem Execute_loop_end (env : Env) (f i : Nat) (src : Shell_instruction_list)
    (stages : List Stage) (h : src.size ≤ i ∨ src.cmd_count = 0) :
    Execute_loop env (f + 1) i src stages = .returned true src stages := by
  conv_lhs => unfold Execute_loop
  rw [if_neg]
  intro ⟨h1, h2⟩
  rcases h with h | h
  · omega
  · exact h2 h


/-- A stage whose argument vector is not exactly `exit`, run in the parent process: the
lookup succeeds, the stage returns, and `exit_flag` and the instructions are left alone. -/
theorem run_cmd_list_parent (chdir : Option String → Bool) (junk : Nat → eOperator) (i : Nat)
    (src1 : Shell_instruction_list) (a0 : String) (extra : List String)
    (h : src1.cmd_list = (a0 :: extra).map some ++ [none])
    (hne : ¬ (c_str a0 = "exit" ∧ extra = [])) :
    ∃ bf b src2, Get_builtin_func src1 = some bf
      ∧ run_cmd_list (Env.in_parent chdir junk) i bf src1 = some (b, src2)
      ∧ src2.exit_flag = src1.exit_flag ∧ src2.instruction_list = src1.instruction_list
      ∧ src2.cmd_count = src1.cmd_count := by
  rw [Get_builtin_func_eq src1 a0 extra h]
  by_cases h1 : c_str a0 = "cd"
  · rw [if_pos h1]
    by_cases hl : extra.length = 1
    · rw [if_pos hl]; exact ⟨_, _, _, rfl, rfl, rfl, rfl, rfl⟩
    · rw [if_neg hl]; exact ⟨_, _, _, rfl, rfl, rfl, rfl, rfl⟩
  · rw [if_neg h1]
    by_cases h2 : c_str a0 = "exit"
    · rw [if_pos h2]
      have hl : ¬ extra.length = 0 := fun e => hne ⟨h2, List.length_eq_zero.mp e⟩
      rw [if_neg hl]; exact ⟨_, _, _, rfl, rfl, rfl, rfl, rfl⟩
    · rw [if_neg h2]
      by_cases h3 : c_str a0 = "whoisauthor"
      · rw [if_pos h3]
        by_cases hl : extra.length = 0
        · rw [if_pos hl]; exact ⟨_, _, _, rfl, rfl, rfl, rfl, rfl⟩
        · rw [if_neg hl]; exact ⟨_, _, _, rfl, rfl, rfl, rfl, rfl⟩
      · rw [if_neg h3]
        refine ⟨_, true, if src1.is_first_cmd = true then { src1 with is_first_cmd := false }
          else src1, rfl, rfl, ?_, ?_, ?_⟩ <;> split <;> rfl

theorem getElem?_append_cons (pre : List String) (x : String) (rest : List String) :
    (pre ++ x :: rest)[pre.length]? = some x := by
  induction pre with
  | nil => simp
  | cons a l ih => simpa using ih

/-- The iterations over a run of non-operator instructions that is followed by more
instructions: they are appended to the argument vector, as C strings. -/
theorem Execute_loop_args (env : Env) (stages : List Stage) :
    ∀ (w pre rest : List String) (f : Nat) (src : Shell_instruction_list),
      src.instruction_list = pre ++ w ++ rest → rest ≠ [] → src.cmd_count ≠ 0 →
      (∀ x ∈ w, Get_operator_type_pair (c_str x) = none) →
      ∃ src1, Execute_loop env (f + w.length) pre.length src stages
          = Execute_loop env f (pre.length + w.length) src1 stages
        ∧ src1.cmd_list = src.cmd_list ++ w.map (fun x => some (c_str x))
        ∧ src1.instruction_list = src.instruction_list ∧ src1.cmd_count = src.cmd_count
        ∧ src1.exit_flag = src.exit_flag := by
  intro w
  induction w with
  | nil =>
    intro pre rest f src _ _ _ _
    exact ⟨src, rfl, by simp, rfl, rfl, rfl⟩
  | cons x w ih =>
    intro pre rest f src hl hr hc hw
    have hx : src.instruction_list[pre.length]? = some x := by
      rw [hl, List.append_assoc]
      exact getElem?_append_cons pre x (w ++ rest)
    have hlast : pre.length + 1 ≠ src.size := by
      unfold Shell_instruction_list.size
      rw [hl]
      have : rest.length ≠ 0 := fun e => hr (List.length_eq_zero.mp e)
      simp only [List.length_append, List.length_cons]
      omega
    have e1 := Execute_loop_arg env (f + w.length) pre.length src stages x hx hc
      (hw x (List.mem_cons_self _ _)) hlast
    obtain ⟨src1, e2, e3, e4, e5, e6⟩ := ih (pre ++ [x]) rest f (src.push_cmd (some (c_str x)))
      (by show src.instruction_list = _; rw [hl]; simp) hr hc
      (fun y hy => hw y (List.mem_cons_of_mem _ hy))
    refine ⟨src1, ?_, ?_, e4, e5, e6⟩
    · have ef : f + (x :: w).length = f + w.length + 1 := by simp; omega
      rw [ef, e1]
      have ep : (pre ++ [x]).length = pre.length + 1 := by simp
      rw [ep] at e2
      rw [e2]
      congr 1
      simp; omega
    · rw [e3]
      show src.cmd_list ++ [some (c_str x)] ++ _ = _
      simp


/-- The iteration that completes the stage with the arguments `w` in the parent process,
when `w` is not empty and not exactly `exit`. -/
theorem Execute_loop_stage_parent (chdir : Option String → Bool) (junk : Nat → eOperator)
    (f i : Nat) (src : Shell_instruction_list) (stages : List Stage) (x : String)
    (w : List String) (hx : src.instruction_list[i]? = some x) (hc : src.cmd_count ≠ 0)
    (hdone : (Get_operator_type_pair (c_str x)).isSome = true ∨ i + 1 = src.size)
    (hA : ((if (Get_operator_type_pair (c_str x)).isSome = false
        then src.push_cmd (some (c_str x)) else src).push_cmd none).cmd_list = argv_of w)
    (hw : w ≠ []) (hexit : w.map c_str ≠ ["exit"]) (hflag : src.exit_flag = false) :
    ∃ src3 st, Execute_loop (Env.in_parent chdir junk) (f + 1) i src stages
        = Execute_loop (Env.in_parent chdir junk) f
            (skip_operand ((Get_operator_type_pair (c_str x)).getD ⟨"", junk i⟩).type i + 1)
            src3 (stages ++ [st])
      ∧ st.argv = argv_of w ∧ src3.cmd_list = [] ∧ src3.exit_flag = false
      ∧ src3.instruction_list = src.instruction_list ∧ src3.cmd_count = src.cmd_count - 1 := by
  obtain ⟨a, t, hat⟩ := List.exists_cons_of_ne_nil hw
  have hA2 : ((if (Get_operator_type_pair (c_str x)).isSome = false
        then src.push_cmd (some (c_str x)) else src).push_cmd none).cmd_list
      = (c_str a :: t.map c_str).map some ++ [none] := by
    rw [hA, hat]
    simp [argv_of]
  have hne : ¬ (c_str (c_str a) = "exit" ∧ t.map c_str = []) := by
    intro ⟨h1, h2⟩
    apply hexit
    rw [hat, List.map_cons, h2, ← c_str_idem, h1]
  obtain ⟨bf, b, src2, h1, h2, h3, h4, h5⟩ :=
    run_cmd_list_parent chdir junk i _ (c_str a) (t.map c_str) hA2 hne
  have hbase : ∀ s : Shell_instruction_list,
      ((if (Get_operator_type_pair (c_str x)).isSome = false
        then s.push_cmd (some (c_str x)) else s).push_cmd none).exit_flag = s.exit_flag
      ∧ ((if (Get_operator_type_pair (c_str x)).isSome = false
        then s.push_cmd (some (c_str x)) else s).push_cmd none).instruction_list
          = s.instruction_list
      ∧ ((if (Get_operator_type_pair (c_str x)).isSome = false
        then s.push_cmd (some (c_str x)) else s).push_cmd none).cmd_count = s.cmd_count := by
    intro s
    split <;> exact ⟨rfl, rfl, rfl⟩
  have e := Execute_loop_stage (Env.in_parent chdir junk) f i src _ src2 stages x bf b hx hc
    hdone rfl h1 h2 (by rw [h3, (hbase src).1, hflag])
  refine ⟨src2.next_cmd, _, e, hA, rfl, ?_, ?_, ?_⟩
  · show src2.exit_flag = false
    rw [h3, (hbase src).1, hflag]
  · show src2.instruction_list = _
    rw [h4, (hbase src).2.1]
  · show src2.cmd_count - 1 = _
    rw [h5, (hbase src).2.2]


theorem pipe_resolved : Get_operator_type_pair (c_str "|") = some ⟨"|", eOperator.pipe⟩ := by
  decide

theorem Execute_loop_pipeline (chdir : Option String → Bool) (junk : Nat → eOperator) :
    ∀ (ws : List (List String)) (pre : List String) (fuel : Nat)
      (src : Shell_instruction_list) (stages : List Stage),
      (∀ w ∈ ws, w ≠ [] ∧ ∀ x ∈ w, Get_operator_type_pair (c_str x) = none) →
      (∀ w ∈ ws, w.map c_str ≠ ["exit"]) →
      src.instruction_list = pre ++ List.intercalate ["|"] ws →
      src.cmd_list = [] → src.exit_flag = false → src.cmd_count = ws.length →
      (List.intercalate ["|"] ws).length < fuel →
      ∃ src1 new, Execute_loop (Env.in_parent chdir junk) fuel pre.length src stages
          = .returned true src1 (stages ++ new)
        ∧ new.map Stage.argv = ws.map argv_of := by
  intro ws
  induction ws with
  | nil =>
    intro pre fuel src stages _ _ hl _ _ _ hf
    obtain ⟨f, rfl⟩ : ∃ f, fuel = f + 1 := ⟨fuel - 1, by omega⟩
    refine ⟨src, [], ?_, rfl⟩
    rw [Execute_loop_end _ f _ src stages (Or.inl ?_), List.append_nil]
    unfold Shell_instruction_list.size
    rw [hl]
    simp [List.intercalate]
  | cons w tl ih =>
    intro pre fuel src stages hws hex hl hcl hflag hcount hf
    have hw := hws w (List.mem_cons_self _ _)
    have hc : src.cmd_count ≠ 0 := by rw [hcount]; simp
    cases tl with
    | nil =>
      -- the last stage is completed by the last instruction
      have hi : List.intercalate ["|"] [w] = w := by simp [List.intercalate]
      rw [hi] at hl hf
      have hsplit := (List.dropLast_append_getLast hw.1).symm
      generalize w.dropLast = init at hsplit
      generalize w.getLast hw.1 = last at hsplit
      obtain ⟨f, rfl⟩ : ∃ f, fuel = f + 1 + 1 + init.length := by
        have : w.length = init.length + 1 := by rw [hsplit]; simp
        exact ⟨fuel - init.length - 2, by omega⟩
      obtain ⟨src1, e1, e2, e3, e4, e5⟩ := Execute_loop_args (Env.in_parent chdir junk) stages
        init pre [last] (f + 1 + 1) src (by rw [hl, hsplit, List.append_assoc]) (by simp) hc
        (fun x hx => hw.2 x (by rw [hsplit]; exact List.mem_append_left _ hx))
      have hlast : Get_operator_type_pair (c_str last) = none :=
        hw.2 last (by rw [hsplit]; simp)
      have hx : src1.instruction_list[pre.length + init.length]? = some last := by
        rw [e3, hl, hsplit, ← List.append_assoc, ← List.length_append]
        exact getElem?_append_cons (pre ++ init) last []
      have hsize : pre.length + init.length + 1 = src1.size := by
        unfold Shell_instruction_list.size
        rw [e3, hl, hsplit]
        simp
        omega
      obtain ⟨src3, st, e6, e7, _, _, e8, _⟩ := Execute_loop_stage_parent chdir junk (f + 1)
        (pre.length + init.length) src1 stages last w hx (by rw [e4]; exact hc)
        (Or.inr hsize)
        (by
          rw [hlast]
          show src1.cmd_list ++ [some (c_str last)] ++ [none] = _
          rw [e2, hcl, hsplit]
          simp [argv_of])
        hw.1 (hex w (List.mem_cons_self _ _)) (by rw [e5]; exact hflag)
      refine ⟨src3, [st], ?_, by simp [e7]⟩
      rw [e1, e6, Execute_loop_end]
      left
      unfold Shell_instruction_list.size at hsize ⊢
      rw [e8, ← hsize]
      unfold skip_operand
      split <;> omega
    | cons w2 ws2 =>
      -- the stage is completed by the `|` that follows it
      have hi : List.intercalate ["|"] (w :: w2 :: ws2)
          = w ++ "|" :: List.intercalate ["|"] (w2 :: ws2) := by
        simp [List.intercalate]
      rw [hi] at hl hf
      obtain ⟨f, rfl⟩ : ∃ f, fuel = f + 1 + w.length := by
        have : (w ++ "|" :: List.intercalate ["|"] (w2 :: ws2)).length
            = w.length + 1 + (List.intercalate ["|"] (w2 :: ws2)).length := by
          simp; omega
        exact ⟨fuel - w.length - 1, by omega⟩
      obtain ⟨src1, e1, e2, e3, e4, e5⟩ := Execute_loop_args (Env.in_parent chdir junk) stages
        w pre ("|" :: List.intercalate ["|"] (w2 :: ws2)) (f + 1) src
        (by rw [hl, List.append_assoc]) (by simp) hc hw.2
      have hx : src1.instruction_list[pre.length + w.length]? = some "|" := by
        rw [e3, hl, ← List.append_assoc, ← List.length_append]
        exact getElem?_append_cons (pre ++ w) "|" _
      obtain ⟨src3, st, e6, e7, e8, e9, e10, e11⟩ := Execute_loop_stage_parent chdir junk f
        (pre.length + w.length) src1 stages "|" w hx (by rw [e4]; exact hc)
        (Or.inl (by rw [pipe_resolved]; rfl))
        (by
          rw [pipe_resolved]
          show src1.cmd_list ++ [none] = _
          rw [e2, hcl]
          simp [argv_of])
        hw.1 (hex w (List.mem_cons_self _ _)) (by rw [e5]; exact hflag)
      rw [pipe_resolved] at e6
      have hskip : skip_operand ((some (⟨"|", eOperator.pipe⟩ : Operator_type_pair)).getD
          ⟨"", junk (pre.length + w.length)⟩).type (pre.length + w.length) + 1
          = (pre ++ w ++ ["|"]).length := by
        simp [skip_operand]
        omega
      rw [hskip] at e6
      obtain ⟨src4, new, e12, e13⟩ := ih (pre ++ w ++ ["|"]) f src3 (stages ++ [st])
        (fun v hv => hws v (List.mem_cons_of_mem _ hv))
        (fun v hv => hex v (List.mem_cons_of_mem _ hv))
        (by rw [e10, e3, hl]; simp)
        e8 e9 (by rw [e11, e4, hcount]; simp)
        (by
          have : (w ++ "|" :: List.intercalate ["|"] (w2 :: ws2)).length
              = w.length + 1 + (List.intercalate ["|"] (w2 :: ws2)).length := by
            simp; omega
          omega)
      refine ⟨src4, st :: new, ?_, by simp [e7, e13]⟩
      rw [e1, e6, e12]
      simp


theorem c_str_of_no_nul (s : String) (h : '\x00' ∉ s.data) : c_str s = s := by
  unfold c_str
  show String.mk _ = s
  rw [List.takeWhile_eq_self_iff.mpr]
  intro c hc
  simp only [ne_eq, decide_not, Bool.not_eq_true', decide_eq_false_iff_not]
  intro e
  subst e
  exact h hc

theorem argv_of_no_nul (w : List String) (h : ∀ x ∈ w, '\x00' ∉ x.data) :
    argv_of w = w.map some ++ [none] := by
  unfold argv_of
  congr 1
  apply List.map_congr_left
  intro x hx
  rw [c_str_of_no_nul x (h x hx)]

/-! ## C7 -/

/-- C7: for an instruction list `w1 | w2 | ... | wN` with `cmd_count = N`, where every `wi` is
a non-empty list of strings that are not resolved as operators and no `wi` is exactly `exit`,
`Execute_entire_cmd`, followed in the parent process, returns `true` after completing exactly
`N` stages, in order, and the argument vector of stage `k` is `wk` (its C strings) followed by
the null sentinel; for strings without a `'\0'` that is `wk` itself. -/
theorem Execute_entire_cmd_pipeline (chdir : Option String → Bool) (junk : Nat → eOperator)
    (ws : List (List String)) (src : Shell_instruction_list)
    (hws : ∀ w ∈ ws, w ≠ [] ∧ ∀ x ∈ w, Get_operator_type_pair (c_str x) = none)
    (hexit : ∀ w ∈ ws, w.map c_str ≠ ["exit"])
    (hl : src.instruction_list = List.intercalate ["|"] ws) (hcl : src.cmd_list = [])
    (hflag : src.exit_flag = false) (hcount : src.cmd_count = ws.length) :
    ∃ src1 stages, Execute_entire_cmd (Env.in_parent chdir junk) src
        = .returned true src1 stages
      ∧ stages.length = ws.length
      ∧ stages.map Stage.argv = ws.map argv_of
      ∧ ((∀ w ∈ ws, ∀ x ∈ w, '\x00' ∉ x.data) →
          stages.map Stage.argv = ws.map (fun w => w.map some ++ [none])) := by
  obtain ⟨src1, new, e1, e2⟩ := Execute_loop_pipeline chdir junk ws [] (src.size + 1) src []
    hws hexit (by rw [hl]; rfl) hcl hflag hcount
    (by unfold Shell_instruction_list.size; rw [hl]; omega)
  refine ⟨src1, new, ?_, ?_, e2, ?_⟩
  · unfold Execute_entire_cmd
    rw [List.nil_append] at e1
    exact e1
  · have := congrArg List.length e2
    simpa using this
  · intro hn
    rw [e2]
    apply List.map_congr_left
    intro w hw
    exact argv_of_no_nul w (hn w hw)

theorem Execute_entire_cmd_pipeline_witness :
    (∀ w ∈ [["echo", "hello"]], w ≠ [] ∧ ∀ x ∈ w, Get_operator_type_pair (c_str x) = none)
      ∧ (∀ w ∈ [["echo", "hello"]], w.map c_str ≠ ["exit"])
      ∧ ∃ src1 stages,
          Execute_entire_cmd (Env.in_parent (fun _ => false) (fun _ => eOperator.e_and))
              { instruction_list := ["echo", "hello"] }
            = .returned true src1 stages
          ∧ stages.length = 1
          ∧ stages.map Stage.argv = [argv_of ["echo", "hello"]]
          ∧ ((∀ w ∈ [["echo", "hello"]], ∀ x ∈ w, '\x00' ∉ x.data) →
              stages.map Stage.argv = [[some "echo", some "hello", none]]) :=
  ⟨by decide, by decide,
    Execute_entire_cmd_pipeline (fun _ => false) (fun _ => eOperator.e_and) [["echo", "hello"]]
      { instruction_list := ["echo", "hello"] } (by decide) (by decide) rfl rfl rfl rfl⟩


/-! ## C9 -/

/-- C9: for a null-terminated argument vector `arg0 :: extra` (arguments read as C strings),
`Get_builtin_func` returns a builtin when `arg0` is `cd`, `exit` or `whoisauthor`: the working
one exactly when there are 1, 0 and 0 extra arguments respectively, the stub otherwise; the
stub returns `false` and leaves the state (so `exit_flag`) as it is; any other `arg0` is not a
builtin.  On the line `cd` the stage resolves to the stub and `Execute_entire_cmd`, followed
in the parent process, returns `true`. -/
theorem Get_builtin_func_spec (src : Shell_instruction_list) (arg0 : String)
    (extra : List String) (h : src.cmd_list = (arg0 :: extra).map some ++ [none]) :
    (c_str arg0 = "cd" →
        Get_builtin_func src
          = some (some (if extra.length = 1 then Builtin.cd else Builtin.invalid_butilin)))
      ∧ (c_str arg0 = "exit" →
        Get_builtin_func src
          = some (some (if extra.length = 0 then Builtin.exit else Builtin.invalid_butilin)))
      ∧ (c_str arg0 = "whoisauthor" →
        Get_builtin_func src
          = some (some
              (if extra.length = 0 then Builtin.whoisauthor else Builtin.invalid_butilin)))
      ∧ (c_str arg0 ≠ "cd" → c_str arg0 ≠ "exit" → c_str arg0 ≠ "whoisauthor" →
        Get_builtin_func src = some none)
      ∧ (∀ (env : Env) (s : Shell_instruction_list),
          Builtin.invalid_butilin.call env s = (false, s))
      ∧ (∀ (chdir : Option String → Bool) (junk : Nat → eOperator),
          ∃ src1 st, run_line (Env.in_parent chdir junk) "cd"
              = some (.returned true src1 [st])
            ∧ st.argv = [some "cd", none] ∧ st.builtin = some Builtin.invalid_butilin) := by
  have e := Get_builtin_func_eq src arg0 extra h
  refine ⟨?_, ?_, ?_, ?_, fun _ _ => rfl, ?_⟩
  · intro h1
    rw [e, if_pos h1]
  · intro h2
    rw [e, if_neg (by rw [h2]; decide), if_pos h2]
  · intro h3
    rw [e, if_neg (by rw [h3]; decide), if_neg (by rw [h3]; decide), if_pos h3]
  · intro h1 h2 h3
    rw [e, if_neg h1, if_neg h2, if_neg h3]
  · intro chdir junk
    have hp : Parse_cmd "cd" = .ok [⟨"cd", 0, 1, .identifier⟩] := by decide
    have hq : Preprocess_step [⟨"cd", 0, 1, .identifier⟩] {}
        = .ok { instruction_list := ["cd"] } := by decide
    have e1 := Execute_loop_stage (Env.in_parent chdir junk) 1 0 { instruction_list := ["cd"] }
      { instruction_list := ["cd"], cmd_list := [some "cd", none] }
      { instruction_list := ["cd"], cmd_list := [some "cd", none] } [] "cd"
      (some Builtin.invalid_butilin) false rfl (by decide) (Or.inr rfl) (by decide) (by decide)
      rfl rfl
    have e2 := Execute_loop_end (Env.in_parent chdir junk) 0
      (skip_operand ((Get_operator_type_pair (c_str "cd")).getD ⟨"", junk 0⟩).type 0 + 1)
      (Shell_instruction_list.next_cmd
        { instruction_list := ["cd"], cmd_list := [some "cd", none] })
      ([] ++ [⟨[some "cd", none], some Builtin.invalid_butilin,
        ((Get_operator_type_pair (c_str "cd")).getD ⟨"", junk 0⟩).type, true, 0, 1⟩])
      (Or.inl (by show 1 ≤ _; omega))
    refine ⟨Shell_instruction_list.next_cmd
        { instruction_list := ["cd"], cmd_list := [some "cd", none] },
      ⟨[some "cd", none], some Builtin.invalid_butilin,
        ((Get_operator_type_pair (c_str "cd")).getD ⟨"", junk 0⟩).type, true, 0, 1⟩,
      ?_, ?_, ?_⟩
    · unfold run_line
      rw [hp]
      simp only
      rw [hq]
      simp only
      unfold Execute_entire_cmd
      exact congrArg some (e1.trans e2)
    · rfl
    · rfl


theorem Get_builtin_func_spec_witness :
    ({ cmd_list := [some "cd", none] } : Shell_instruction_list).cmd_list
        = ("cd" :: []).map some ++ [none]
      ∧ c_str "cd" = "cd"
      ∧ Get_builtin_func { cmd_list := [some "cd", none] }
          = some (some Builtin.invalid_butilin) :=
  ⟨rfl, by decide,
    (Get_builtin_func_spec { cmd_list := [some "cd", none] } "cd" [] rfl).1 (by decide)⟩


/-! ## The return value of the executor -/

/-- The lookup finds the working `exit` exactly on the argument vector `exit`, when the
arguments are C strings. -/
theorem Get_builtin_func_exit (src : Shell_instruction_list) (l : List (Option String))
    (hl : src.cmd_list = l ++ [none]) (hc : ∀ a ∈ l, ∃ x, a = some (c_str x)) :
    Get_builtin_func src = some (some Builtin.exit) ↔ src.cmd_list = [some "exit", none] := by
  constructor
  · intro h
    cases l with
    | nil =>
      simp [Get_builtin_func, hl] at h
    | cons a t =>
      obtain ⟨x, hx⟩ := hc a (List.mem_cons_self _ _)
      subst hx
      obtain ⟨extra, hextra⟩ : ∃ extra : List String, t = extra.map some := by
        clear hl h
        induction t with
        | nil => exact ⟨[], rfl⟩
        | cons b t ih =>
          obtain ⟨y, hy⟩ := hc b (List.mem_cons_of_mem _ (List.mem_cons_self _ _))
          obtain ⟨e, he⟩ := ih (fun c hc2 => by
            rcases List.mem_cons.mp hc2 with h1 | h1
            · exact hc c (h1 ▸ List.mem_cons_self _ _)
            · exact hc c (List.mem_cons_of_mem _ (List.mem_cons_of_mem _ h1)))
          exact ⟨c_str y :: e, by rw [hy, he]; rfl⟩
      subst hextra
      have e := Get_builtin_func_eq src (c_str x) extra (by rw [hl]; rfl)
      rw [c_str_idem] at e
      rw [e] at h
      by_cases h1 : c_str x = "cd"
      · rw [if_pos h1] at h
        split at h <;> simp at h
      · rw [if_neg h1] at h
        by_cases h2 : c_str x = "exit"
        · rw [if_pos h2] at h
          by_cases h3 : extra.length = 0
          · have : extra = [] := List.length_eq_zero.mp h3
            subst this
            rw [hl, h2]
            rfl
          · rw [if_neg h3] at h
            simp at h
        · rw [if_neg h2] at h
          split at h
          · split at h <;> simp at h
          · simp at h
  · intro h
    unfold Get_builtin_func
    rw [h]
    decide

theorem Builtin_call_exit_flag (env : Env) (src : Shell_instruction_list) (f : Builtin)
    (hf : f ≠ Builtin.exit) :
    (f.call env src).2.exit_flag = src.exit_flag ∧ (f.call env src).2.cmd_list = src.cmd_list := by
  cases f with
  | exit => exact absurd rfl hf
  | _ => exact ⟨rfl, rfl⟩

theorem run_cmd_list_parent_keep (chdir : Option String → Bool) (junk : Nat → eOperator)
    (i : Nat) (bf : Option Builtin) (src1 : Shell_instruction_list)
    (hbf : bf ≠ some Builtin.exit) :
    ∃ b src2, run_cmd_list (Env.in_parent chdir junk) i bf src1 = some (b, src2)
      ∧ src2.exit_flag = src1.exit_flag ∧ src2.instruction_list = src1.instruction_list := by
  cases bf with
  | none =>
    refine ⟨true, if src1.is_first_cmd = true then { src1 with is_first_cmd := false }
      else src1, rfl, ?_, ?_⟩ <;> split <;> rfl
  | some f =>
    cases f with
    | exit => exact absurd rfl hbf
    | _ => exact ⟨_, _, rfl, rfl, rfl⟩

/-- An iteration that completes a stage whose argument vector has no first argument. -/
theorem Execute_loop_invalid (env : Env) (f i : Nat) (src src1 : Shell_instruction_list)
    (stages : List Stage) (x : String)
    (hx : src.instruction_list[i]? = some x) (hc : src.cmd_count ≠ 0)
    (hdone : (Get_operator_type_pair (c_str x)).isSome = true ∨ i + 1 = src.size)
    (h1 : src1 = (if (Get_operator_type_pair (c_str x)).isSome = false
        then src.push_cmd (some (c_str x)) else src).push_cmd none)
    (hbf : Get_builtin_func src1 = none) :
    Execute_loop env (f + 1) i src stages = .invalid_access stages := by
  have hi : i < src.size := by
    unfold Shell_instruction_list.size
    by_contra hcon
    rw [List.getElem?_eq_none (by omega)] at hx
    exact absurd hx (by simp)
  conv_lhs => unfold Execute_loop
  rw [if_pos ⟨hi, hc⟩]
  simp only [hx]
  have hs : (if (Get_operator_type_pair (c_str x)).isSome = false
      then src.push_cmd (some (c_str x)) else src).size = src.size := by
    split <;> rfl
  rw [if_pos (by rw [hs]; exact hdone), ← h1]
  simp only [hbf]

/-- An iteration that completes a stage which sets `exit_flag`. -/
theorem Execute_loop_exit (env : Env) (f i : Nat) (src src1 src2 : Shell_instruction_list)
    (stages : List Stage) (x : String) (bf : Option Builtin) (b : Bool)
    (hx : src.instruction_list[i]? = some x) (hc : src.cmd_count ≠ 0)
    (hdone : (Get_operator_type_pair (c_str x)).isSome = true ∨ i + 1 = src.size)
    (h1 : src1 = (if (Get_operator_type_pair (c_str x)).isSome = false
        then src.push_cmd (some (c_str x)) else src).push_cmd none)
    (hbf : Get_builtin_func src1 = some bf)
    (hrun : run_cmd_list env i bf src1 = some (b, src2))
    (hexit : src2.exit_flag = true) :
    Execute_loop env (f + 1) i src stages
      = .returned false src2
          (stages ++ [⟨src1.cmd_list, bf,
            ((Get_operator_type_pair (c_str x)).getD ⟨"", env.junk i⟩).type,
            src1.is_first_cmd, src1.cur_read_pipe, src1.cmd_count⟩]) := by
  have hi : i < src.size := by
    unfold Shell_instruction_list.size
    by_contra hcon
    rw [List.getElem?_eq_none (by omega)] at hx
    exact absurd hx (by simp)
  conv_lhs => unfold Execute_loop
  rw [if_pos ⟨hi, hc⟩]
  simp only [hx]
  have hs : (if (Get_operator_type_pair (c_str x)).isSome = false
      then src.push_cmd (some (c_str x)) else src).size = src.size := by
    split <;> rfl
  rw [if_pos (by rw [hs]; exact hdone), ← h1]
  simp only [hbf, hrun]
  rw [if_pos hexit]

/-- In the parent process, from a state in which `exit` was not called, the loop either makes
an invalid read, or returns `false` right after a stage `exit`, or returns `true` without
any stage `exit`. -/
theorem Execute_loop_live (chdir : Option String → Bool) (junk : Nat → eOperator) :
    ∀ (fuel i : Nat) (src : Shell_instruction_list) (stages : List Stage),
      src.exit_flag = false → (∀ a ∈ src.cmd_list, ∃ x, a = some (c_str x)) →
      (∀ st ∈ stages, st.argv ≠ [some "exit", none]) → src.size - i < fuel →
      (∃ stages1, Execute_loop (Env.in_parent chdir junk) fuel i src stages
          = .invalid_access stages1)
        ∨ (∃ src1 stages1, Execute_loop (Env.in_parent chdir junk) fuel i src stages
              = .returned true src1 stages1
            ∧ ∀ st ∈ stages1, st.argv ≠ [some "exit", none])
        ∨ (∃ src1 stages1, Execute_loop (Env.in_parent chdir junk) fuel i src stages
              = .returned false src1 stages1
            ∧ ∃ st ∈ stages1, st.argv = [some "exit", none]) := by
  intro fuel
  induction fuel with
  | zero => intro i src stages _ _ _ h; omega
  | succ n ih =>
    intro i src stages hflag hcl hst hfuel
    by_cases hguard : i < src.size ∧ src.cmd_count ≠ 0
    · obtain ⟨hi, hc⟩ := hguard
      have hx : src.instruction_list[i]? = some src.instruction_list[i] :=
        List.getElem?_eq_getElem hi
      generalize src.instruction_list[i] = x at hx
      by_cases hdone : (Get_operator_type_pair (c_str x)).isSome = true ∨ i + 1 = src.size
      · -- a stage is completed
        have hcl1 : ∃ l, ((if (Get_operator_type_pair (c_str x)).isSome = false
              then src.push_cmd (some (c_str x)) else src).push_cmd none).cmd_list = l ++ [none]
            ∧ ∀ a ∈ l, ∃ y, a = some (c_str y) := by
          split
          · refine ⟨src.cmd_list ++ [some (c_str x)], rfl, ?_⟩
            intro a ha
            rcases List.mem_append.mp ha with h1 | h1
            · exact hcl a h1
            · exact ⟨x, by simpa using h1⟩
          · exact ⟨src.cmd_list, rfl, hcl⟩
        have hfl1 : ((if (Get_operator_type_pair (c_str x)).isSome = false
              then src.push_cmd (some (c_str x)) else src).push_cmd none).exit_flag = false := by
          split <;> exact hflag
        have hsz1 : ((if (Get_operator_type_pair (c_str x)).isSome = false
              then src.push_cmd (some (c_str x)) else src).push_cmd none).size = src.size := by
          split <;> rfl
        obtain ⟨src1, h1⟩ : ∃ s, s = ((if (Get_operator_type_pair (c_str x)).isSome = false
              then src.push_cmd (some (c_str x)) else src).push_cmd none) := ⟨_, rfl⟩
        rw [← h1] at hcl1 hfl1 hsz1
        obtain ⟨l, hl1, hl2⟩ := hcl1
        cases hbf : Get_builtin_func src1 with
        | none =>
          left
          exact ⟨stages, Execute_loop_invalid _ n i src src1 stages x hx hc hdone h1 hbf⟩
        | some bf =>
          by_cases hex : bf = some Builtin.exit
          · subst hex
            right; right
            refine ⟨_, _, Execute_loop_exit _ n i src src1 { src1 with exit_flag := true }
              stages x _ true hx hc hdone h1 hbf rfl rfl, _, List.mem_append_right _
                (List.mem_singleton_self _), ?_⟩
            exact (Get_builtin_func_exit src1 l hl1 hl2).mp hbf
          · obtain ⟨b, src2, hrun, e1, e2⟩ := run_cmd_list_parent_keep chdir junk i bf src1 hex
            rw [Execute_loop_stage _ n i src src1 src2 stages x bf b hx hc hdone h1 hbf hrun
              (by rw [e1, hfl1])]
            refine ih _ src2.next_cmd _ (by show src2.exit_flag = false; rw [e1, hfl1])
              (by intro a ha; exact absurd ha (List.not_mem_nil a)) ?_ ?_
            · intro st hst2
              rcases List.mem_append.mp hst2 with h2 | h2
              · exact hst st h2
              · rw [List.mem_singleton] at h2
                subst h2
                intro e
                exact hex (Option.some.inj
                  (hbf.symm.trans ((Get_builtin_func_exit src1 l hl1 hl2).mpr e)))
            · have : src2.next_cmd.size = src.size := by
                show src2.instruction_list.length = _
                rw [e2]
                exact hsz1
              rw [this]
              unfold skip_operand
              split <;> omega
      · -- the instruction is appended to the argument vector
        have hop : Get_operator_type_pair (c_str x) = none := by
          cases h : Get_operator_type_pair (c_str x) with
          | none => rfl
          | some p => exact absurd (Or.inl (by rw [h]; rfl)) hdone
        rw [Execute_loop_arg _ n i src stages x hx hc hop (fun e => hdone (Or.inr e))]
        refine ih (i + 1) (src.push_cmd (some (c_str x))) stages hflag ?_ hst ?_
        · intro a ha
          rcases List.mem_append.mp ha with h1 | h1
          · exact hcl a h1
          · exact ⟨x, by simpa using h1⟩
        · show src.size - (i + 1) < n
          omega
    · right; left
      refine ⟨src, stages, ?_, hst⟩
      apply Execute_loop_end
      by_contra hcon
      apply hguard
      constructor
      · omega
      · exact fun e => hcon (Or.inr e)


/-- Whenever `Execute_entire_cmd`, followed in the parent process, returns, it returns `false`
exactly when it completed a stage whose argument vector is `exit`; the only other outcome is
the invalid read of a stage without a first argument. -/
theorem Execute_entire_cmd_live (chdir : Option String → Bool) (junk : Nat → eOperator)
    (src : Shell_instruction_list) (hcl : src.cmd_list = []) (hflag : src.exit_flag = false) :
    (∃ stages, Execute_entire_cmd (Env.in_parent chdir junk) src = .invalid_access stages)
      ∨ (∃ src1 stages, Execute_entire_cmd (Env.in_parent chdir junk) src
            = .returned true src1 stages
          ∧ ∀ st ∈ stages, st.argv ≠ [some "exit", none])
      ∨ (∃ src1 stages, Execute_entire_cmd (Env.in_parent chdir junk) src
            = .returned false src1 stages
          ∧ ∃ st ∈ stages, st.argv = [some "exit", none]) := by
  unfold Execute_entire_cmd
  apply Execute_loop_live chdir junk _ 0 src [] hflag
  · rw [hcl]; intro a ha; exact absurd ha (List.not_mem_nil a)
  · intro st hst; exact absurd hst (List.not_mem_nil st)
  · omega

/-! ## C8 -/

/-- C8 fails on the code at the line `|` (and at every line with a stage that has no
argument): the lexer and the preprocessor accept it, and `Execute_entire_cmd` then hands the
argument vector `[nullptr]` to `Get_builtin_func`, which passes `cmd_list[0]` to `strcmp`; the
function makes an invalid read instead of returning `true`.  The line `exit` does return
`false`. -/
theorem Execute_entire_cmd_empty_stage (chdir : Option String → Bool)
    (junk : Nat → eOperator) :
    Parse_cmd "|" = .ok [⟨"|", 0, 0, .operators⟩]
      ∧ Preprocess_step [⟨"|", 0, 0, .operators⟩] {}
          = .ok { instruction_list := ["|"], cmd_count := 2 }
      ∧ Execute_entire_cmd (Env.in_parent chdir junk) { instruction_list := ["|"], cmd_count := 2 }
          = .invalid_access []
      ∧ run_line (Env.in_parent chdir junk) "|" = some (.invalid_access [])
      ∧ ∃ src1 stages, run_line (Env.in_parent chdir junk) "exit"
          = some (.returned false src1 stages) := by
  have hp : Parse_cmd "|" = .ok [⟨"|", 0, 0, .operators⟩] := by decide
  have hq : Preprocess_step [⟨"|", 0, 0, .operators⟩] {}
      = .ok { instruction_list := ["|"], cmd_count := 2 } := by decide
  have he : Execute_entire_cmd (Env.in_parent chdir junk)
      { instruction_list := ["|"], cmd_count := 2 } = .invalid_access [] :=
    Execute_loop_invalid _ 1 0 _ { instruction_list := ["|"], cmd_count := 2, cmd_list := [none] }
      [] "|" rfl (by decide) (Or.inl (by decide)) (by decide) (by decide)
  refine ⟨hp, hq, he, ?_, ?_⟩
  · unfold run_line
    rw [hp]
    simp only
    rw [hq]
    simp only
    rw [he]
  · have hp2 : Parse_cmd "exit" = .ok [⟨"exit", 0, 3, .identifier⟩] := by decide
    have hq2 : Preprocess_step [⟨"exit", 0, 3, .identifier⟩] {}
        = .ok { instruction_list := ["exit"] } := by decide
    have he2 := Execute_loop_exit (Env.in_parent chdir junk) 1 0
      { instruction_list := ["exit"] }
      { instruction_list := ["exit"], cmd_list := [some "exit", none] }
      { instruction_list := ["exit"], cmd_list := [some "exit", none], exit_flag := true }
      [] "exit" (some Builtin.exit) true rfl (by decide) (Or.inr rfl) (by decide) (by decide)
      rfl rfl
    have hr : run_line (Env.in_parent chdir junk) "exit"
        = some (Execute_entire_cmd (Env.in_parent chdir junk) { instruction_list := ["exit"] }) := by
      unfold run_line
      rw [hp2]
      simp only
      rw [hq2]
    rw [hr]
    exact ⟨_, _, congrArg some he2⟩

/-! ## The states the lexer reaches -/

theorem Check_symbol_range {c : Char} {symbol : eSymbol} (h : Check_symbol c = some symbol) :
    symbol = eSymbol.space ∨ symbol = eSymbol.digit ∨ symbol = eSymbol.operators
      ∨ symbol = eSymbol.seperator ∨ symbol = eSymbol.others := by
  unfold Check_symbol at h
  split_ifs at h <;> simp at h <;> subst h <;> simp

theorem Check_symbol_space_iff {c : Char} (h : Check_symbol c = some eSymbol.space) :
    c = ' ' := by
  unfold Check_symbol at h
  split_ifs at h with h1 h2 h3 h4 h5 <;> simp at h
  exact h5

theorem next_mode_real {mode : Mode} {symbol : eSymbol} (p : Option Char)
    (hm : lexer_state mode)
    (hs : symbol = eSymbol.space ∨ symbol = eSymbol.digit ∨ symbol = eSymbol.operators
      ∨ symbol = eSymbol.seperator ∨ symbol = eSymbol.others)
    (hp : mode = Mode.seperator → p ≠ none) :
    ∃ m, next_mode mode symbol p = some m
      ∧ (m = Mode.done ∨ m = Mode._unreachable ∨ lexer_state m) := by
  rcases hm with h | h | h | h | h <;> subst h <;>
    rcases hs with h | h | h | h | h <;> subst h <;>
    first
    | exact ⟨_, rfl, by unfold lexer_state; decide⟩
    | (cases p with
       | none => exact absurd rfl (hp rfl)
       | some q =>
         by_cases hq : Is_open_seperator q = true
         · exact ⟨Mode.done, by simp [next_mode, gTransistion_table, gTransistion_rows,
             Mode.toInt, eSymbol.toInt, hq], Or.inl rfl⟩
         · exact ⟨Mode._unreachable, by simp [next_mode, gTransistion_table, gTransistion_rows,
             Mode.toInt, eSymbol.toInt, hq], Or.inr (Or.inl rfl)⟩)

theorem next_mode_terminator {mode : Mode} (p : Option Char) (hm : lexer_state mode)
    (he : mode ≠ Mode.empty) : next_mode mode eSymbol.seperator p = some Mode.done := by
  rcases hm with h | h | h | h | h <;> subst h <;> first | exact absurd rfl he | rfl

theorem next_mode_to_empty {mode : Mode} {symbol : eSymbol} {p : Option Char}
    (hm : lexer_state mode) (h : next_mode mode symbol p = some Mode.empty) :
    mode = Mode.empty ∧ symbol = eSymbol.space := by
  rcases hm with h1 | h1 | h1 | h1 | h1 <;> subst h1 <;> cases symbol <;>
    first
    | exact ⟨rfl, rfl⟩
    | (exfalso; revert h; simp [next_mode, gTransistion_table, gTransistion_rows, Mode.toInt,
        eSymbol.toInt]; try (cases p <;> simp; try split <;> simp))

theorem Check_symbol_sweep : ∀ n ∈ 0 :: (List.range' 32 95), Check_symbol_ok n = true := by
  decide

/-! ## C11 -/

/-- C11, as stated, fails: `!` is a printable character (code 33) and `Check_symbol` reaches
its `abort()` branch on it, which is the branch the code keeps for unrecognised
characters. -/
theorem Check_symbol_counterexample :
    32 ≤ '!'.toNat ∧ '!'.toNat ≤ 126 ∧ Check_symbol '!' = none :=
  ⟨by decide, by decide, by decide⟩

/-- C11, amended: for every character `c` with `32 <= c <= 126` or `c = 0` other than the two
quotes, `Check_symbol` returns one of the classes space, digit, operator, separator, others,
except for `!`, `#`, `,`, `;`, `=`, `@`, the backslash and the backquote, on which it reaches
its `abort()` branch. -/
theorem Check_symbol_printable (c : Char) (h : (32 ≤ c.toNat ∧ c.toNat ≤ 126) ∨ c.toNat = 0)
    (hq : c.toNat ∉ quote_codes) :
    (c.toNat ∈ unrecognised_codes → Check_symbol c = none)
      ∧ (c.toNat ∉ unrecognised_codes →
          Check_symbol c = some eSymbol.space ∨ Check_symbol c = some eSymbol.digit
            ∨ Check_symbol c = some eSymbol.operators
            ∨ Check_symbol c = some eSymbol.seperator
            ∨ Check_symbol c = some eSymbol.others) := by
  have hmem : c.toNat ∈ 0 :: (List.range' 32 95) := by
    rcases h with ⟨h1, h2⟩ | h
    · apply List.mem_cons_of_mem
      rw [List.mem_range']
      exact ⟨c.toNat - 32, by omega, by omega⟩
    · rw [h]; exact List.mem_cons_self _ _
  have hs := Check_symbol_sweep c.toNat hmem
  unfold Check_symbol_ok at hs
  rw [if_neg hq, Char.ofNat_toNat] at hs
  constructor
  · intro hu
    rw [if_pos hu] at hs
    exact beq_iff_eq.mp hs
  · intro hu
    rw [if_neg hu] at hs
    simpa [Bool.or_eq_true, or_assoc] using hs

theorem Check_symbol_printable_witness :
    ((32 ≤ 'a'.toNat ∧ 'a'.toNat ≤ 126) ∨ 'a'.toNat = 0) ∧ 'a'.toNat ∉ quote_codes
      ∧ 'a'.toNat ∉ unrecognised_codes
      ∧ (Check_symbol 'a' = some eSymbol.space ∨ Check_symbol 'a' = some eSymbol.digit
          ∨ Check_symbol 'a' = some eSymbol.operators
          ∨ Check_symbol 'a' = some eSymbol.seperator
          ∨ Check_symbol 'a' = some eSymbol.others) :=
  ⟨by decide, by decide, by decide,
    (Check_symbol_printable 'a' (by decide) (by decide)).2 (by decide)⟩

/-! ## C15 -/

/-- C15 fails on the code: `Mode::done` has the value 7 (the enumeration skips 5), and row 7 of
`gTransistion_table` has no initialiser, so the lexer reads `Mode::empty` for every symbol
class after a Done; the row commented `// done` in the source is row 6, the row of
`Mode::string`.  For the class `digit` the Done entry is `empty`, the Empty entry `number`. -/
theorem gTransistion_table_done_row :
    (∀ symbol : eSymbol, symbol ≠ eSymbol._eSymbol_size →
        gTransistion_table Mode.done.toInt symbol.toInt = some Mode.empty)
      ∧ gTransistion_table Mode.done.toInt eSymbol.digit.toInt = some Mode.empty
      ∧ gTransistion_table Mode.empty.toInt eSymbol.digit.toInt = some Mode.number
      ∧ gTransistion_table Mode.done.toInt eSymbol.digit.toInt
          ≠ gTransistion_table Mode.empty.toInt eSymbol.digit.toInt
      ∧ (∀ c : Nat, gTransistion_table Mode.string.toInt c
          = gTransistion_table Mode.empty.toInt c) := by
  refine ⟨?_, by decide, by decide, by decide, ?_⟩
  · intro symbol h
    cases symbol <;> first | rfl | exact absurd rfl h
  · intro c
    unfold gTransistion_table
    by_cases h : c < eSymbol._eSymbol_size.toInt
    · have h6 : c < 6 := h
      interval_cases c <;> rfl
    · simp [h]

/-! ## Termination of the lexer inside the buffer -/

theorem deref_prev_some (str : String) (head : Nat) (h1 : 1 ≤ head) (h2 : head ≤ str.length) :
    (if head = 0 then none else deref str (head - 1)) ≠ none := by
  rw [if_neg (by omega), deref_lt (by omega : head - 1 < str.length)]
  simp

/-- On a line whose characters `Check_symbol` accepts, from a state of the lexer in which a
non-space character is still ahead whenever no token is open, the loop neither aborts nor
reads outside the buffer or the table. -/
theorem Parse_loop_total (str : String)
    (hchars : ∀ c ∈ str.data, (Check_symbol c).isSome = true) :
    ∀ (fuel : Nat) (mode : Mode) (tail head : Nat) (toks : List Token),
      head ≤ str.length → lexer_state mode → (mode = Mode.seperator → 1 ≤ head) →
      (mode = Mode.empty → ∃ c ∈ str.data.drop head, c ≠ ' ') →
      Parse_loop str fuel mode tail head toks ≠ .aborted
        ∧ Parse_loop str fuel mode tail head toks ≠ .out_of_range := by
  intro fuel
  induction fuel with
  | zero => intro mode tail head toks _ _ _ _; simp [Parse_loop]
  | succ n ih =>
    intro mode tail head toks hhl hm hsep hne
    -- the character under the head cursor and its class
    obtain ⟨c, hd, symbol, hs⟩ : ∃ c, deref str head = some c
        ∧ ∃ symbol, Check_symbol c = some symbol := by
      by_cases hend : head = str.length
      · exact ⟨_, by rw [hend]; exact deref_end str, _, Check_symbol_nul⟩
      · have hlt : head < str.length := by omega
        refine ⟨_, deref_lt hlt, ?_⟩
        exact Option.isSome_iff_exists.mp (hchars _ (List.get_mem _ _ _))
    obtain ⟨m, hn, hm2⟩ := next_mode_real (if head = 0 then none else deref str (head - 1)) hm
      (Check_symbol_range hs) (fun e => deref_prev_some str head (hsep e) hhl)
    rcases hm2 with h1 | h1 | h1
    · -- a token ends
      subst h1
      rw [Parse_loop_done str n mode tail head toks c symbol hd hs hn]
      by_cases hend : skip_spaces str head = str.length
      · rw [if_pos hend]; simp
      · rw [if_neg hend]
        have hle := skip_spaces_le str head hhl
        refine ih _ _ _ _ hle (Or.inl rfl) (fun e => by cases e) ?_
        intro _
        have hdw := drop_skip_spaces str head
        have hne2 : (str.data.drop head).dropWhile (fun c => c = ' ') ≠ [] := by
          rw [← hdw]
          intro e
          have := List.drop_eq_nil_iff.mp e
          have e2 : str.data.length = str.length := rfl
          omega
        have hh := List.head_dropWhile_not (fun c => decide (c = ' ')) (str.data.drop head) hne2
        refine ⟨_, ?_, by simpa using hh⟩
        rw [hdw]
        exact List.head_mem hne2
    · -- the transition is `_unreachable`
      subst h1
      have e : Parse_loop str (n + 1) mode tail head toks = .rejected := by
        conv_lhs => unfold Parse_loop
        simp only [hd, hs, hn]
        simp
      rw [e]; simp
    · -- the token goes on
      have hnd : m ≠ Mode.done := by
        rcases h1 with h | h | h | h | h <;> rw [h] <;> decide
      have hnu : m ≠ Mode._unreachable := by
        rcases h1 with h | h | h | h | h <;> rw [h] <;> decide
      rw [Parse_loop_continue str n mode m tail head toks c symbol hd hs hn hnu hnd]
      have hlt : head < str.length := by
        by_contra hcon
        have hend : head = str.length := by omega
        rw [hend, deref_end] at hd
        injection hd with hd
        subst hd
        rw [Check_symbol_nul] at hs
        injection hs with hs
        subst hs
        by_cases he : mode = Mode.empty
        · obtain ⟨x, hx, _⟩ := hne he
          have e0 : str.data.drop str.length = [] := List.drop_eq_nil_of_le (Nat.le_refl _)
          rw [hend, e0] at hx
          exact absurd hx (List.not_mem_nil x)
        · rw [next_mode_terminator _ hm he] at hn
          injection hn with hn
          exact hnd hn.symm
      refine ih _ _ _ _ (by omega) h1 (fun _ => by omega) ?_
      intro he
      subst he
      obtain ⟨hme, hsp⟩ := next_mode_to_empty hm hn
      subst hsp
      have hc := Check_symbol_space_iff hs
      obtain ⟨x, hx, hx2⟩ := hne hme
      have hlt2 : head < str.data.length := hlt
      rw [drop_cons_of_lt str.data head hlt2] at hx
      rcases List.mem_cons.mp hx with h2 | h2
      · exfalso
        rw [deref_lt hlt] at hd
        injection hd with hd
        rw [h2, hd] at hx2
        exact hx2 hc
      · exact ⟨x, h2, hx2⟩

theorem Parse_cmd_total {str : String}
    (hchars : ∀ c ∈ str.data, (Check_symbol c).isSome = true)
    (hword : ∃ c ∈ str.data, c ≠ ' ') :
    (∃ toks, Parse_cmd str = .ok toks) ∨ Parse_cmd str = .rejected := by
  have h := Parse_loop_total str hchars (2 * str.length + 3) Mode.empty 0 0 []
    (Nat.zero_le _) (Or.inl rfl) (fun e => by cases e) (fun _ => by simpa using hword)
  have hf := Parse_cmd_fuel str
  unfold Parse_cmd at hf ⊢
  cases hr : Parse_loop str (2 * str.length + 3) Mode.empty 0 0 [] with
  | ok toks => exact Or.inl ⟨toks, rfl⟩
  | rejected => exact Or.inr rfl
  | aborted => exact absurd hr h.1
  | out_of_range => exact absurd hr h.2
  | out_of_fuel => exact absurd hr hf

theorem Token.wf_nonempty {str : String} {t : Token} (h : Token.wf str t) : t.data ≠ "" := by
  obtain ⟨h1, _, _, h4, _⟩ := h
  intro e
  rw [e] at h4
  have : ("" : String).length = 0 := rfl
  omega

/-! ## C19 -/

/-- C19: on every line whose characters are all accepted by `Check_symbol` and that has a
non-space character (with or without NUL characters), `Parse_cmd` terminates with success or
with a syntax error: it does not abort, the iteration budget is not the reason to stop, and
no read is made at an index beyond the terminator position (the outcome `out_of_range`; the
tail cursor stops at the latest there as well); every token of a successful run is
non-empty. -/
theorem Parse_cmd_terminates (str : String)
    (hchars : ∀ c ∈ str.data, (Check_symbol c).isSome = true)
    (hword : ∃ c ∈ str.data, c ≠ ' ') :
    ((∃ toks, Parse_cmd str = .ok toks ∧ ∀ t ∈ toks, t.data ≠ "" ∧ t.end_ < str.length)
        ∨ Parse_cmd str = .rejected)
      ∧ Parse_cmd str ≠ .out_of_range ∧ Parse_cmd str ≠ .out_of_fuel
      ∧ Parse_cmd str ≠ .aborted
      ∧ ∀ head, head ≤ str.length → skip_spaces str head ≤ str.length := by
  have h := Parse_cmd_total hchars hword
  refine ⟨?_, ?_, ?_, ?_, fun head hh => skip_spaces_le str head hh⟩
  · rcases h with ⟨toks, h1⟩ | h1
    · left
      refine ⟨toks, h1, fun t ht => ?_⟩
      have hwf := (Parse_cmd_inv h1).1 t ht
      exact ⟨Token.wf_nonempty hwf, hwf.2.1⟩
    · exact Or.inr h1
  all_goals
    rcases h with ⟨toks, h1⟩ | h1 <;> rw [h1] <;> simp

theorem Parse_cmd_terminates_witness :
    (∀ c ∈ "ls -l".data, (Check_symbol c).isSome = true) ∧ (∃ c ∈ "ls -l".data, c ≠ ' ')
      ∧ (((∃ toks, Parse_cmd "ls -l" = .ok toks
              ∧ ∀ t ∈ toks, t.data ≠ "" ∧ t.end_ < "ls -l".length)
            ∨ Parse_cmd "ls -l" = .rejected)
          ∧ Parse_cmd "ls -l" ≠ .out_of_range ∧ Parse_cmd "ls -l" ≠ .out_of_fuel
          ∧ Parse_cmd "ls -l" ≠ .aborted
          ∧ ∀ head, head ≤ "ls -l".length → skip_spaces "ls -l" head ≤ "ls -l".length) :=
  ⟨by decide, by decide, Parse_cmd_terminates "ls -l" (by decide) (by decide)⟩

/-! ## Blank lines -/

theorem next_mode_empty_space (p : Option Char) :
    next_mode Mode.empty eSymbol.space p = some Mode.empty := rfl

theorem next_mode_empty_seperator (p : Option Char) :
    next_mode Mode.empty eSymbol.seperator p = some Mode.seperator := rfl

/-- On a line of spaces only the loop leaves the buffer: it stays in `Mode::empty` up to the
terminator, enters `Mode::seperator` on it and then reads the position after it. -/
theorem Parse_loop_blank (str : String) (hblank : ∀ c ∈ str.data, c = ' ') :
    ∀ (fuel : Nat) (tail head : Nat) (toks : List Token), head ≤ str.length →
      Parse_loop str fuel Mode.empty tail head toks = .out_of_range
        ∨ Parse_loop str fuel Mode.empty tail head toks = .out_of_fuel := by
  intro fuel
  induction fuel with
  | zero => intro tail head toks _; right; rfl
  | succ n ih =>
    intro tail head toks hhl
    by_cases hend : head = str.length
    · subst hend
      rw [Parse_loop_continue str n Mode.empty Mode.seperator tail str.length toks _ _
        (deref_end str) Check_symbol_nul (next_mode_empty_seperator _) (by decide) (by decide)]
      cases n with
      | zero => right; rfl
      | succ k =>
        left
        unfold Parse_loop
        rw [deref_gt (by omega)]
    · have hlt : head < str.length := by omega
      have hd := deref_lt hlt
      have hc : str.data.get ⟨head, hlt⟩ = ' ' := hblank _ (List.get_mem _ _ _)
      rw [hc] at hd
      rw [Parse_loop_continue str n Mode.empty Mode.empty tail head toks _ _ hd
        Check_symbol_space (next_mode_empty_space _) (by decide) (by decide)]
      exact ih tail (head + 1) toks (by omega)

/-! ## C12 -/

/-- C12 fails on the code at the empty line, and at every line of spaces only: `Parse_cmd` does
not return; after the terminator, which it classifies as a separator that opens a token, it
reads the position behind the terminator, outside the string.  (On an empty token sequence
`Preprocess_step` does give the empty `instruction_list`, and `Execute_entire_cmd` returns
`true` without a stage.) -/
theorem Parse_cmd_blank (str : String) (hblank : ∀ c ∈ str.data, c = ' ')
    (env : Env) :
    Parse_cmd str = .out_of_range ∧ Parse_cmd "" = .out_of_range
      ∧ Preprocess_step [] {} = .ok {}
      ∧ Execute_entire_cmd env {} = .returned true {} [] := by
  refine ⟨?_, by decide, by decide, rfl⟩
  have h := Parse_loop_blank str hblank (2 * str.length + 3) 0 0 [] (Nat.zero_le _)
  have hf := Parse_cmd_fuel str
  unfold Parse_cmd at hf ⊢
  rcases h with h | h
  · exact h
  · exact absurd h hf

theorem Parse_cmd_blank_witness :
    (∀ c ∈ "  ".data, c = ' ') ∧ Parse_cmd "  " = .out_of_range :=
  ⟨by decide, (Parse_cmd_blank "  " (by decide) (Env.in_parent (fun _ => false)
    (fun _ => eOperator.e_and))).1⟩

/-! ## Closing brackets -/

theorem Check_symbol_close {c : Char} (h : Is_close_seperator c = true) :
    Check_symbol c = some eSymbol.seperator ∧ Is_open_seperator c = false ∧ c ≠ ' ' := by
  unfold Is_close_seperator at h
  simp only [Bool.or_eq_true, decide_eq_true_eq] at h
  rcases h with (h | h) | h <;> subst h <;> decide

theorem takeWhile_length_le_of_not (l : List Char) :
    ∀ (k : Nat) (hk : k < l.length), l.get ⟨k, hk⟩ ≠ ' ' →
      (l.takeWhile (fun c => c = ' ')).length ≤ k := by
  induction l with
  | nil => intro k hk; exact absurd hk (by simp)
  | cons a l ih =>
    intro k hk hc
    by_cases ha : a = ' '
    · cases k with
      | zero => exact absurd ha hc
      | succ j =>
        have := ih j (by simpa using hk) hc
        simp only [List.takeWhile_cons, ha, decide_True, if_true, List.length_cons]
        omega
    · simp [List.takeWhile_cons, ha]

theorem skip_spaces_le_of_not_space (str : String) (head i : Nat) (hi : i < str.data.length)
    (hc : str.data.get ⟨i, hi⟩ ≠ ' ') (hh : head ≤ i) : skip_spaces str head ≤ i := by
  unfold skip_spaces
  have hk : i - head < (str.data.drop head).length := by
    rw [List.length_drop]; omega
  have := takeWhile_length_le_of_not (str.data.drop head) (i - head) hk (by
    have e : (str.data.drop head).get ⟨i - head, hk⟩ = str.data.get ⟨i, hi⟩ := by
      simp only [List.get_eq_getElem, List.getElem_drop]
      congr 1
      omega
    rw [e]
    exact hc)
  omega

/-- On a line whose characters `Check_symbol` accepts and in which the closing bracket at
offset `i` is followed by a digit or an identifier character, the loop, from any state at or
before the bracket, ends with the syntax error. -/
theorem Parse_loop_close (str : String)
    (hchars : ∀ c ∈ str.data, (Check_symbol c).isSome = true) (i : Nat)
    (hi : i + 1 < str.data.length)
    (hclose : Is_close_seperator (str.data.get ⟨i, by omega⟩) = true)
    (hnext : isdigit (str.data.get ⟨i + 1, hi⟩) = true
      ∨ Is_others (str.data.get ⟨i + 1, hi⟩) = true) :
    ∀ (fuel : Nat) (mode : Mode) (tail head : Nat) (toks : List Token),
      (head ≤ i ∧ lexer_state mode ∧ (mode = Mode.seperator → 1 ≤ head))
        ∨ (head = i + 1 ∧ mode = Mode.seperator) →
      Parse_loop str fuel mode tail head toks = .rejected
        ∨ Parse_loop str fuel mode tail head toks = .out_of_fuel := by
  have hlen : str.data.length = str.length := rfl
  obtain ⟨hcs, hco, hcsp⟩ := Check_symbol_close hclose
  intro fuel
  induction fuel with
  | zero => intro mode tail head toks _; right; rfl
  | succ n ih =>
    intro mode tail head toks hinv
    rcases hinv with ⟨hh, hm, hsep⟩ | ⟨hh, hm⟩
    · have hlt : head < str.length := by omega
      have hd := deref_lt hlt
      obtain ⟨symbol, hs⟩ := Option.isSome_iff_exists.mp
        (hchars _ (List.get_mem str.data head (by omega)))
      obtain ⟨m, hn, hm2⟩ := next_mode_real (if head = 0 then none else deref str (head - 1))
        hm (Check_symbol_range hs) (fun e => deref_prev_some str head (hsep e) (by omega))
      rcases hm2 with h1 | h1 | h1
      · subst h1
        rw [Parse_loop_done str n mode tail head toks _ symbol hd hs hn]
        have hle := skip_spaces_le_of_not_space str head i (by omega) hcsp hh
        rw [if_neg (by omega)]
        exact ih _ _ _ _ (Or.inl ⟨hle, Or.inl rfl, fun e => by cases e⟩)
      · subst h1
        left
        conv_lhs => unfold Parse_loop
        simp only [hd, hs, hn]
        simp
      · have hnd : m ≠ Mode.done := by
          rcases h1 with h | h | h | h | h <;> rw [h] <;> decide
        have hnu : m ≠ Mode._unreachable := by
          rcases h1 with h | h | h | h | h <;> rw [h] <;> decide
        rw [Parse_loop_continue str n mode m tail head toks _ symbol hd hs hn hnu hnd]
        by_cases hhi : head = i
        · subst hhi
          rw [hcs] at hs
          injection hs with hs
          subst hs
          by_cases he : mode = Mode.empty
          · subst he
            rw [next_mode_empty_seperator] at hn
            injection hn with hn
            exact ih _ _ _ _ (Or.inr ⟨rfl, hn.symm⟩)
          · rw [next_mode_terminator _ hm he] at hn
            injection hn with hn
            exact absurd hn.symm hnd
        · exact ih _ _ _ _ (Or.inl ⟨by omega, h1, fun _ => by omega⟩)
    · subst hh hm
      left
      have hd := deref_lt (by omega : i + 1 < str.length)
      have hprev : (if i + 1 = 0 then none else deref str (i + 1 - 1))
          = some (str.data.get ⟨i, by omega⟩) := by
        rw [if_neg (by omega)]
        exact deref_lt (by omega : i + 1 - 1 < str.length)
      have hs : Check_symbol (str.data.get ⟨i + 1, hi⟩) = some eSymbol.digit
          ∨ Check_symbol (str.data.get ⟨i + 1, hi⟩) = some eSymbol.others := by
        by_cases hdg : isdigit (str.data.get ⟨i + 1, hi⟩) = true
        · exact Or.inl (Check_symbol_digit hdg)
        · rcases hnext with h | h
          · exact absurd h hdg
          · exact Or.inr (Check_symbol_others (by simpa using hdg) h)
      have hco2 : Is_open_seperator str.data[i] = false := hco
      conv_lhs => unfold Parse_loop
      rcases hs with hs | hs <;>
      · simp only [hd, hs, hprev]
        simp [next_mode, gTransistion_table, gTransistion_rows, Mode.toInt, eSymbol.toInt, hco2]

/-- A line that is one closing bracket is lexed as one token of type `Mode::seperator`. -/
theorem close_bracket_alone {c : Char} (h : Is_close_seperator c = true) :
    Parse_cmd ⟨[c]⟩ = .ok [⟨⟨[c]⟩, 0, 0, Mode.seperator⟩] := by
  have hc : c = ')' ∨ c = ']' ∨ c = '}' := by
    simpa [Is_close_seperator, or_assoc] using h
  rcases hc with hc | hc | hc <;> subst hc <;> decide

/-! ## C14 -/

/-- C14, as stated, fails on its own example: on the line `)` the lexer succeeds and emits the
closing bracket as a token of type `Mode::seperator`; so it does after a word, on `a )`, and
after a matched pair, on `())`. -/
theorem Parse_cmd_close_counterexample :
    Parse_cmd ")" = .ok [⟨")", 0, 0, Mode.seperator⟩]
      ∧ Parse_cmd "a )" = .ok [⟨"a", 0, 0, Mode.identifier⟩, ⟨")", 2, 2, Mode.seperator⟩]
      ∧ Parse_cmd "())" = .ok [⟨"(", 0, 0, Mode.seperator⟩, ⟨")", 1, 1, Mode.seperator⟩,
          ⟨")", 2, 2, Mode.seperator⟩] :=
  ⟨by decide, by decide, by decide⟩

/-- C14, amended: for every input line whose characters `Check_symbol` accepts and in which a
closing bracket `)`, `]` or `}` is immediately followed by a digit or an identifier character
(for example `)a`), whatever precedes the bracket, `Parse_cmd` fails with a syntax error (the
`_unreachable` transition); the same bracket alone on a line is not a syntax error, it is
emitted as one token of type `Mode::seperator`. -/
theorem Parse_cmd_close (str : String)
    (hchars : ∀ c ∈ str.data, (Check_symbol c).isSome = true) (i : Nat)
    (hi : i + 1 < str.data.length)
    (hclose : Is_close_seperator (str.data.get ⟨i, by omega⟩) = true)
    (hnext : isdigit (str.data.get ⟨i + 1, hi⟩) = true
      ∨ Is_others (str.data.get ⟨i + 1, hi⟩) = true) :
    Parse_cmd str = .rejected
      ∧ Parse_cmd ⟨[str.data.get ⟨i, by omega⟩]⟩
          = .ok [⟨⟨[str.data.get ⟨i, by omega⟩]⟩, 0, 0, Mode.seperator⟩] := by
  refine ⟨?_, close_bracket_alone hclose⟩
  have h := Parse_loop_close str hchars i hi hclose hnext (2 * str.length + 3) Mode.empty 0 0 []
    (Or.inl ⟨Nat.zero_le _, Or.inl rfl, fun e => by cases e⟩)
  have hf := Parse_cmd_fuel str
  unfold Parse_cmd at hf ⊢
  rcases h with h | h
  · exact h
  · exact absurd h hf

theorem Parse_cmd_close_witness :
    (∀ c ∈ "f(x)y".data, (Check_symbol c).isSome = true)
      ∧ Is_close_seperator ("f(x)y".data.get ⟨3, by decide⟩) = true
      ∧ (isdigit ("f(x)y".data.get ⟨3 + 1, by decide⟩) = true
          ∨ Is_others ("f(x)y".data.get ⟨3 + 1, by decide⟩) = true)
      ∧ Parse_cmd "f(x)y" = .rejected
      ∧ Parse_cmd ⟨["f(x)y".data.get ⟨3, by decide⟩]⟩
          = .ok [⟨⟨["f(x)y".data.get ⟨3, by decide⟩]⟩, 0, 0, Mode.seperator⟩] :=
  ⟨by decide, by decide, by decide,
    Parse_cmd_close "f(x)y" (by decide) 3 (by decide) (by decide) (by decide)⟩

/-! ## Reading a token again -/

theorem scan_live_snoc (l : List Char) (c : Char) :
    ∀ (mode : Mode) (prev : Option Char),
      scan_live mode prev (l ++ [c]) =
        match scan_live mode prev l with
        | none => none
        | some m1 =>
          match Check_symbol c with
          | none => none
          | some symbol =>
            match next_mode m1 symbol (match l.getLast? with | some x => some x | none => prev) with
            | none => none
            | some m => if m = Mode._unreachable ∨ m = Mode.done then none else some m := by
  induction l with
  | nil =>
    intro mode prev
    simp only [List.nil_append, scan_live, List.getLast?_nil]
  | cons a l ih =>
    intro mode prev
    simp only [List.cons_append, scan_live]
    cases Check_symbol a with
    | none => rfl
    | some sa =>
      simp only
      cases next_mode mode sa prev with
      | none => rfl
      | some m2 =>
        simp only
        split
        · rfl
        · have e := ih m2 (some a)
          simp only [List.append_eq] at e ⊢
          rw [e]
          cases l with
          | nil => simp
          | cons b l2 =>
            simp only [List.getLast?_cons_cons]
            rw [List.getLast?_eq_getLast _ (List.cons_ne_nil b l2)]

theorem scan_live_real (l : List Char) :
    ∀ (mode : Mode) (prev : Option Char) (m : Mode), lexer_state mode →
      (mode = Mode.seperator → prev ≠ none) → scan_live mode prev l = some m →
      lexer_state m := by
  induction l with
  | nil =>
    intro mode prev m hm _ h
    simp only [scan_live, Option.some.injEq] at h
    exact h ▸ hm
  | cons a l ih =>
    intro mode prev m hm hp h
    simp only [scan_live] at h
    cases hs : Check_symbol a with
    | none => simp [hs] at h
    | some symbol =>
      obtain ⟨m1, hn, hm1⟩ := next_mode_real prev hm (Check_symbol_range hs) hp
      simp only [hs, hn] at h
      rcases hm1 with h1 | h1 | h1
      · simp [h1] at h
      · simp [h1] at h
      · split at h
        · simp at h
        · exact ih m1 (some a) m h1 (fun _ => by simp) h

/-- The loop follows `scan_live` over the rest of the string. -/
theorem Parse_loop_replay (str : String) (toks : List Token) :
    ∀ (l : List Char) (k f : Nat) (mode m : Mode), k ≤ str.length → str.data.drop k = l →
      scan_live mode (if k = 0 then none else deref str (k - 1)) l = some m →
      Parse_loop str (f + l.length) mode 0 k toks = Parse_loop str f m 0 str.length toks := by
  intro l
  induction l with
  | nil =>
    intro k f mode m hk hd h
    simp only [scan_live, Option.some.injEq] at h
    have hlen : str.data.length ≤ k := List.drop_eq_nil_iff.mp hd
    have e : str.data.length = str.length := rfl
    have hk2 : k = str.length := by omega
    subst h
    rw [hk2]
    rfl
  | cons a l ih =>
    intro k f mode m hk hd h
    have hlt : k < str.data.length := by
      by_contra hcon
      have : str.data.drop k = [] := List.drop_eq_nil_iff.mpr (by omega)
      rw [this] at hd
      exact List.noConfusion hd
    have e : str.data.length = str.length := rfl
    have hlt2 : k < str.length := by omega
    rw [drop_cons_of_lt str.data k hlt] at hd
    injection hd with ha hl
    have hderef : deref str k = some a := by rw [deref_lt hlt2, ha]
    simp only [scan_live] at h
    cases hs : Check_symbol a with
    | none => simp [hs] at h
    | some symbol =>
      simp only [hs] at h
      cases hn : next_mode mode symbol (if k = 0 then none else deref str (k - 1)) with
      | none => simp [hn] at h
      | some m1 =>
        simp only [hn] at h
        by_cases hm1 : m1 = Mode._unreachable ∨ m1 = Mode.done
        · rw [if_pos hm1] at h
          exact Option.noConfusion h
        · rw [if_neg hm1] at h
          have e2 : f + (a :: l).length = (f + l.length) + 1 := by
            simp only [List.length_cons]
            omega
          rw [e2, Parse_loop_continue str _ mode m1 0 k toks a symbol hderef hs hn
            (fun x => hm1 (Or.inl x)) (fun x => hm1 (Or.inr x))]
          refine ih (k + 1) f m1 m (by omega) hl ?_
          rw [if_neg (by omega)]
          show scan_live m1 (deref str k) l = some m
          rw [hderef]
          exact h

/-- Every token the loop emits is `Token.live`. -/
theorem Parse_loop_live_inv (str : String) :
    ∀ (fuel : Nat) (mode : Mode) (tail head : Nat) (toks res : List Token),
      tail ≤ head →
      scan_live Mode.empty none ((str.data.drop tail).take (head - tail)) = some mode →
      (∀ t ∈ toks, Token.live t) →
      Parse_loop str fuel mode tail head toks = .ok res →
      ∀ t ∈ res, Token.live t := by
  intro fuel
  induction fuel with
  | zero =>
    intro mode tail head toks res _ _ _ hres
    simp [Parse_loop] at hres
  | succ n ih =>
    intro mode tail head toks res hth hscan htoks hres
    unfold Parse_loop at hres
    cases hd : deref str head with
    | none => simp [hd] at hres
    | some c =>
      cases hs : Check_symbol c with
      | none => simp [hd, hs] at hres
      | some symbol =>
        cases hn : next_mode mode symbol (if head = 0 then none else deref str (head - 1)) with
        | none => simp [hd, hs, hn] at hres
        | some m' =>
          simp only [hd, hs, hn] at hres
          have hlen : head ≤ str.length := deref_some_le hd
          by_cases hu : m' = Mode._unreachable
          · simp [hu] at hres
          · rw [if_neg hu] at hres
            by_cases hdone : m' = Mode.done
            · rw [if_pos hdone] at hres
              subst hdone
              cases ht : gTransistion_table Mode.done.toInt symbol.toInt with
              | none => simp [ht] at hres
              | some m2 =>
                simp only [ht] at hres
                have hm2 := table_done_row symbol m2 ht
                subst hm2
                have htoks2 : ∀ t ∈ toks ++ [⟨substr str tail (head - tail), tail, head - 1, mode⟩],
                    Token.live t := by
                  intro t ht
                  rcases List.mem_append.mp ht with h1 | h1
                  · exact htoks t h1
                  · rw [List.mem_singleton] at h1
                    subst h1
                    exact ⟨hscan, next_mode_done_ne_empty hn⟩
                by_cases hend : skip_spaces str head = str.length
                · rw [if_pos hend] at hres
                  injection hres with hres
                  subst hres
                  exact htoks2
                · rw [if_neg hend] at hres
                  refine ih Mode.empty (skip_spaces str head) (skip_spaces str head) _ res
                    (Nat.le_refl _) ?_ htoks2 hres
                  simp [scan_live]
            · rw [if_neg hdone] at hres
              by_cases hend : head = str.length
              · exact absurd hres (Parse_loop_gt str n m' tail (head + 1) toks res (by omega))
              · have hlt : head < str.length := by omega
                have hlt2 : head < str.data.length := by simpa using hlt
                rw [deref_lt hlt] at hd
                injection hd with hd
                refine ih m' tail (head + 1) toks res (by omega) ?_ htoks hres
                rw [take_succ_drop str.data tail head hth hlt2, scan_live_snoc, hscan]
                simp only
                have hc : str.data.get ⟨head, hlt2⟩ = c := hd
                rw [hc, hs]
                simp only
                have hfin : ¬ (m' = Mode._unreachable ∨ m' = Mode.done) := by
                  rintro (h | h)
                  · exact hu h
                  · exact hdone h
                by_cases hz : tail = head
                · subst hz
                  have e : tail - tail = 0 := by omega
                  rw [e] at hscan ⊢
                  simp only [List.take_zero, scan_live, Option.some.injEq] at hscan
                  subst hscan
                  simp only [List.take_zero, List.getLast?_nil]
                  rw [next_mode_empty symbol none (if tail = 0 then none else deref str (tail - 1)),
                    hn]
                  simp only
                  rw [if_neg hfin]
                · have hlt3 : tail < head := by omega
                  rw [getLast?_take_drop str.data tail head hlt3 (by omega)]
                  simp only
                  have hh0 : ¬ head = 0 := by omega
                  rw [if_neg hh0, deref_lt (by omega : head - 1 < str.length)] at hn
                  rw [hn]
                  simp only
                  rw [if_neg hfin]

/-- A live text is lexed as one token of the type `scan_live` ends in. -/
theorem Parse_cmd_live (data : String) (m : Mode)
    (h : scan_live Mode.empty none data.data = some m) (hm : m ≠ Mode.empty) :
    Parse_cmd data = .ok [⟨data, 0, data.length - 1, m⟩] := by
  have hreal : lexer_state m :=
    scan_live_real data.data Mode.empty none m (Or.inl rfl) (fun x => by cases x) h
  unfold Parse_cmd
  have e : 2 * data.length + 3 = (data.length + 3) + data.data.length := by
    have : data.data.length = data.length := rfl
    omega
  rw [e, Parse_loop_replay data [] data.data 0 (data.length + 3) Mode.empty m (Nat.zero_le _)
    rfl (by simpa using h)]
  have e2 : data.length + 3 = (data.length + 2) + 1 := rfl
  rw [e2, Parse_loop_done data _ m 0 data.length [] '\x00' eSymbol.seperator (deref_end data)
    Check_symbol_nul (next_mode_terminator _ hreal hm)]
  have hskip : skip_spaces data data.length = data.length := by
    unfold skip_spaces
    have : data.data.drop data.length = [] := List.drop_eq_nil_iff.mpr (Nat.le_refl _)
    rw [this]
    rfl
  rw [if_pos hskip]
  have hsub : substr data 0 (data.length - 0) = data := by
    unfold substr
    simp only [List.drop_zero, Nat.sub_zero]
    have : data.data.take data.data.length = data.data := List.take_length _
    exact congrArg String.mk this
  rw [hsub]
  rfl

/-! ## C13 -/

/-- C13: on every line on which `Parse_cmd` succeeds, lexing the text of any emitted token on
its own succeeds too and emits exactly one token, with the same text and the same type. -/
theorem Parse_cmd_retokenise (str : String) (token_list : List Token)
    (h : Parse_cmd str = .ok token_list) (t : Token) (ht : t ∈ token_list) :
    Parse_cmd t.data = .ok [⟨t.data, 0, t.data.length - 1, t.type⟩] := by
  have hlive : Token.live t := by
    unfold Parse_cmd at h
    refine Parse_loop_live_inv str _ Mode.empty 0 0 [] token_list (Nat.le_refl 0) ?_ ?_ h t ht
    · simp [scan_live]
    · intro t ht
      simp at ht
  exact Parse_cmd_live t.data t.type hlive.1 hlive.2

theorem Parse_cmd_retokenise_witness :
    Parse_cmd "ls -l" = .ok [⟨"ls", 0, 1, Mode.identifier⟩, ⟨"-", 3, 3, Mode.operators⟩,
        ⟨"l", 4, 4, Mode.identifier⟩] ∧
      Parse_cmd "ls" = .ok [⟨"ls", 0, 1, Mode.identifier⟩] :=
  ⟨by decide, Parse_cmd_retokenise "ls -l" [⟨"ls", 0, 1, Mode.identifier⟩,
    ⟨"-", 3, 3, Mode.operators⟩, ⟨"l", 4, 4, Mode.identifier⟩] (by decide)
    ⟨"ls", 0, 1, Mode.identifier⟩ (List.mem_cons_self _ _)⟩

/-! ## C20 -/

/-- C20 fails on the code at the lines `| a`, `< f` and `a < f | b` (the same defect as at the
line `|`): the lexer and the preprocessor accept each of them, and `Execute_entire_cmd`
completes a stage whose argument vector is the null sentinel alone, so that `Get_builtin_func`
reads `cmd_list[0]`, a null pointer, in `strcmp`.  In the third line the stage `a` is completed
first, at the `<`, and the empty stage is completed at the `|`. -/
theorem Execute_entire_cmd_operator_first (chdir : Option String → Bool)
    (junk : Nat → eOperator) :
    run_line (Env.in_parent chdir junk) "| a" = some (.invalid_access [])
      ∧ run_line (Env.in_parent chdir junk) "< f" = some (.invalid_access [])
      ∧ run_line (Env.in_parent chdir junk) "a < f | b"
          = some (.invalid_access [⟨[some "a", none], none, eOperator.in_redirect, true, 0, 2⟩]) :=
  ⟨rfl, rfl, rfl⟩

/-! ## C17 -/

/-- C17 fails on the code at the line `x | b` followed in a child whose `execvp` fails: the
lambda `execute_cmd` returns `false` there, the caller stores it in `is_success` and never reads
it, so the child goes on in the loop, completes the stage `b` as well, and
`Execute_entire_cmd` returns `true` to the read loop in the child.  The line `x` alone returns
`true` in the child in the same way. -/
theorem Execute_entire_cmd_exec_failed (chdir : Option String → Bool)
    (junk : Nat → eOperator) :
    execute_cmd ForkSide.child_exec_failed {} = some (false, {})
      ∧ run_line (Env.in_failed_child chdir junk) "x | b"
          = some (.returned true { instruction_list := ["x", "|", "b"], cmd_count := 0 }
              [⟨[some "x", none], none, eOperator.pipe, true, 0, 2⟩,
                ⟨[some "b", none], none, junk 2, true, 1, 1⟩])
      ∧ run_line (Env.in_failed_child chdir junk) "x"
          = some (.returned true { instruction_list := ["x"], cmd_count := 0, cur_read_pipe := 1 }
              [⟨[some "x", none], none, junk 0, true, 0, 1⟩]) := by
  refine ⟨rfl, ?_, ?_⟩
  · have hp : Parse_cmd "x | b" = .ok [⟨"x", 0, 0, .identifier⟩, ⟨"|", 2, 2, .operators⟩,
        ⟨"b", 4, 4, .identifier⟩] := by decide
    have hq : Preprocess_step [⟨"x", 0, 0, .identifier⟩, ⟨"|", 2, 2, .operators⟩,
        ⟨"b", 4, 4, .identifier⟩] {}
        = .ok { instruction_list := ["x", "|", "b"], cmd_count := 2 } := by decide
    unfold run_line
    rw [hp]
    simp only
    rw [hq]
    simp only
    congr 1
    have e1 := Execute_loop_arg (Env.in_failed_child chdir junk) 3 0
      { instruction_list := ["x", "|", "b"], cmd_count := 2 } [] "x"
      rfl (by decide) (by decide) (by decide)
    have e2 := Execute_loop_stage (Env.in_failed_child chdir junk) 2 1
      { instruction_list := ["x", "|", "b"], cmd_count := 2, cmd_list := [some "x"] }
      { instruction_list := ["x", "|", "b"], cmd_count := 2, cmd_list := [some "x", none] }
      { instruction_list := ["x", "|", "b"], cmd_count := 2, cmd_list := [some "x", none] }
      [] "|" none false rfl (by decide) (Or.inl (by decide)) (by decide) (by decide) rfl rfl
    have e3 := Execute_loop_stage (Env.in_failed_child chdir junk) 1 2
      { instruction_list := ["x", "|", "b"], cmd_count := 1, cmd_list := [], cur_read_pipe := 1 }
      { instruction_list := ["x", "|", "b"], cmd_count := 1, cmd_list := [some "b", none],
        cur_read_pipe := 1 }
      { instruction_list := ["x", "|", "b"], cmd_count := 1, cmd_list := [some "b", none],
        cur_read_pipe := 1 }
      [⟨[some "x", none], none, eOperator.pipe, true, 0, 2⟩] "b" none false rfl (by decide)
      (Or.inr (by decide)) (by decide) (by decide) rfl rfl
    have e4 := Execute_loop_end (Env.in_failed_child chdir junk) 0
      (skip_operand ((Get_operator_type_pair (c_str "b")).getD ⟨"", junk 2⟩).type 2 + 1)
      { instruction_list := ["x", "|", "b"], cmd_count := 0, cmd_list := [] }
      [⟨[some "x", none], none, eOperator.pipe, true, 0, 2⟩,
        ⟨[some "b", none], none, junk 2, true, 1, 1⟩] (Or.inr rfl)
    exact e1.trans (e2.trans (e3.trans e4))
  · rfl

/-! ## The stages of a run -/

/-- A stage leaves `cur_read_pipe`, `cmd_count` and the instructions as they are, in every
continuation of its `fork()`. -/
theorem run_cmd_list_keep (env : Env) (i : Nat) (bf : Option Builtin)
    (src1 src2 : Shell_instruction_list) (b : Bool)
    (h : run_cmd_list env i bf src1 = some (b, src2)) :
    src2.cur_read_pipe = src1.cur_read_pipe ∧ src2.instruction_list = src1.instruction_list
      ∧ src2.cmd_count = src1.cmd_count := by
  cases bf with
  | some f =>
    cases f <;> simp only [run_cmd_list, Builtin.call, Option.some.injEq, Prod.mk.injEq] at h <;>
      obtain ⟨_, h2⟩ := h <;> subst h2 <;> exact ⟨rfl, rfl, rfl⟩
  | none =>
    simp only [run_cmd_list] at h
    cases hf : env.fork i with
    | parent =>
      simp only [hf, execute_cmd, Option.some.injEq, Prod.mk.injEq] at h
      obtain ⟨_, h2⟩ := h
      subst h2
      split <;> exact ⟨rfl, rfl, rfl⟩
    | child_exec_failed =>
      simp only [hf, execute_cmd, Option.some.injEq, Prod.mk.injEq] at h
      obtain ⟨_, h2⟩ := h
      subst h2
      exact ⟨rfl, rfl, rfl⟩
    | child_gone =>
      simp [hf, execute_cmd] at h

/-- An iteration that completes a stage in a child that never returns. -/
theorem Execute_loop_gone (env : Env) (f i : Nat) (src src1 : Shell_instruction_list)
    (stages : List Stage) (x : String) (bf : Option Builtin)
    (hx : src.instruction_list[i]? = some x) (hc : src.cmd_count ≠ 0)
    (hdone : (Get_operator_type_pair (c_str x)).isSome = true ∨ i + 1 = src.size)
    (h1 : src1 = (if (Get_operator_type_pair (c_str x)).isSome = false
        then src.push_cmd (some (c_str x)) else src).push_cmd none)
    (hbf : Get_builtin_func src1 = some bf)
    (hrun : run_cmd_list env i bf src1 = none) :
    Execute_loop env (f + 1) i src stages
      = .child_gone
          (stages ++ [⟨src1.cmd_list, bf,
            ((Get_operator_type_pair (c_str x)).getD ⟨"", env.junk i⟩).type,
            src1.is_first_cmd, src1.cur_read_pipe, src1.cmd_count⟩]) := by
  have hi : i < src.size := by
    unfold Shell_instruction_list.size
    by_contra hcon
    rw [List.getElem?_eq_none (by omega)] at hx
    exact absurd hx (by simp)
  conv_lhs => unfold Execute_loop
  rw [if_pos ⟨hi, hc⟩]
  simp only [hx]
  have hs : (if (Get_operator_type_pair (c_str x)).isSome = false
      then src.push_cmd (some (c_str x)) else src).size = src.size := by
    split <;> rfl
  rw [if_pos (by rw [hs]; exact hdone), ← h1]
  simp only [hbf, hrun]

/-- The stages of a run extend the stages completed before, and `cur_read_pipe` alternates
from one completed stage to the next. -/
theorem Execute_loop_stages (env : Env) :
    ∀ (fuel i : Nat) (src : Shell_instruction_list) (stages : List Stage),
      src.size - i < fuel →
      ∃ new, (Execute_loop env fuel i src stages).stages = stages ++ new
        ∧ ∀ (k : Nat) (st : Stage), new[k]? = some st →
            st.cur_read_pipe = (fun c => if c = 0 then 1 else 0)^[k] src.cur_read_pipe := by
  intro fuel
  induction fuel with
  | zero => intro i src stages h; omega
  | succ n ih =>
    intro i src stages hfuel
    by_cases hguard : i < src.size ∧ src.cmd_count ≠ 0
    · obtain ⟨hi, hc⟩ := hguard
      have hx : src.instruction_list[i]? = some src.instruction_list[i] :=
        List.getElem?_eq_getElem hi
      generalize src.instruction_list[i] = x at hx
      by_cases hdone : (Get_operator_type_pair (c_str x)).isSome = true ∨ i + 1 = src.size
      · have hsz1 : ((if (Get_operator_type_pair (c_str x)).isSome = false
              then src.push_cmd (some (c_str x)) else src).push_cmd none).size = src.size := by
          split <;> rfl
        have hcur1 : ((if (Get_operator_type_pair (c_str x)).isSome = false
              then src.push_cmd (some (c_str x)) else src).push_cmd none).cur_read_pipe
            = src.cur_read_pipe := by
          split <;> rfl
        obtain ⟨src1, h1⟩ : ∃ s, s = ((if (Get_operator_type_pair (c_str x)).isSome = false
              then src.push_cmd (some (c_str x)) else src).push_cmd none) := ⟨_, rfl⟩
        rw [← h1] at hsz1 hcur1
        have hone : ∀ (a : Stage), a.cur_read_pipe = src.cur_read_pipe →
            ∀ (k : Nat) (st : Stage), [a][k]? = some st →
              st.cur_read_pipe = (fun c => if c = 0 then 1 else 0)^[k] src.cur_read_pipe := by
          intro a ha k st hk
          cases k with
          | zero =>
            simp only [List.getElem?_cons_zero, Option.some.injEq] at hk
            subst hk
            exact ha
          | succ k => simp at hk
        cases hbf : Get_builtin_func src1 with
        | none =>
          rw [Execute_loop_invalid _ n i src src1 stages x hx hc hdone h1 hbf]
          exact ⟨[], by simp [ExecResult.stages], by simp⟩
        | some bf =>
          cases hrun : run_cmd_list env i bf src1 with
          | none =>
            rw [Execute_loop_gone _ n i src src1 stages x bf hx hc hdone h1 hbf hrun]
            exact ⟨_, rfl, hone _ hcur1⟩
          | some r =>
            obtain ⟨b, src2⟩ := r
            obtain ⟨k1, k2, _⟩ := run_cmd_list_keep env i bf src1 src2 b hrun
            by_cases hex : src2.exit_flag = true
            · rw [Execute_loop_exit _ n i src src1 src2 stages x bf b hx hc hdone h1 hbf hrun hex]
              exact ⟨_, rfl, hone _ hcur1⟩
            · have hex2 : src2.exit_flag = false := by simpa using hex
              rw [Execute_loop_stage _ n i src src1 src2 stages x bf b hx hc hdone h1 hbf hrun
                hex2]
              have hflip : src2.next_cmd.cur_read_pipe
                  = if src.cur_read_pipe = 0 then 1 else 0 := by
                show (if src2.cur_read_pipe = 0 then 1 else 0) = _
                rw [k1, hcur1]
              obtain ⟨new, e1, e2⟩ := ih
                (skip_operand ((Get_operator_type_pair (c_str x)).getD ⟨"", env.junk i⟩).type i
                  + 1)
                src2.next_cmd
                (stages ++ [⟨src1.cmd_list, bf,
                  ((Get_operator_type_pair (c_str x)).getD ⟨"", env.junk i⟩).type,
                  src1.is_first_cmd, src1.cur_read_pipe, src1.cmd_count⟩])
                (by
                  have : src2.next_cmd.size = src.size := by
                    show src2.instruction_list.length = _
                    rw [k2]
                    exact hsz1
                  rw [this]
                  unfold skip_operand
                  split <;> omega)
              refine ⟨(⟨src1.cmd_list, bf,
                  ((Get_operator_type_pair (c_str x)).getD ⟨"", env.junk i⟩).type,
                  src1.is_first_cmd, src1.cur_read_pipe, src1.cmd_count⟩ : Stage) :: new, ?_, ?_⟩
              · rw [e1]
                simp
              · intro k st hk
                cases k with
                | zero =>
                  simp only [List.getElem?_cons_zero, Option.some.injEq] at hk
                  subst hk
                  exact hcur1
                | succ k =>
                  simp only [List.getElem?_cons_succ] at hk
                  rw [e2 k st hk, hflip, Function.iterate_succ_apply]
      · have hop : Get_operator_type_pair (c_str x) = none := by
          cases h : Get_operator_type_pair (c_str x) with
          | none => rfl
          | some p => exact absurd (Or.inl (by rw [h]; rfl)) hdone
        rw [Execute_loop_arg _ n i src stages x hx hc hop (fun e => hdone (Or.inr e))]
        exact ih (i + 1) (src.push_cmd (some (c_str x))) stages
          (by show src.size - (i + 1) < n; omega)
    · refine ⟨[], ?_, by simp⟩
      rw [Execute_loop_end _ n i src stages]
      · simp [ExecResult.stages]
      · by_contra hcon
        apply hguard
        constructor
        · omega
        · exact fun e => hcon (Or.inr e)

theorem iterate_flip_zero (k : Nat) :
    (fun c : Nat => if c = 0 then 1 else 0)^[k] 0 = k % 2 := by
  induction k with
  | zero => rfl
  | succ k ih =>
    rw [Function.iterate_succ_apply', ih]
    split <;> omega

theorem and_or_resolved {op : String} (h : op ∈ ["&&", "||", "&"]) :
    (Get_operator_type_pair (c_str op)).isSome = true
      ∧ Get_operator_type_pair op ≠ none := by
  simp only [List.mem_cons, List.mem_singleton, List.not_mem_nil, or_false] at h
  rcases h with h | h | h <;> subst h <;> decide

/-! ## C16 -/

/-- C16 fails on the code at the instruction list `a && b`: the stage is completed at the
`&&` with the argument vector `[a, nullptr]`, and `&&` is in no argument vector. -/
theorem Execute_entire_cmd_and_counterexample :
    Execute_entire_cmd (Env.in_parent (fun _ => false) (fun _ => eOperator.pipe))
        { instruction_list := ["a", "&&", "b"], cmd_count := 1 }
      = .returned true
          { instruction_list := ["a", "&&", "b"], cmd_count := 0, cur_read_pipe := 1,
            is_first_cmd := false }
          [⟨[some "a", none], none, eOperator.e_and, true, 0, 1⟩] := by
  decide

/-- C16, amended: when `&&`, `||` or `&` follows the command words `w` (a non-empty run of
strings that are not resolved as operators, not exactly `exit`) at the start of the instruction
list, `Execute_entire_cmd`, followed in the parent process, completes a stage at that string,
as it does at `|`: the argument vector of the first stage is `w` followed by the null sentinel
and does not hold the string, and with `cmd_count = 1` no further stage is completed. -/
theorem Execute_entire_cmd_and_or (chdir : Option String → Bool) (junk : Nat → eOperator)
    (w rest : List String) (op : String) (src : Shell_instruction_list)
    (hop : op ∈ ["&&", "||", "&"]) (hw : w ≠ [])
    (hwords : ∀ x ∈ w, Get_operator_type_pair (c_str x) = none)
    (hexit : w.map c_str ≠ ["exit"]) (hl : src.instruction_list = w ++ op :: rest)
    (hcl : src.cmd_list = []) (hflag : src.exit_flag = false) (hc : src.cmd_count ≠ 0) :
    ∃ st new, (Execute_entire_cmd (Env.in_parent chdir junk) src).stages = st :: new
      ∧ st.argv = argv_of w ∧ some op ∉ st.argv ∧ (src.cmd_count = 1 → new = []) := by
  obtain ⟨hres, hne⟩ := and_or_resolved hop
  have hsize : src.size = w.length + 1 + rest.length := by
    unfold Shell_instruction_list.size
    rw [hl]
    simp only [List.length_append, List.length_cons]
    omega
  obtain ⟨src1, e1, e2, e3, e4, e5⟩ := Execute_loop_args (Env.in_parent chdir junk) [] w []
    (op :: rest) (rest.length + 2) src (by rw [hl]; rfl) (by simp) hc hwords
  have hx : src1.instruction_list[([] : List String).length + w.length]? = some op := by
    rw [e3, hl]
    simp only [List.length_nil, Nat.zero_add]
    exact getElem?_append_cons w op rest
  obtain ⟨src3, st, e6, e7, e8, e9, e10, e11⟩ := Execute_loop_stage_parent chdir junk
    (rest.length + 1) (([] : List String).length + w.length) src1 [] op w hx
    (by rw [e4]; exact hc) (Or.inl hres)
    (by
      rw [if_neg (by rw [hres]; decide)]
      show src1.cmd_list ++ [none] = _
      rw [e2, hcl]
      rfl)
    hw hexit (by rw [e5]; exact hflag)
  have hrun : Execute_entire_cmd (Env.in_parent chdir junk) src
      = Execute_loop (Env.in_parent chdir junk) (rest.length + 1)
          (skip_operand ((Get_operator_type_pair (c_str op)).getD
            ⟨"", junk (([] : List String).length + w.length)⟩).type
            (([] : List String).length + w.length) + 1) src3 ([] ++ [st]) := by
    unfold Execute_entire_cmd
    have ef : src.size + 1 = rest.length + 2 + w.length := by omega
    rw [ef]
    exact e1.trans e6
  obtain ⟨new, e12, _⟩ := Execute_loop_stages (Env.in_parent chdir junk) (rest.length + 1)
    (skip_operand ((Get_operator_type_pair (c_str op)).getD
      ⟨"", junk (([] : List String).length + w.length)⟩).type
      (([] : List String).length + w.length) + 1) src3 ([] ++ [st])
    (by
      have : src3.size = src.size := by
        show src3.instruction_list.length = src.instruction_list.length
        rw [e10, e3]
      rw [this, hsize]
      unfold skip_operand
      simp only [List.length_nil, Nat.zero_add]
      split <;> omega)
  refine ⟨st, new, ?_, e7, ?_, ?_⟩
  · rw [hrun, e12]
    rfl
  · rw [e7]
    intro hmem
    unfold argv_of at hmem
    simp only [List.mem_append, List.mem_map, Option.some.injEq, List.mem_singleton,
      reduceCtorEq, or_false] at hmem
    obtain ⟨x, hxw, hxe⟩ := hmem
    have := hwords x hxw
    rw [hxe] at this
    exact hne this
  · intro h1
    have h0 : src3.cmd_count = 0 := by rw [e11, e4, h1]
    rw [Execute_loop_end _ _ _ _ _ (Or.inr h0)] at e12
    have e13 : [st] = [st] ++ new := e12
    simpa using e13

theorem Execute_entire_cmd_and_or_witness :
    ∃ st new, (Execute_entire_cmd (Env.in_parent (fun _ => false) (fun _ => eOperator.pipe))
        { instruction_list := ["ls", "-l", "&&", "pwd"], cmd_count := 1 }).stages = st :: new
      ∧ st.argv = argv_of ["ls", "-l"] ∧ some "&&" ∉ st.argv
      ∧ (({ instruction_list := ["ls", "-l", "&&", "pwd"], cmd_count := 1 } :
          Shell_instruction_list).cmd_count = 1 → new = []) :=
  Execute_entire_cmd_and_or (fun _ => false) (fun _ => eOperator.pipe) ["ls", "-l"] ["pwd"] "&&"
    { instruction_list := ["ls", "-l", "&&", "pwd"], cmd_count := 1 } (by decide) (by decide)
    (by decide) (by decide) rfl rfl rfl (by decide)

/-! ## Pipelines of external programs -/

theorem Get_builtin_func_congr (s1 s2 : Shell_instruction_list)
    (h : s1.cmd_list = s2.cmd_list) : Get_builtin_func s1 = Get_builtin_func s2 := by
  unfold Get_builtin_func
  rw [h]

/-- The iterations over the arguments `w` of a stage only append them to `cmd_list`. -/
theorem Execute_loop_args_exact (env : Env) (stages : List Stage) :
    ∀ (w pre rest : List String) (f : Nat) (src : Shell_instruction_list),
      src.instruction_list = pre ++ w ++ rest → rest ≠ [] → src.cmd_count ≠ 0 →
      (∀ x ∈ w, Get_operator_type_pair (c_str x) = none) →
      Execute_loop env (f + w.length) pre.length src stages
        = Execute_loop env f (pre.length + w.length)
            { src with cmd_list := src.cmd_list ++ w.map (fun x => some (c_str x)) } stages := by
  intro w
  induction w with
  | nil =>
    intro pre rest f src _ _ _ _
    simp
  | cons x w ih =>
    intro pre rest f src hl hr hc hw
    have hx : src.instruction_list[pre.length]? = some x := by
      rw [hl, List.append_assoc]
      exact getElem?_append_cons pre x (w ++ rest)
    have hlast : pre.length + 1 ≠ src.size := by
      unfold Shell_instruction_list.size
      rw [hl]
      have : rest.length ≠ 0 := fun e => hr (List.length_eq_zero.mp e)
      simp only [List.length_append, List.length_cons]
      omega
    have e1 := Execute_loop_arg env (f + w.length) pre.length src stages x hx hc
      (hw x (List.mem_cons_self _ _)) hlast
    have e2 := ih (pre ++ [x]) rest f (src.push_cmd (some (c_str x)))
      (by show src.instruction_list = _; rw [hl]; simp) hr hc
      (fun y hy => hw y (List.mem_cons_of_mem _ hy))
    have ef : f + (x :: w).length = f + w.length + 1 := by simp; omega
    rw [ef, e1]
    have ep : (pre ++ [x]).length = pre.length + 1 := by simp
    rw [ep] at e2
    rw [e2]
    congr 1
    · simp; omega
    · simp [Shell_instruction_list.push_cmd]

/-- The iteration that completes the stage with the arguments `w` in the parent process, when
`w` is not the call of a builtin. -/
theorem Execute_loop_stage_external (chdir : Option String → Bool) (junk : Nat → eOperator)
    (f i : Nat) (src : Shell_instruction_list) (stages : List Stage) (x : String)
    (w : List String) (hx : src.instruction_list[i]? = some x) (hc : src.cmd_count ≠ 0)
    (hdone : (Get_operator_type_pair (c_str x)).isSome = true ∨ i + 1 = src.size)
    (hA : ((if (Get_operator_type_pair (c_str x)).isSome = false
        then src.push_cmd (some (c_str x)) else src).push_cmd none).cmd_list = argv_of w)
    (hnb : Get_builtin_func { cmd_list := argv_of w } = some none)
    (hflag : src.exit_flag = false) :
    Execute_loop (Env.in_parent chdir junk) (f + 1) i src stages
      = Execute_loop (Env.in_parent chdir junk) f
          (skip_operand ((Get_operator_type_pair (c_str x)).getD ⟨"", junk i⟩).type i + 1)
          { src with
            cmd_list := [],
            cmd_count := src.cmd_count - 1,
            cur_read_pipe := if src.cur_read_pipe = 0 then 1 else 0,
            is_first_cmd := false }
          (stages ++ [⟨argv_of w, none,
            ((Get_operator_type_pair (c_str x)).getD ⟨"", junk i⟩).type,
            src.is_first_cmd, src.cur_read_pipe, src.cmd_count⟩]) := by
  have hbase : ∀ s : Shell_instruction_list,
      ((if (Get_operator_type_pair (c_str x)).isSome = false
        then s.push_cmd (some (c_str x)) else s).push_cmd none)
        = { s with cmd_list := ((if (Get_operator_type_pair (c_str x)).isSome = false
        then s.push_cmd (some (c_str x)) else s).push_cmd none).cmd_list } := by
    intro s
    split <;> rfl
  have hsrc1 := hbase src
  rw [hA] at hsrc1
  have e := Execute_loop_stage (Env.in_parent chdir junk) f i src
    { src with cmd_list := argv_of w }
    (if src.is_first_cmd = true then { src with cmd_list := argv_of w, is_first_cmd := false }
      else { src with cmd_list := argv_of w })
    stages x none true hx hc hdone hsrc1.symm
    ((Get_builtin_func_congr _ { cmd_list := argv_of w } rfl).trans hnb)
    rfl (by split <;> exact hflag)
  rw [e]
  congr 1
  cases h : src.is_first_cmd <;> simp [Shell_instruction_list.next_cmd]

theorem external_ne_nil {w : List String}
    (h : Get_builtin_func { cmd_list := argv_of w } = some none) : w ≠ [] := by
  intro e
  subst e
  exact absurd h (by decide)

theorem Stage.feeds_of {a b : Stage} (ha : a.cmd_count ≠ 1) (hop : a.op = eOperator.pipe)
    (hb : b.is_first_cmd = false)
    (hcur : b.cur_read_pipe = if a.cur_read_pipe = 0 then 1 else 0) : Stage.feeds a b := by
  unfold Stage.feeds Stage.stdout_slot Stage.stdin_slot Stage.recreated_slot
  rw [if_neg ha, if_pos hop, hb, hcur]
  refine ⟨by simp, by simp, ?_⟩
  intro e
  injection e with e
  split at e <;> omega

/-- A pipeline of external programs, followed in the parent process: the stages are completed
in order, and each one feeds the next. -/
theorem Execute_loop_pipe_chain (chdir : Option String → Bool) (junk : Nat → eOperator) :
    ∀ (ws : List (List String)) (pre : List String) (fuel : Nat)
      (src : Shell_instruction_list) (stages : List Stage),
      (∀ w ∈ ws, ∀ x ∈ w, Get_operator_type_pair (c_str x) = none) →
      (∀ w ∈ ws, Get_builtin_func { cmd_list := argv_of w } = some none) →
      src.instruction_list = pre ++ List.intercalate ["|"] ws →
      src.cmd_list = [] → src.exit_flag = false → src.cmd_count = ws.length →
      (List.intercalate ["|"] ws).length < fuel →
      ∃ src1 new, Execute_loop (Env.in_parent chdir junk) fuel pre.length src stages
          = .returned true src1 (stages ++ new)
        ∧ new.map Stage.argv = ws.map argv_of
        ∧ (∀ st ∈ new, st.builtin = none)
        ∧ List.Chain' Stage.feeds new
        ∧ ∀ y ∈ new.head?, y.is_first_cmd = src.is_first_cmd
            ∧ y.cur_read_pipe = src.cur_read_pipe := by
  intro ws
  induction ws with
  | nil =>
    intro pre fuel src stages _ _ hl _ _ _ hf
    obtain ⟨f, rfl⟩ : ∃ f, fuel = f + 1 := ⟨fuel - 1, by omega⟩
    refine ⟨src, [], ?_, rfl, by simp, List.chain'_nil, by simp⟩
    rw [Execute_loop_end _ f _ src stages (Or.inl ?_), List.append_nil]
    unfold Shell_instruction_list.size
    rw [hl]
    simp [List.intercalate]
  | cons w tl ih =>
    intro pre fuel src stages hws hnb hl hcl hflag hcount hf
    have hw := hws w (List.mem_cons_self _ _)
    have hwb := hnb w (List.mem_cons_self _ _)
    have hwne : w ≠ [] := external_ne_nil hwb
    have hc : src.cmd_count ≠ 0 := by rw [hcount]; simp
    cases tl with
    | nil =>
      -- the last stage is completed by the last instruction
      have hi : List.intercalate ["|"] [w] = w := by simp [List.intercalate]
      rw [hi] at hl hf
      have hsplit := (List.dropLast_append_getLast hwne).symm
      generalize w.dropLast = init at hsplit
      generalize w.getLast hwne = last at hsplit
      obtain ⟨f, rfl⟩ : ∃ f, fuel = f + 1 + 1 + init.length := by
        have : w.length = init.length + 1 := by rw [hsplit]; simp
        exact ⟨fuel - init.length - 2, by omega⟩
      have e1 := Execute_loop_args_exact (Env.in_parent chdir junk) stages
        init pre [last] (f + 1 + 1) src (by rw [hl, hsplit, List.append_assoc]) (by simp) hc
        (fun x hx => hw x (by rw [hsplit]; exact List.mem_append_left _ hx))
      have hlast : Get_operator_type_pair (c_str last) = none :=
        hw last (by rw [hsplit]; simp)
      have hx : src.instruction_list[pre.length + init.length]? = some last := by
        rw [hl, hsplit, ← List.append_assoc, ← List.length_append]
        exact getElem?_append_cons (pre ++ init) last []
      have hsize : pre.length + init.length + 1 = src.size := by
        unfold Shell_instruction_list.size
        rw [hl, hsplit]
        simp
        omega
      have e6 := Execute_loop_stage_external chdir junk (f + 1)
        (pre.length + init.length)
        { src with cmd_list := src.cmd_list ++ init.map (fun x => some (c_str x)) }
        stages last w hx hc (Or.inr hsize)
        (by
          rw [hlast]
          show src.cmd_list ++ init.map (fun x => some (c_str x)) ++ [some (c_str last)]
            ++ [none] = _
          rw [hcl, hsplit]
          simp [argv_of])
        hwb hflag
      refine ⟨_, [⟨argv_of w, none,
        ((Get_operator_type_pair (c_str last)).getD ⟨"", junk (pre.length + init.length)⟩).type,
        src.is_first_cmd, src.cur_read_pipe, src.cmd_count⟩],
        e1.trans (e6.trans (Execute_loop_end _ _ _ _ _ (Or.inl ?_))), by simp, ?_,
        List.chain'_singleton _, ?_⟩
      · show src.instruction_list.length ≤ _
        unfold Shell_instruction_list.size at hsize
        rw [← hsize]
        unfold skip_operand
        split <;> omega
      · intro st hst
        rw [List.mem_singleton] at hst
        subst hst
        rfl
      · intro y hy
        simp only [List.head?_cons, Option.mem_def, Option.some.injEq] at hy
        subst hy
        exact ⟨rfl, rfl⟩
    | cons w2 ws2 =>
      -- the stage is completed by the `|` that follows it
      have hi : List.intercalate ["|"] (w :: w2 :: ws2)
          = w ++ "|" :: List.intercalate ["|"] (w2 :: ws2) := by
        simp [List.intercalate]
      rw [hi] at hl hf
      obtain ⟨f, rfl⟩ : ∃ f, fuel = f + 1 + w.length := by
        have : (w ++ "|" :: List.intercalate ["|"] (w2 :: ws2)).length
            = w.length + 1 + (List.intercalate ["|"] (w2 :: ws2)).length := by
          simp; omega
        exact ⟨fuel - w.length - 1, by omega⟩
      have e1 := Execute_loop_args_exact (Env.in_parent chdir junk) stages
        w pre ("|" :: List.intercalate ["|"] (w2 :: ws2)) (f + 1) src
        (by rw [hl, List.append_assoc]) (by simp) hc hw
      have hx : src.instruction_list[pre.length + w.length]? = some "|" := by
        rw [hl, ← List.append_assoc, ← List.length_append]
        exact getElem?_append_cons (pre ++ w) "|" _
      have e6 := Execute_loop_stage_external chdir junk f
        (pre.length + w.length)
        { src with cmd_list := src.cmd_list ++ w.map (fun x => some (c_str x)) }
        stages "|" w hx hc (Or.inl (by rw [pipe_resolved]; rfl))
        (by
          rw [pipe_resolved]
          show src.cmd_list ++ w.map (fun x => some (c_str x)) ++ [none] = _
          rw [hcl]
          simp [argv_of])
        hwb hflag
      rw [pipe_resolved] at e6
      have hskip : skip_operand ((some (⟨"|", eOperator.pipe⟩ : Operator_type_pair)).getD
          ⟨"", junk (pre.length + w.length)⟩).type (pre.length + w.length) + 1
          = (pre ++ w ++ ["|"]).length := by
        simp [skip_operand]
        omega
      rw [hskip] at e6
      obtain ⟨src4, new, e12, e13, e14, e15, e16⟩ := ih (pre ++ w ++ ["|"]) f
        { src with
          cmd_list := [],
          cmd_count := src.cmd_count - 1,
          cur_read_pipe := if src.cur_read_pipe = 0 then 1 else 0,
          is_first_cmd := false }
        (stages ++ [⟨argv_of w, none, eOperator.pipe, src.is_first_cmd, src.cur_read_pipe,
          src.cmd_count⟩])
        (fun v hv => hws v (List.mem_cons_of_mem _ hv))
        (fun v hv => hnb v (List.mem_cons_of_mem _ hv))
        (by show src.instruction_list = _; rw [hl]; simp)
        rfl hflag (by show src.cmd_count - 1 = _; rw [hcount]; simp)
        (by
          have : (w ++ "|" :: List.intercalate ["|"] (w2 :: ws2)).length
              = w.length + 1 + (List.intercalate ["|"] (w2 :: ws2)).length := by
            simp; omega
          omega)
      refine ⟨src4, (⟨argv_of w, none, eOperator.pipe, src.is_first_cmd, src.cur_read_pipe,
        src.cmd_count⟩ : Stage) :: new, ?_, by simp [e13], ?_, ?_, ?_⟩
      · have ea : stages ++ [(⟨argv_of w, none, eOperator.pipe, src.is_first_cmd,
            src.cur_read_pipe, src.cmd_count⟩ : Stage)] ++ new
            = stages ++ (⟨argv_of w, none, eOperator.pipe, src.is_first_cmd,
              src.cur_read_pipe, src.cmd_count⟩ : Stage) :: new := by simp
        rw [ea] at e12
        exact e1.trans (e6.trans e12)
      · intro st hst
        rcases List.mem_cons.mp hst with h | h
        · subst h; rfl
        · exact e14 st h
      · cases new with
        | nil => exact List.chain'_singleton _
        | cons y new2 =>
          refine List.chain'_cons.mpr ⟨?_, e15⟩
          obtain ⟨h1, h2⟩ := e16 y (by simp)
          exact Stage.feeds_of (by show src.cmd_count ≠ 1; rw [hcount]; simp) rfl h1 h2
      · intro y hy
        simp only [List.head?_cons, Option.mem_def, Option.some.injEq] at hy
        subst hy
        exact ⟨rfl, rfl⟩

/-! ## C18 -/

/-- C18: started with `cur_read_pipe = 0`, `Execute_entire_cmd` completes its stage `k`
(counted from 0) with `cur_read_pipe = k mod 2`, in every process that is followed.  For a
pipeline `w1 | ... | wN` of external programs (`Get_builtin_func` returns the empty function
for each `wi`, and no word is resolved as an operator) with `cmd_count = N`, followed in the
parent process, the `N` stages are completed in order and each stage feeds the next: it
duplicates the write end of a pipe slot onto standard output, the next stage duplicates the
read end of the same slot onto standard input, and the slot closed and re-created after the
stage is the other one. -/
theorem Execute_entire_cmd_pipe_slots (env : Env) (src : Shell_instruction_list)
    (hcur : src.cur_read_pipe = 0) :
    (∀ (k : Nat) (st : Stage), (Execute_entire_cmd env src).stages[k]? = some st →
        st.cur_read_pipe = k % 2 ∧ st.recreated_slot = k % 2)
      ∧ ∀ (chdir : Option String → Bool) (junk : Nat → eOperator) (ws : List (List String)),
          env = Env.in_parent chdir junk →
          (∀ w ∈ ws, ∀ x ∈ w, Get_operator_type_pair (c_str x) = none) →
          (∀ w ∈ ws, Get_builtin_func { cmd_list := argv_of w } = some none) →
          src.instruction_list = List.intercalate ["|"] ws →
          src.cmd_list = [] → src.exit_flag = false → src.cmd_count = ws.length →
          ∃ src1 stages, Execute_entire_cmd env src = .returned true src1 stages
            ∧ stages.map Stage.argv = ws.map argv_of
            ∧ (∀ st ∈ stages, st.builtin = none)
            ∧ List.Chain' Stage.feeds stages := by
  constructor
  · intro k st hk
    unfold Execute_entire_cmd at hk
    obtain ⟨new, e1, e2⟩ := Execute_loop_stages env (src.size + 1) 0 src [] (by omega)
    rw [e1, List.nil_append] at hk
    have := e2 k st hk
    rw [hcur, iterate_flip_zero] at this
    exact ⟨this, this⟩
  · intro chdir junk ws henv hws hnb hl hcl hflag hcount
    subst henv
    obtain ⟨src1, new, e1, e2, e3, e4, _⟩ := Execute_loop_pipe_chain chdir junk ws []
      (src.size + 1) src [] hws hnb (by rw [hl]; rfl) hcl hflag hcount
      (by unfold Shell_instruction_list.size; rw [hl]; omega)
    refine ⟨src1, new, ?_, e2, e3, e4⟩
    unfold Execute_entire_cmd
    rw [List.nil_append] at e1
    exact e1

theorem Execute_entire_cmd_pipe_slots_witness :
    ∃ src1 stages,
      Execute_entire_cmd (Env.in_parent (fun _ => false) (fun _ => eOperator.e_and))
          { instruction_list := ["ls", "-l", "|", "grep", "x", "|", "wc"], cmd_count := 3 }
        = .returned true src1 stages
      ∧ stages.map Stage.argv = [["ls", "-l"], ["grep", "x"], ["wc"]].map argv_of
      ∧ (∀ st ∈ stages, st.builtin = none)
      ∧ List.Chain' Stage.feeds stages :=
  (Execute_entire_cmd_pipe_slots (Env.in_parent (fun _ => false) (fun _ => eOperator.e_and))
    { instruction_list := ["ls", "-l", "|", "grep", "x", "|", "wc"], cmd_count := 3 } rfl).2
    (fun _ => false) (fun _ => eOperator.e_and) [["ls", "-l"], ["grep", "x"], ["wc"]] rfl
    (by decide) (by decide) rfl rfl rfl rfl

end SimpleShell
